import Mathlib

/-!
# Verification of the ONNX Runtime allocation planner
  (`onnxruntime/core/framework/allocation_planner.cc`)

A shallow embedding of the planner's data model and algorithms:

* value shapes and the `SameShape` / `SameSize` predicates used by every
  reuse decision;
* the use-count computer `ComputeReuseCount`;
* the single-stream reuse planner `ComputeSingleStreamReusePlan`
  (including `FindReusableInput` and `FindReusableTensor`);
* the multi-stream reuse optimizer `OptimizeReusePlanForMultiStream`;
* the execution-plan builder `BuildExecutionPlan`;
* the deallocation planner `GenerateDeallocationPlan`;
* the partition-configuration reader `DummyPartitioner::Initialize`.

Values (`OrtValueIndex`) are modelled as natural numbers; a `NodeArg` slot
that may be absent (`!Exists()`) is an `Option Nat`.  Machine `int` values
that can meaningfully be negative (kernel alias maps, use counts) are
`Int`.  `ORT_ENFORCE` aborts are modelled as well-formedness hypotheses of
the theorems (the C++ process terminates planning there, so no plan is
produced on those paths).  Training-only code (`ENABLE_TRAINING`) and
memory-profiling code (`ORT_MEMORY_PROFILE`) are compiled out in the
build modelled here.
-/

/-- One dimension of a `TensorShapeProto`: a known numeric value, a named
symbolic parameter, or unknown (neither `dim_value` nor `dim_param` set). -/
inductive DimV : Type where
  | val (n : Int)
  | param (s : String)
  | unknown
deriving DecidableEq, Repr

/-- A tensor shape (`TensorShapeProto`): an ordered list of dimensions. -/
structure Shape : Type where
  dims : List DimV
deriving DecidableEq, Repr

/-- Static type information of a value, as queried by the planner:
whether the element type is `TensorProto_DataType_STRING`, the byte size
of one element (`GetElementSize`), whether the type is a tensor type at
all (`IsNonTensor` is its negation) and whether it is an optional type
(`IsOptionalType`). -/
structure ValueMeta : Type where
  isString : Bool
  eltSize : Nat
  isTensor : Bool
  isOptional : Bool
deriving DecidableEq, Repr

/-- `PlannerImpl::SameShape`, one dimension pair: dimensions agree when both
carry the same known value, or both carry the same non-empty parameter
name. -/
def sameDim : DimV → DimV → Bool
  | DimV.val a, DimV.val b => a == b
  | DimV.param a, DimV.param b => a == b && !(a == "")
  | _, _ => false

/-- `PlannerImpl::SameShape`: equal rank and every dimension pair matching
per `sameDim`. -/
def sameShape (s1 s2 : Shape) : Bool :=
  s1.dims.length == s2.dims.length &&
    (List.zip s1.dims s2.dims).all (fun p => sameDim p.1 p.2)

/-- The static `PlannerImpl::SameSize(shape1, arg1, shape2, arg2)`:
neither value is string-typed, the element sizes agree, and the shapes
match per `sameShape`. -/
def sameSizeShapes (sh1 : Shape) (m1 : ValueMeta) (sh2 : Shape) (m2 : ValueMeta) : Bool :=
  !(m1.isString || m2.isString) && (m1.eltSize == m2.eltSize) && sameShape sh1 sh2

/-- A kernel's view of one graph node, with the metadata the planner reads
from `KernelCreateInfo` and the node relationships it walks.  Argument
lists hold `none` for a `NodeArg` that does not exist (optional missing
argument). -/
structure PNode : Type where
  nid : Nat
  inputs : List (Option Nat)
  implicitInputs : List (Option Nat)
  outputs : List (Option Nat)
  aliasMap : List (Int × Int)
  variadicAlias : Option (Int × Int)
  mayInplace : List (Int × Int)
  hasExternalOutputs : Bool
  opType : String
  provider : String
  inputNodes : List Nat
  outputNodes : List Nat
deriving DecidableEq, Repr

/-- The planner's static input: the graph viewer contents plus the
per-value data the planner queries (`context_->GetShape`, type metadata,
and the memory location assigned by `ComputeValueLocation`).
`parentOpType` is `parent_node_->OpType()` when planning a subgraph.
Memory locations (`OrtMemoryInfo`) are abstracted to natural numbers,
compared only for equality. -/
structure PGraph : Type where
  nodes : List PNode
  graphInputs : List Nat
  graphOutputs : List Nat
  outerScopeArgs : List Nat
  initializers : List Nat
  shape : Nat → Option Shape
  meta : Nat → ValueMeta
  location : Nat → Nat
  numValues : Nat
  parentOpType : Option String

/-- `PlannerImpl::SameSize(arg1, arg2)` on two existing value indices: the
context shapes must both be known, otherwise the values are conservatively
of different size.  (The `Exists()` guard of the C++ overload is handled
at every call site of this function: only existing arguments reach it.) -/
def sameSizeVals (g : PGraph) (v1 v2 : Nat) : Bool :=
  match g.shape v1, g.shape v2 with
  | some s1, some s2 => sameSizeShapes s1 (g.meta v1) s2 (g.meta v2)
  | _, _ => false

/-- The size-equality predicate as the specification words it: neither
value string-typed, equal element sizes, shapes of the same rank with
every dimension either equal by known numeric value or equal by a
non-empty symbolic parameter name; unknown (null) shapes differ. -/
def specSameSize (g : PGraph) (v1 v2 : Nat) : Prop :=
  ∃ s1 s2, g.shape v1 = some s1 ∧ g.shape v2 = some s2 ∧
    (g.meta v1).isString = false ∧ (g.meta v2).isString = false ∧
    (g.meta v1).eltSize = (g.meta v2).eltSize ∧
    s1.dims.length = s2.dims.length ∧
    ∀ i (h1 : i < s1.dims.length) (h2 : i < s2.dims.length),
      (∃ n : Int, s1.dims.get ⟨i, h1⟩ = DimV.val n ∧ s2.dims.get ⟨i, h2⟩ = DimV.val n) ∨
      (∃ p : String, p ≠ "" ∧ s1.dims.get ⟨i, h1⟩ = DimV.param p ∧
        s2.dims.get ⟨i, h2⟩ = DimV.param p)

theorem sameDim_iff (d1 d2 : DimV) :
    sameDim d1 d2 = true ↔
      (∃ n : Int, d1 = DimV.val n ∧ d2 = DimV.val n) ∨
      (∃ p : String, p ≠ "" ∧ d1 = DimV.param p ∧ d2 = DimV.param p) := by
  constructor
  · intro h
    cases d1 with
    | val a =>
      cases d2 with
      | val b =>
        simp only [sameDim, beq_iff_eq] at h
        exact Or.inl ⟨a, rfl, by rw [h]⟩
      | param b => simp [sameDim] at h
      | unknown => simp [sameDim] at h
    | param a =>
      cases d2 with
      | val b => simp [sameDim] at h
      | param b =>
        simp only [sameDim, Bool.and_eq_true, beq_iff_eq, Bool.not_eq_true',
          beq_eq_false_iff_ne, ne_eq] at h
        exact Or.inr ⟨a, h.2, rfl, by rw [h.1]⟩
      | unknown => simp [sameDim] at h
    | unknown => cases d2 <;> simp [sameDim] at h
  · rintro (⟨n, rfl, rfl⟩ | ⟨p, hp, rfl, rfl⟩)
    · simp [sameDim]
    · simp [sameDim, hp]

theorem sameShape_iff (s1 s2 : Shape) :
    sameShape s1 s2 = true ↔
      s1.dims.length = s2.dims.length ∧
      ∀ i (h1 : i < s1.dims.length) (h2 : i < s2.dims.length),
        sameDim (s1.dims.get ⟨i, h1⟩) (s2.dims.get ⟨i, h2⟩) = true := by
  unfold sameShape
  rw [Bool.and_eq_true, beq_iff_eq, List.all_eq_true]
  constructor
  · rintro ⟨hlen, hall⟩
    refine ⟨hlen, fun i h1 h2 => ?_⟩
    have hz : i < (List.zip s1.dims s2.dims).length := by
      rw [List.length_zip]; omega
    have := hall _ (List.get_mem (List.zip s1.dims s2.dims) _ hz)
    rw [List.get_eq_getElem, List.getElem_zip] at this
    simpa using this
  · rintro ⟨hlen, hall⟩
    refine ⟨hlen, fun p hp => ?_⟩
    rcases List.mem_iff_get.mp hp with ⟨⟨i, hi⟩, rfl⟩
    have hi1 : i < s1.dims.length := by rw [List.length_zip] at hi; omega
    have hi2 : i < s2.dims.length := by rw [List.length_zip] at hi; omega
    have := hall i hi1 hi2
    rw [List.get_eq_getElem, List.getElem_zip]
    simpa using this

/-- C6. The size-equality predicate used by every reuse decision
(`PlannerImpl::SameSize` together with `SameShape`) holds exactly when:
neither value is string-typed, their element sizes are equal, and their
shapes have the same rank with every dimension either equal by known
numeric value or by a non-empty symbolic parameter name; when either
value's shape is unknown, the values are treated as different sizes. -/
theorem sameSize_iff_spec (g : PGraph) (v1 v2 : Nat) :
    sameSizeVals g v1 v2 = true ↔ specSameSize g v1 v2 := by
  unfold sameSizeVals specSameSize
  cases h1 : g.shape v1 with
  | none => simp
  | some s1 =>
    cases h2 : g.shape v2 with
    | none => simp
    | some s2 =>
      simp only [Option.some.injEq]
      constructor
      · intro hss
        unfold sameSizeShapes at hss
        rw [Bool.and_eq_true, Bool.and_eq_true] at hss
        obtain ⟨⟨hstr, helt⟩, hshape⟩ := hss
        obtain ⟨hs1, hs2⟩ : (g.meta v1).isString = false ∧ (g.meta v2).isString = false := by
          simpa using hstr
        rw [sameShape_iff] at hshape
        exact ⟨s1, s2, rfl, rfl, hs1, hs2, beq_iff_eq.mp helt, hshape.1,
          fun i hh1 hh2 => (sameDim_iff _ _).mp (hshape.2 i hh1 hh2)⟩
      · rintro ⟨t1, t2, ht1, ht2, hstr1, hstr2, helt, hlen, hdims⟩
        cases ht1; cases ht2
        unfold sameSizeShapes
        rw [Bool.and_eq_true, Bool.and_eq_true]
        refine ⟨⟨by simp [hstr1, hstr2], by simp [helt]⟩, ?_⟩
        rw [sameShape_iff]
        exact ⟨hlen, fun i hh1 hh2 => (sameDim_iff _ _).mpr (hdims i hh1 hh2)⟩

/-- Pointwise update of a function-backed map. -/
def upd {α : Type} (f : Nat → α) (k : Nat) (v : α) : Nat → α :=
  fun x => if x = k then v else f x

theorem upd_same {α : Type} (f : Nat → α) (k : Nat) (v : α) : upd f k v k = v := by
  simp [upd]

theorem upd_ne {α : Type} (f : Nat → α) (k : Nat) (v : α) {x : Nat} (h : x ≠ k) :
    upd f k v x = f x := by
  simp [upd, h]

/-- Look up input slot `i` (a C++ `int`) of an argument list: `some v` exactly
when `0 <= i`, `i < size` and the argument exists — the three guards every
alias lookup in `FindReusableInput` / `TryReuseInput` performs. -/
def argAt (l : List (Option Nat)) (i : Int) : Option Nat :=
  if i < 0 then none else (l.getD i.toNat none)

/-- Output slot `k` of a node when that output exists. -/
def listGetOpt (l : List (Option Nat)) (k : Nat) : Option Nat :=
  (l.getD k none)

/-- The existing values of an argument list (`Exists()` arguments only),
in order; models `Node::ForEachWithIndex`, which skips absent optional
arguments. -/
def occVals (l : List (Option Nat)) : List Nat := l.filterMap id

/-- `AllocKind` (`core/framework/alloc_kind.h`), as printed by the planner's
`operator<<`. -/
inductive AllocKind : Type where
  | allocate
  | allocateStatically
  | preExisting
  | reuse
  | allocateOutput
  | share
  | allocatedExternally
  | notSet
deriving DecidableEq, Repr

/-- The per-value slice of `AllocPlanPerValue` the reuse planners mutate:
the kind and the `reused_buffer` index (`0` until a reuse is recorded during
planning).  The `location` field is kept in `PGraph.location`, since
`ComputeValueLocation` fixes it before any reuse decision runs. -/
structure AllocEntry : Type where
  kind : AllocKind
  reusedBuffer : Nat
deriving DecidableEq, Repr

/-- Modelled from the spec: the `ISequentialPlannerContext` switches the
planner consults — `IsParallelExecutionEnabled()` (true for the
`ParalllelPlannerContext` used to build the multi-stream baseline, which
suppresses reuse) and `GetEnableMemoryReuse()`.  `GetShape` is modelled by
`PGraph.shape`. -/
structure PlannerCtx : Type where
  parallel : Bool
  enableMemoryReuse : Bool
deriving DecidableEq, Repr

/-- The mutable state of the single-stream reuse planner: the per-value
use counts (`OrtValueInfo::usecount`), the reuse-root pointers
(`OrtValueInfo::reused_buffer_index`), the allocation-plan entries and the
freelist (most recently freed first).  `assertOk` is a ghost flag recording
that the `assert(use_count >= 0)` in `DecrementUseCount` never failed. -/
structure PassState : Type where
  count : Nat → Int
  buffer : Nat → Nat
  plan : Nat → AllocEntry
  freelist : List Nat
  assertOk : Bool

/-- `PlannerImpl::Reuse`: chase `reused` to its buffer root, point
`reusedFor` at that root, fold `reusedFor`'s use count into the root's, and
record the allocation kind and reused buffer in the plan entry. -/
def doReuse (s : PassState) (reused reusedFor : Nat) (kind : AllocKind) : PassState :=
  let original := s.buffer reused
  { s with
    buffer := upd s.buffer reusedFor original
    count := upd s.count original (s.count original + s.count reusedFor)
    plan := upd s.plan reusedFor ⟨kind, original⟩ }

/-- Record an allocation kind without touching the reused-buffer field
(the C++ assigns `alloc_kind` alone). -/
def setPlanKind (s : PassState) (v : Nat) (k : AllocKind) : PassState :=
  { s with plan := upd s.plan v { s.plan v with kind := k } }

/-- `PlannerImpl::DecrementUseCount` applied to the buffer root of one
input/output occurrence, plus the freelist push of
`ComputeSingleStreamReusePlan` when the root's count reaches zero.  The
ghost `assertOk` flag records the `assert(use_count >= 0)`. -/
def decOne (s : PassState) (v : Nat) : PassState :=
  let r := s.buffer v
  let c := s.count r - 1
  { s with
    count := upd s.count r c
    freelist := if c = 0 then r :: s.freelist else s.freelist
    assertOk := s.assertOk && decide (0 ≤ c) }

/-- The alias-map clause of `PlannerImpl::FindReusableInput`: the first
alias pair targeting output `k` whose input index is in range and whose
input exists is reused unconditionally. -/
def findAlias (n : PNode) (k : Nat) : Option Nat :=
  n.aliasMap.findSome? fun p =>
    if p.2 = (k : Int) then argAt n.inputs p.1 else none

/-- The variadic-alias clause of `PlannerImpl::FindReusableInput`: output
`k` must alias input `k - output_offset + input_offset` when that input
exists. -/
def findVariadic (n : PNode) (k : Nat) : Option Nat :=
  match n.variadicAlias with
  | none => none
  | some io => argAt n.inputs ((k : Int) - io.2 + io.1)

/-- The may-inplace clause of `PlannerImpl::FindReusableInput`: the first
may-inplace pair targeting output `k` whose existing input's buffer root
has use count exactly 1 and whose sizes match (`SameSize`). -/
def findInplace (g : PGraph) (s : PassState) (n : PNode) (k : Nat) (outV : Nat) :
    Option Nat :=
  n.mayInplace.findSome? fun p =>
    if p.2 = (k : Int) then
      match argAt n.inputs p.1 with
      | some v =>
        if s.count (s.buffer v) = 1 ∧ sameSizeVals g v outV = true then some v else none
      | none => none
    else none

/-- `PlannerImpl::FindReusableInput` (non-training build): alias map, then
variadic alias, then may-inplace; `is_strided_tensor` is always false. -/
def findReusableInput (g : PGraph) (s : PassState) (n : PNode) (k : Nat) (outV : Nat) :
    Option Nat :=
  ((findAlias n k).orElse fun _ => findVariadic n k).orElse fun _ =>
    findInplace g s n k outV

/-- The freelist scan of `PlannerImpl::FindReusableTensor`: skip entries of
optional type, entries at a different location and entries with unknown
shape; the first remaining entry of the same size is taken and erased from
the freelist. -/
def keepHead (r : Nat) (res : Option (Nat × List Nat)) : Option (Nat × List Nat) :=
  res.map fun pr => (pr.1, r :: pr.2)

def findReusableTensorAux (g : PGraph) (outV : Nat) (reqShape : Shape) :
    List Nat → Option (Nat × List Nat)
  | [] => none
  | r :: rest =>
    if (g.meta r).isOptional then keepHead r (findReusableTensorAux g outV reqShape rest)
    else if g.location r ≠ g.location outV then
      keepHead r (findReusableTensorAux g outV reqShape rest)
    else
      match g.shape r with
      | some sh =>
        if sameSizeShapes sh (g.meta r) reqShape (g.meta outV) then some (r, rest)
        else keepHead r (findReusableTensorAux g outV reqShape rest)
      | none => keepHead r (findReusableTensorAux g outV reqShape rest)

/-- `PlannerImpl::FindReusableTensor`: nothing is reused when memory reuse
is disabled, when the required shape is unknown, or when it has rank 0;
otherwise scan the freelist.  Returns the reused value and the freelist
with that entry erased. -/
def findReusableTensor (g : PGraph) (ctx : PlannerCtx) (s : PassState) (outV : Nat) :
    Option (Nat × List Nat) :=
  if ¬ctx.enableMemoryReuse then none
  else
    match g.shape outV with
    | some sh =>
      if sh.dims.length = 0 then none
      else findReusableTensorAux g outV sh s.freelist
    | none => none

/-- Branches 4–6 of the per-output chain in
`PlannerImpl::ComputeSingleStreamReusePlan`: non-tensor values are always
freshly allocated; otherwise, with parallel execution disabled, a freed
buffer of the same location and size may be taken from the freelist;
otherwise a new buffer is allocated. -/
def planOutputTail (g : PGraph) (ctx : PlannerCtx) (v : Nat) (s : PassState) : PassState :=
  if ¬(g.meta v).isTensor then setPlanKind s v AllocKind.allocate
  else if ctx.parallel then setPlanKind s v AllocKind.allocate
  else
    match findReusableTensor g ctx s v with
    | some rf => doReuse { s with freelist := rf.2 } rf.1 v AllocKind.reuse
    | none => setPlanKind s v AllocKind.allocate

/-- The Loop/Identity special case within the graph-output branch of
`ComputeSingleStreamReusePlan`: keep `AllocateOutput` for the
loop-iteration argument, otherwise `Share` the first input when its plan
entry (read after the output was marked `AllocateOutput`) is
`PreExisting`.  The C++ reads `graph_viewer_.GetInputs()[0]` without a
bounds check; with no graph inputs that read would be out of bounds, here
the comparison is simply false. -/
def loopShareResult (g : PGraph) (s : PassState) (v : Nat) : List (Option Nat) → PassState
  | some inV :: _ =>
    if g.graphInputs.head? = some inV then setPlanKind s v AllocKind.allocateOutput
    else if ((setPlanKind s v AllocKind.allocateOutput).plan inV).kind =
        AllocKind.preExisting then
      doReuse (setPlanKind s v AllocKind.allocateOutput) inV v AllocKind.share
    else setPlanKind s v AllocKind.allocateOutput
  | _ => setPlanKind s v AllocKind.allocateOutput

/-- The per-output body of `PlannerImpl::ComputeSingleStreamReusePlan` for
an existing output `v`: external outputs, then graph outputs (with the
Loop/Identity `Share` special case), then reusable inputs (parallel
execution disabled), then the non-tensor / freelist / fresh-allocation
tail. -/
def planOutputV (g : PGraph) (ctx : PlannerCtx) (n : PNode) (k : Nat) (v : Nat)
    (s : PassState) : PassState :=
  if n.hasExternalOutputs then setPlanKind s v AllocKind.allocatedExternally
  else if v ∈ g.graphOutputs then
    if g.parentOpType = some "Loop" ∧ n.opType = "Identity" then
      loopShareResult g s v n.inputs
    else setPlanKind s v AllocKind.allocateOutput
  else if ctx.parallel then planOutputTail g ctx v s
  else
    match findReusableInput g s n k v with
    | some r => doReuse s r v AllocKind.reuse
    | none => planOutputTail g ctx v s

/-- One output slot of one node: a missing (optional) output leaves the
state untouched. -/
def planOutput (g : PGraph) (ctx : PlannerCtx) (n : PNode) (k : Nat) (s : PassState) :
    PassState :=
  match listGetOpt n.outputs k with
  | none => s
  | some v => planOutputV g ctx n k v s

/-- The buffer-root decrement events one node step performs, in program
order: existing explicit inputs, existing implicit inputs, then the
node's own existing outputs. -/
def nodeOccList (n : PNode) : List Nat :=
  occVals n.inputs ++ occVals n.implicitInputs ++ occVals n.outputs

/-- One iteration of the program-counter loop of
`ComputeSingleStreamReusePlan`: plan each of the node's outputs, then
decrement the buffer roots of every input/implicit-input/output
occurrence, pushing roots that reach use count zero onto the freelist. -/
def processNode (g : PGraph) (ctx : PlannerCtx) (s : PassState) (n : PNode) : PassState :=
  let s1 := (List.range n.outputs.length).foldl (fun s k => planOutput g ctx n k s) s
  (nodeOccList n).foldl decOne s1

/-- `PlannerImpl::ComputeSingleStreamReusePlan`: the nodes in topological
order, each planned then decremented. -/
def computeSingleStreamReusePlan (g : PGraph) (ctx : PlannerCtx) (s0 : PassState) :
    PassState :=
  g.nodes.foldl (processNode g ctx) s0

/-- Add `d` to the use count of every element of `vs`, one bump per
occurrence. -/
def bumpAllBy (c : Nat → Int) (vs : List Nat) (d : Int) : Nat → Int :=
  vs.foldl (fun c v => upd c v (c v + d)) c

/-- The per-node increments of `PlannerImpl::ComputeReuseCount`: one per
existing explicit input, one per existing implicit input, and one per
existing output — two when the kernel declares external outputs. -/
def nodeUseCounts (c : Nat → Int) (n : PNode) : Nat → Int :=
  bumpAllBy (bumpAllBy (bumpAllBy c (occVals n.inputs) 1) (occVals n.implicitInputs) 1)
    (occVals n.outputs) (if n.hasExternalOutputs then 2 else 1)

/-- `GraphViewer::GetNode`. -/
def findNode (g : PGraph) (i : Nat) : Option PNode :=
  g.nodes.find? (fun n => n.nid = i)

/-- `PlannerImpl::ComputeReuseCount`: graph inputs, outer-scope args and
initializers first, then every node of every stream, then graph outputs;
`none` models the error status when a stream names an unknown node. -/
def computeReuseCount (g : PGraph) (streams : List (List Nat)) : Option (Nat → Int) :=
  match streams.foldlM
      (fun c sl =>
        sl.foldlM
          (fun c nidx =>
            match findNode g nidx with
            | none => none
            | some n => some (nodeUseCounts c n))
          c)
      (bumpAllBy (bumpAllBy (bumpAllBy (fun _ => 0) g.graphInputs 1) g.outerScopeArgs 1)
        g.initializers 1) with
  | none => none
  | some c4 => some (bumpAllBy c4 g.graphOutputs 1)

/-- The number of use-count increments node `n` contributes to value `v`
in `ComputeReuseCount`. -/
def occCountIn (v : Nat) (n : PNode) : Int :=
  ((occVals n.inputs).count v : Int) + ((occVals n.implicitInputs).count v : Int) +
    (if n.hasExternalOutputs then 2 else 1) * ((occVals n.outputs).count v : Int)

theorem bumpAllBy_apply (vs : List Nat) (c : Nat → Int) (d : Int) (v : Nat) :
    bumpAllBy c vs d v = c v + d * (vs.count v : Int) := by
  induction vs generalizing c with
  | nil => simp [bumpAllBy]
  | cons u vs ih =>
    show bumpAllBy (upd c u (c u + d)) vs d v = _
    rw [ih]
    rcases eq_or_ne v u with rfl | hne
    · rw [upd_same, List.count_cons_self]
      push_cast
      ring
    · rw [upd_ne _ _ _ hne, List.count_cons_of_ne hne]

theorem nodeUseCounts_apply (c : Nat → Int) (n : PNode) (v : Nat) :
    nodeUseCounts c n v = c v + occCountIn v n := by
  unfold nodeUseCounts occCountIn
  rw [bumpAllBy_apply, bumpAllBy_apply, bumpAllBy_apply]
  ring

theorem foldlM_counts_eq (g : PGraph) (l : List Nat) (ns : List PNode) (c : Nat → Int)
    (h : l.mapM (findNode g) = some ns) :
    l.foldlM
        (fun c nidx =>
          match findNode g nidx with
          | none => none
          | some n => some (nodeUseCounts c n))
        c =
      some (ns.foldl nodeUseCounts c) := by
  induction l generalizing ns c with
  | nil =>
    simp only [List.mapM_nil, pure, Option.some.injEq] at h
    subst h
    rfl
  | cons a l ih =>
    rw [List.mapM_cons] at h
    cases hfa : findNode g a with
    | none => rw [hfa] at h; simp at h
    | some n0 =>
      rw [hfa] at h
      cases hfl : l.mapM (findNode g) with
      | none => rw [hfl] at h; simp at h
      | some ns0 =>
        rw [hfl] at h
        simp only [Option.bind_eq_bind, Option.some_bind, Option.some.injEq, pure] at h
        subst h
        rw [List.foldlM_cons]
        simp only [hfa]
        show l.foldlM _ (nodeUseCounts c n0) = _
        rw [ih _ _ hfl]
        rfl

theorem foldlM_streams_eq (g : PGraph) (streams : List (List Nat)) (nss : List (List PNode))
    (c : Nat → Int) (h : streams.mapM (fun sl => sl.mapM (findNode g)) = some nss) :
    streams.foldlM
        (fun c sl =>
          sl.foldlM
            (fun c nidx =>
              match findNode g nidx with
              | none => none
              | some n => some (nodeUseCounts c n))
            c)
        c =
      some ((nss.flatten).foldl nodeUseCounts c) := by
  induction streams generalizing nss c with
  | nil =>
    simp only [List.mapM_nil, pure, Option.some.injEq] at h
    subst h
    rfl
  | cons sl streams ih =>
    rw [List.mapM_cons] at h
    cases hfa : sl.mapM (findNode g) with
    | none => rw [hfa] at h; simp at h
    | some ns0 =>
      rw [hfa] at h
      cases hfl : streams.mapM (fun sl => sl.mapM (findNode g)) with
      | none => rw [hfl] at h; simp at h
      | some nss0 =>
        rw [hfl] at h
        simp only [Option.bind_eq_bind, Option.some_bind, Option.some.injEq, pure] at h
        subst h
        rw [List.foldlM_cons]
        rw [foldlM_counts_eq g sl ns0 c hfa]
        show streams.foldlM _ (ns0.foldl nodeUseCounts c) = _
        rw [ih _ _ hfl]
        rw [List.flatten_cons, List.foldl_append]

theorem foldl_nodeUseCounts_apply (ns : List PNode) (c : Nat → Int) (v : Nat) :
    (ns.foldl nodeUseCounts c) v = c v + (ns.map (occCountIn v)).sum := by
  induction ns generalizing c with
  | nil => simp
  | cons n ns ih =>
    show (ns.foldl nodeUseCounts (nodeUseCounts c n)) v = _
    rw [ih, nodeUseCounts_apply]
    simp [add_assoc]

/-- C7. The use-count computer assigns every value: +1 per occurrence as
an explicit or implicit input of any node, +1 per graph input, +1 per
outer-scope arg, +1 per initializer, +1 per graph output, and +1 per
existing node-output occurrence — replaced by +2 when the producing
kernel declares external outputs (`occCountIn` folds the three per-node
contributions together). -/
theorem computeReuseCount_formula (g : PGraph) (streams : List (List Nat))
    (nss : List (List PNode)) (cnt : Nat → Int)
    (hres : streams.mapM (fun sl => sl.mapM (findNode g)) = some nss)
    (hcnt : computeReuseCount g streams = some cnt) (v : Nat) :
    cnt v = (g.graphInputs.count v : Int) + (g.outerScopeArgs.count v : Int) +
      (g.initializers.count v : Int) + ((nss.flatten.map (occCountIn v)).sum) +
      (g.graphOutputs.count v : Int) := by
  unfold computeReuseCount at hcnt
  rw [foldlM_streams_eq g streams nss _ hres] at hcnt
  simp only [Option.some.injEq] at hcnt
  subst hcnt
  rw [bumpAllBy_apply, foldl_nodeUseCounts_apply, bumpAllBy_apply, bumpAllBy_apply,
    bumpAllBy_apply]
  ring

/-- Default tensor metadata for the example graphs: non-string, 4-byte
elements, tensor type, non-optional. -/
def exMeta : ValueMeta := ⟨false, 4, true, false⟩

/-- Example node A: consumes value 0, produces value 1. -/
def exNodeA : PNode :=
  ⟨0, [some 0], [], [some 1], [], none, [], false, "Relu", "CPU", [], [1]⟩

/-- Example node B: consumes value 1, produces value 2; its kernel
declares external outputs. -/
def exNodeB : PNode :=
  ⟨1, [some 1], [], [some 2], [], none, [], true, "Custom", "CPU", [0], []⟩

/-- A two-node chain 0 →A→ 1 →B→ 2 with graph input 0 and graph output 2. -/
def exG7 : PGraph :=
  ⟨[exNodeA, exNodeB], [0], [2], [], [], fun _ => none, fun _ => exMeta,
    fun _ => 0, 3, none⟩

/-- The two streams of the example partition. -/
def exStreams7 : List (List Nat) := [[0], [1]]

/-- The resolved stream nodes of the example. -/
def exNss7 : List (List PNode) :=
  (exStreams7.mapM (fun sl : List Nat => sl.mapM (findNode exG7))).getD []

/-- The computed use counts of the example. -/
def exCnt7 : Nat → Int :=
  (computeReuseCount exG7 exStreams7).getD (fun _ => 0)

/-- Witness for C7 at the concrete example graph (value 2 is B's external
output and the graph output: 2 + 1 = 3). -/
theorem computeReuseCount_formula_witness :
    exCnt7 2 = (exG7.graphInputs.count 2 : Int) + (exG7.outerScopeArgs.count 2 : Int) +
      (exG7.initializers.count 2 : Int) + ((exNss7.flatten.map (occCountIn 2)).sum) +
      (exG7.graphOutputs.count 2 : Int) :=
  computeReuseCount_formula exG7 exStreams7 exNss7 exCnt7 rfl rfl 2

theorem findSome?_some_mem {α β : Type} (f : α → Option β) (l : List α) (b : β)
    (h : l.findSome? f = some b) : ∃ a ∈ l, f a = some b := by
  induction l with
  | nil => cases h
  | cons x l ih =>
    rw [List.findSome?_cons] at h
    cases hf : f x with
    | none =>
      simp only [hf] at h
      obtain ⟨a, ha, hfa⟩ := ih h
      exact ⟨a, List.mem_cons_of_mem _ ha, hfa⟩
    | some y =>
      simp only [hf] at h
      exact ⟨x, List.mem_cons_self x l, hf.trans h⟩

theorem findInplace_cond (g : PGraph) (s : PassState) (n : PNode) (k : Nat) (ov r : Nat)
    (h : findInplace g s n k ov = some r) :
    s.count (s.buffer r) = 1 ∧ sameSizeVals g r ov = true := by
  unfold findInplace at h
  obtain ⟨p, hp, hf⟩ := findSome?_some_mem _ _ _ h
  by_cases h2 : p.2 = (k : Int)
  · rw [if_pos h2] at hf
    cases hv : argAt n.inputs p.1 with
    | none => simp only [hv] at hf; cases hf
    | some v =>
      simp only [hv] at hf
      by_cases hc : s.count (s.buffer v) = 1 ∧ sameSizeVals g v ov = true
      · rw [if_pos hc] at hf
        cases hf
        exact hc
      · rw [if_neg hc] at hf; cases hf
  · rw [if_neg h2] at hf; cases hf

/-- C4. In `PlannerImpl::FindReusableInput`: a mandatory alias-map match is
reused for any planner state (no use-count or size check); with no alias
match, a variadic-alias match likewise; and a reuse produced with no
alias/variadic match comes from the may-inplace scan, so the candidate
input's buffer root has use count exactly 1 and the sizes are equal under
the symbolic shape-equality rule. -/
theorem findReusableInput_policy (g : PGraph) (s : PassState) (n : PNode) (k : Nat)
    (ov : Nat) :
    (∀ r, findAlias n k = some r → findReusableInput g s n k ov = some r) ∧
    (findAlias n k = none →
      ∀ r, findVariadic n k = some r → findReusableInput g s n k ov = some r) ∧
    (findAlias n k = none → findVariadic n k = none →
      ∀ r, findReusableInput g s n k ov = some r →
        s.count (s.buffer r) = 1 ∧ sameSizeVals g r ov = true) := by
  refine ⟨?_, ?_, ?_⟩
  · intro r hr
    unfold findReusableInput
    rw [hr]
    rfl
  · intro ha r hr
    unfold findReusableInput
    rw [ha, hr]
    rfl
  · intro ha hv r hr
    unfold findReusableInput at hr
    rw [ha, hv] at hr
    exact findInplace_cond g s n k ov r hr

/-- A node with a single may-inplace pair `(0, 0)`. -/
def exNodeInp : PNode :=
  ⟨0, [some 1], [], [some 2], [], none, [(0, 0)], false, "Op", "CPU", [], []⟩

/-- A graph in which every value has shape `[4]` and the default metadata. -/
def exG4 : PGraph :=
  ⟨[exNodeInp], [], [], [], [], fun _ => some ⟨[DimV.val 4]⟩, fun _ => exMeta,
    fun _ => 0, 3, none⟩

/-- A planner state where every use count is 1 and no reuse was recorded. -/
def exS4 : PassState :=
  ⟨fun _ => 1, fun v => v, fun _ => ⟨AllocKind.notSet, 0⟩, [], true⟩

/-- Witness for C4: on the concrete may-inplace node, the reuse decision
implies last use (count 1) and size equality. -/
theorem findReusableInput_policy_witness :
    exS4.count (exS4.buffer 1) = 1 ∧ sameSizeVals exG4 1 2 = true :=
  (findReusableInput_policy exG4 exS4 exNodeInp 0 2).2.2 rfl rfl 1 rfl

theorem findReusableTensorAux_sound (g : PGraph) (outV : Nat) (reqShape : Shape)
    (fl : List Nat) (r : Nat) (rest : List Nat)
    (h : findReusableTensorAux g outV reqShape fl = some (r, rest)) :
    r ∈ fl ∧ g.location r = g.location outV ∧
      ∃ sh, g.shape r = some sh ∧ sameSizeShapes sh (g.meta r) reqShape (g.meta outV) = true := by
  induction fl generalizing rest with
  | nil => cases h
  | cons a fl ih =>
    have hkeep :
        ∀ rest2 : List Nat,
          keepHead a (findReusableTensorAux g outV reqShape fl) = some (r, rest2) →
            r ∈ a :: fl ∧ g.location r = g.location outV ∧
              ∃ sh, g.shape r = some sh ∧
                sameSizeShapes sh (g.meta r) reqShape (g.meta outV) = true := by
      intro rest2 h2
      unfold keepHead at h2
      obtain ⟨⟨r0, rest0⟩, hrec, hpr⟩ := Option.map_eq_some'.mp h2
      have h3 : r0 = r := congrArg Prod.fst hpr
      subst h3
      obtain ⟨hm, hl, hsh⟩ := ih rest0 hrec
      exact ⟨List.mem_cons_of_mem _ hm, hl, hsh⟩
    unfold findReusableTensorAux at h
    by_cases hopt : (g.meta a).isOptional
    · rw [if_pos hopt] at h
      exact hkeep _ h
    · rw [if_neg hopt] at h
      by_cases hloc : g.location a ≠ g.location outV
      · rw [if_pos hloc] at h
        exact hkeep _ h
      · rw [if_neg hloc] at h
        push_neg at hloc
        cases hsha : g.shape a with
        | none =>
          simp only [hsha] at h
          exact hkeep _ h
        | some sh =>
          simp only [hsha] at h
          by_cases hss : sameSizeShapes sh (g.meta a) reqShape (g.meta outV) = true
          · rw [if_pos hss] at h
            obtain ⟨h4, h5⟩ : a = r ∧ fl = rest := by
              constructor <;> [exact congrArg Prod.fst (Option.some.inj h);
                exact congrArg Prod.snd (Option.some.inj h)]
            subst h4
            exact ⟨List.mem_cons_self _ _, hloc, sh, hsha, hss⟩
          · rw [if_neg hss] at h
            exact hkeep _ h

/-- `FindReusableTensor` only succeeds with memory reuse enabled, on a
freelist entry with the output's location and an equal size. -/
theorem findReusableTensor_sound (g : PGraph) (ctx : PlannerCtx) (s : PassState)
    (outV r : Nat) (rest : List Nat)
    (h : findReusableTensor g ctx s outV = some (r, rest)) :
    ctx.enableMemoryReuse = true ∧ r ∈ s.freelist ∧
      g.location r = g.location outV ∧ sameSizeVals g r outV = true := by
  unfold findReusableTensor at h
  by_cases hen : ¬ctx.enableMemoryReuse
  · rw [if_pos hen] at h; cases h
  · rw [if_neg hen] at h
    rw [Bool.not_eq_true] at hen
    push_neg at hen
    cases hsh : g.shape outV with
    | none => simp only [hsh] at h; cases h
    | some sh =>
      simp only [hsh] at h
      by_cases hd : sh.dims.length = 0
      · rw [if_pos hd] at h; cases h
      · rw [if_neg hd] at h
        obtain ⟨hm, hl, sh2, hsh2, hss⟩ := findReusableTensorAux_sound g outV sh _ _ _ h
        refine ⟨by simpa using hen, hm, hl, ?_⟩
        unfold sameSizeVals
        rw [hsh2, hsh]
        exact hss


/-- The Loop/Identity pass-through condition of rule (2), exactly as the
source evaluates it, as a Boolean on the node's input list. -/
def loopShareCond (g : PGraph) (s : PassState) (v : Nat) : List (Option Nat) → Bool
  | some inV :: _ =>
    !decide (g.graphInputs.head? = some inV) &&
      decide (((setPlanKind s v AllocKind.allocateOutput).plan inV).kind =
        AllocKind.preExisting)
  | _ => false

/-- The complete Loop/Identity `Share` condition: planning a Loop
subgraph, an Identity node, and an eligible first input. -/
def loopIdentityShare (g : PGraph) (n : PNode) (s : PassState) (v : Nat) : Bool :=
  decide (g.parentOpType = some "Loop") && decide (n.opType = "Identity") &&
    loopShareCond g s v n.inputs

/-- The allocation-kind rule chain as the specification words it: (1)
external outputs; (2) graph outputs, with the Loop/Identity Share special
case; (3) reusable input when parallel execution is disabled; (4)
non-tensor values; (5) freelist reuse when parallel execution is
disabled; (6) fresh allocation. -/
def specOutputAllocKind (g : PGraph) (ctx : PlannerCtx) (n : PNode) (k : Nat) (v : Nat)
    (s : PassState) : AllocKind :=
  if n.hasExternalOutputs then AllocKind.allocatedExternally
  else if v ∈ g.graphOutputs then
    (if loopIdentityShare g n s v then AllocKind.share else AllocKind.allocateOutput)
  else if ctx.parallel = false ∧ (findReusableInput g s n k v).isSome then AllocKind.reuse
  else if (g.meta v).isTensor = false then AllocKind.allocate
  else if ctx.parallel = false ∧ (findReusableTensor g ctx s v).isSome then AllocKind.reuse
  else AllocKind.allocate

theorem doReuse_plan_self (s : PassState) (r v : Nat) (k : AllocKind) :
    (doReuse s r v k).plan v = ⟨k, s.buffer r⟩ := by
  simp [doReuse, upd]

theorem setPlanKind_plan_self (s : PassState) (v : Nat) (k : AllocKind) :
    ((setPlanKind s v k).plan v).kind = k := by
  simp [setPlanKind, upd]

theorem setPlanKind_buffer (s : PassState) (v : Nat) (k : AllocKind) :
    (setPlanKind s v k).buffer = s.buffer := rfl

/-- C3. For an existing node output, the single-stream planner assigns the
allocation kind by the first matching rule of the fixed six-rule chain
(`specOutputAllocKind`); moreover a rule-(3) reuse records the found
input's buffer root as the reused buffer, and a rule-(5) reuse records a
freelist entry with the output's location and an equal size
(`findReusableTensor_sound`).  The enclosing
`computeSingleStreamReusePlan` invokes this body for every output of
every node in topological order. -/
theorem planOutput_follows_rule_order (g : PGraph) (ctx : PlannerCtx) (n : PNode)
    (k : Nat) (v : Nat) (s : PassState) (hv : listGetOpt n.outputs k = some v) :
    ((planOutput g ctx n k s).plan v).kind = specOutputAllocKind g ctx n k v s ∧
    (∀ r, n.hasExternalOutputs = false → v ∉ g.graphOutputs → ctx.parallel = false →
      findReusableInput g s n k v = some r →
      (planOutput g ctx n k s).plan v = ⟨AllocKind.reuse, s.buffer r⟩) ∧
    (∀ r fl, n.hasExternalOutputs = false → v ∉ g.graphOutputs → ctx.parallel = false →
      findReusableInput g s n k v = none → (g.meta v).isTensor = true →
      findReusableTensor g ctx s v = some (r, fl) →
      (planOutput g ctx n k s).plan v = ⟨AllocKind.reuse, s.buffer r⟩) := by
  have hpv : planOutput g ctx n k s = planOutputV g ctx n k v s := by
    unfold planOutput
    rw [hv]
  rw [hpv]
  unfold planOutputV specOutputAllocKind
  by_cases hext : n.hasExternalOutputs
  · rw [if_pos hext, if_pos hext]
    refine ⟨setPlanKind_plan_self _ _ _, ?_, ?_⟩
    · intro r h1 _ _ _; rw [hext] at h1; cases h1
    · intro r fl h1 _ _ _ _ _; rw [hext] at h1; cases h1
  · rw [if_neg hext, if_neg hext]
    by_cases hgo : v ∈ g.graphOutputs
    · rw [if_pos hgo, if_pos hgo]
      refine ⟨?_, ?_, ?_⟩
      · unfold loopIdentityShare
        by_cases hcond : g.parentOpType = some "Loop" ∧ n.opType = "Identity"
        · rw [if_pos hcond]
          cases hin : n.inputs with
          | nil =>
            simp only [loopShareResult, loopShareCond, Bool.and_false]
            rw [if_neg (by simp)]
            exact setPlanKind_plan_self _ _ _
          | cons a rest =>
            cases a with
            | none =>
              simp only [loopShareResult, loopShareCond, Bool.and_false]
              rw [if_neg (by simp)]
              exact setPlanKind_plan_self _ _ _
            | some inV =>
              simp only [loopShareResult, loopShareCond]
              by_cases hiter : g.graphInputs.head? = some inV
              · rw [if_pos hiter]
                rw [if_neg (by simp [hiter])]
                exact setPlanKind_plan_self _ _ _
              · rw [if_neg hiter]
                by_cases hpre : ((setPlanKind s v AllocKind.allocateOutput).plan inV).kind =
                    AllocKind.preExisting
                · rw [if_pos hpre]
                  rw [if_pos (by simp [hiter, hpre, hcond.1, hcond.2])]
                  rw [doReuse_plan_self]
                · rw [if_neg hpre]
                  rw [if_neg (by simp [hiter, hpre])]
                  exact setPlanKind_plan_self _ _ _
        · rw [if_neg hcond]
          have hlis : ¬((decide (g.parentOpType = some "Loop") &&
              decide (n.opType = "Identity") && loopShareCond g s v n.inputs) = true) := by
            rcases not_and_or.mp hcond with h1 | h1 <;> simp [h1]
          rw [if_neg hlis]
          exact setPlanKind_plan_self _ _ _
      · intro r _ h2 _ _; exact absurd hgo h2
      · intro r fl _ h2 _ _ _ _; exact absurd hgo h2
    · rw [if_neg hgo, if_neg hgo]
      by_cases hpar : ctx.parallel
      · rw [if_pos hpar]
        have hc3 : ¬(ctx.parallel = false ∧ (findReusableInput g s n k v).isSome) := by
          simp [hpar]
        have hc5 : ¬(ctx.parallel = false ∧ (findReusableTensor g ctx s v).isSome) := by
          simp [hpar]
        rw [if_neg hc3]
        unfold planOutputTail
        refine ⟨?_, ?_, ?_⟩
        · by_cases hnt : (g.meta v).isTensor = false
          · rw [if_pos (by simp [hnt]), if_pos hnt]
            exact setPlanKind_plan_self _ _ _
          · rw [if_neg (by simpa using hnt), if_neg hnt, if_pos hpar, if_neg hc5]
            exact setPlanKind_plan_self _ _ _
        · intro r _ _ h3 _; rw [hpar] at h3; cases h3
        · intro r fl _ _ h3 _ _ _; rw [hpar] at h3; cases h3
      · rw [if_neg hpar]
        rw [Bool.not_eq_true] at hpar
        by_cases hs : (findReusableInput g s n k v).isSome
        · obtain ⟨r, hfind⟩ := Option.isSome_iff_exists.mp hs
          rw [if_pos ⟨hpar, hs⟩]
          refine ⟨?_, ?_, ?_⟩
          · rw [hfind]
            show ((doReuse s r v AllocKind.reuse).plan v).kind = AllocKind.reuse
            rw [doReuse_plan_self]
          · intro r2 _ _ _ h4
            rw [h4]
            show (doReuse s r2 v AllocKind.reuse).plan v = _
            rw [doReuse_plan_self]
          · intro r2 fl _ _ _ h4
            rw [hfind] at h4
            cases h4
        · have hfind : findReusableInput g s n k v = none :=
            Option.not_isSome_iff_eq_none.mp hs
          have hc3 : ¬(ctx.parallel = false ∧ (findReusableInput g s n k v).isSome) := by
            simp [hfind]
          rw [if_neg hc3, hfind]
          show ((planOutputTail g ctx v s).plan v).kind = _ ∧ _
          refine ⟨?_, ?_, ?_⟩
          · unfold planOutputTail
            by_cases hnt : (g.meta v).isTensor = false
            · rw [if_pos (by simp [hnt]), if_pos hnt]
              exact setPlanKind_plan_self _ _ _
            · rw [if_neg (by simpa using hnt), if_neg hnt, if_neg (by rw [hpar]; simp)]
              by_cases hts : (findReusableTensor g ctx s v).isSome
              · obtain ⟨rf, hft⟩ := Option.isSome_iff_exists.mp hts
                rw [if_pos ⟨hpar, hts⟩, hft]
                show ((doReuse { s with freelist := rf.2 } rf.1 v AllocKind.reuse).plan v).kind =
                  AllocKind.reuse
                rw [doReuse_plan_self]
              · have hft : findReusableTensor g ctx s v = none :=
                  Option.not_isSome_iff_eq_none.mp hts
                rw [if_neg (by simp [hft]), hft]
                exact setPlanKind_plan_self _ _ _
          · intro r _ _ _ h4
            cases h4
          · intro r fl _ _ _ _ hten h5
            unfold planOutputTail
            rw [if_neg (by simp [hten]), if_neg (by rw [hpar]; simp), h5]
            show (doReuse { s with freelist := fl } r v AllocKind.reuse).plan v = _
            rw [doReuse_plan_self]

/-- The sequential planner context: parallel execution disabled, memory
reuse enabled. -/
def exCtxSeq : PlannerCtx := ⟨false, true⟩

/-- Witness for C3 at the concrete may-inplace node: the planner's
assigned kind matches the first matching rule of the chain. -/
theorem planOutput_follows_rule_order_witness :
    ((planOutput exG4 exCtxSeq exNodeInp 0 exS4).plan 2).kind =
      specOutputAllocKind exG4 exCtxSeq exNodeInp 0 2 exS4 :=
  (planOutput_follows_rule_order exG4 exCtxSeq exNodeInp 0 2 exS4 rfl).1

/-- Modelled from the C standard library: `atoi` digit accumulation. -/
def digitsVal (cs : List Char) : Int :=
  cs.foldl (fun a c => a * 10 + ((c.toNat : Int) - 48)) 0

/-- Modelled from the C standard library: `atoi` — skip leading
whitespace, read an optional sign and a maximal digit run; 0 when no
digits are present.  (The planner's own comment notes the unhandled
non-numeric case.) -/
def cAtoi (s : String) : Int :=
  match s.data.dropWhile (fun c => c = ' ' || c = '\t' || c = '\n' || c = '\r') with
  | '-' :: rest => - digitsVal (rest.takeWhile Char.isDigit)
  | '+' :: rest => digitsVal (rest.takeWhile Char.isDigit)
  | cs => digitsVal (cs.takeWhile Char.isDigit)

/-- Character-level split on a separator (the semantics of
`String::splitOn`): always at least one (possibly empty) segment. -/
def splitCharsAux (c : Char) : List Char → List Char → List (List Char)
  | [], acc => [acc.reverse]
  | x :: xs, acc =>
    if x = c then acc.reverse :: splitCharsAux c xs []
    else splitCharsAux c xs (x :: acc)

/-- `INodePartitioner::Split`: `std::getline`-based splitting — a trailing
separator does not produce a trailing empty column, and an empty string
produces no columns. -/
def splitCpp (s : String) (c : Char) : List String :=
  let parts := (splitCharsAux c s.data []).map String.mk
  match parts.getLast? with
  | some "" => parts.dropLast
  | _ => parts

/-- The state `DummyPartitioner::Initialize` builds from the
configuration file: per-provider stream counts (`max_streams_`), their
running total (`num_streams_`), the per-stream node-name lists and the
`need_dump_` flag. -/
structure DummyCfg : Type where
  maxStreams : List (String × Int)
  numStreams : Int
  nodeNamesByStream : List (List String)
  needDump : Bool
deriving DecidableEq, Repr

/-- `std::map::operator[]` assignment: overwrite an existing key or
append a new one. -/
def insertAssoc (m : List (String × Int)) (k : String) (v : Int) : List (String × Int) :=
  if m.any (fun p => p.1 = k) then m.map (fun p => if p.1 = k then (k, v) else p)
  else m ++ [(k, v)]

/-- The per-provider loop of `DummyPartitioner::Initialize`: read one
`<ep_name>:<stream_count>` line per provider; a missing line or a line
without exactly two columns is an error.  The stream count is taken by
`atoi` and added to the running total with no positivity check (the
source marks this with a TODO). -/
def readEpLines (ms : List (String × Int)) (num : Int) :
    Nat → List String → Except String (List (String × Int) × Int × List String)
  | 0, rest => Except.ok (ms, num, rest)
  | _ + 1, [] =>
    Except.error "invalid configuration - failed to read execution provider stream setting"
  | n + 1, line :: rest =>
    match splitCpp line ':' with
    | [ep, cnt] => readEpLines (insertAssoc ms ep (cAtoi cnt)) (num + cAtoi cnt) n rest
    | _ =>
      Except.error "invalid configuration - failed to read execution provider stream setting"

/-- The trailing loop of `DummyPartitioner::Initialize`: every remaining
line is a comma-separated node-name list; an empty list is an error. -/
def readNodeLines : List String → Except String (List (List String))
  | [] => Except.ok []
  | line :: rest =>
    let names := splitCpp line ','
    if names.isEmpty then
      Except.error "invalid configuration - the line of node names is empty"
    else
      match readNodeLines rest with
      | Except.error e => Except.error e
      | Except.ok ls => Except.ok (names :: ls)

/-- `DummyPartitioner::Initialize` on the lines of an opened, non-empty
configuration file.  The final size comparison casts the running
`num_streams_` (an `int`) to `size_t`, modelled by `emod 2 ^ 64`. -/
def dummyPartitionerInitialize (lines : List String) : Except String DummyCfg :=
  match lines with
  | [] => Except.error "configuration file should start with a line of partition name"
  | l1 :: rest =>
    if l1 ≠ "DummyPartition" then
      Except.error "configuration file should start with a line of partition name"
    else
      match rest with
      | [] => Except.ok ⟨[], 0, [], true⟩
      | l2 :: rest2 =>
        match splitCpp l2 ':' with
        | [h, n] =>
          if h ≠ "ExecutionProviders" then
            Except.error
              "2nd line of configuration file should be of format: ExecutionProviders,<an integer>"
          else if cAtoi n ≤ 0 then
            Except.error "2nd line, the number of ExecutionProviders must be a positive value"
          else
            match readEpLines [] 0 (cAtoi n).toNat rest2 with
            | Except.error e => Except.error e
            | Except.ok (ms, num, rest3) =>
              match readNodeLines rest3 with
              | Except.error e => Except.error e
              | Except.ok nns =>
                if (nns.length : Int) ≠ num.emod (2 ^ 64) then
                  Except.error
                    "invalid configuration - the total number of line of streams mismatch with the sum of execution provider stream setting"
                else Except.ok ⟨ms, num, nns, false⟩
        | _ =>
          Except.error
            "2nd line of configuration file should be of format: ExecutionProviders,<an integer>"

/-- Whether a status is OK (`Status::IsOK`). -/
def exceptIsOk {e a : Type} : Except e a → Bool
  | Except.ok _ => true
  | Except.error _ => false

/-- C9 counterexample: a configuration file whose per-provider stream
count is the non-positive `0` is accepted by `DummyPartitioner::Initialize`
(status OK, no error), because the stream-count value is stored by `atoi`
with no positivity check; only the provider count is validated. -/
theorem dummyPartitioner_accepts_nonpositive_stream_count :
    cAtoi "0" ≤ 0 ∧
    dummyPartitionerInitialize ["DummyPartition", "ExecutionProviders:1", "CPU:0"] =
      Except.ok ⟨[("CPU", 0)], 0, [], false⟩ :=
  ⟨by decide, rfl⟩

/-- C9 (amended).  `DummyPartitioner::Initialize` fails with an error
status for: an empty file or wrong partitioner-name header; a second line
not of the form `ExecutionProviders:<n>`; a non-positive execution-provider
count; and a total number of node-name lines that mismatches the
(`size_t`-cast) sum of per-provider stream counts.  (A non-positive
per-provider stream count by itself is not rejected.) -/
theorem dummyPartitionerInitialize_rejects_malformed :
    (exceptIsOk (dummyPartitionerInitialize []) = false) ∧
    (∀ l1 rest, l1 ≠ "DummyPartition" →
      exceptIsOk (dummyPartitionerInitialize (l1 :: rest)) = false) ∧
    (∀ l2 rest2, (¬ ∃ h n, splitCpp l2 ':' = [h, n]) →
      exceptIsOk (dummyPartitionerInitialize ("DummyPartition" :: l2 :: rest2)) = false) ∧
    (∀ l2 rest2 h n, splitCpp l2 ':' = [h, n] → h = "ExecutionProviders" → cAtoi n ≤ 0 →
      exceptIsOk (dummyPartitionerInitialize ("DummyPartition" :: l2 :: rest2)) = false) ∧
    (∀ l2 rest2 h n ms num rest3 nns, splitCpp l2 ':' = [h, n] →
      h = "ExecutionProviders" → 0 < cAtoi n →
      readEpLines [] 0 (cAtoi n).toNat rest2 = Except.ok (ms, num, rest3) →
      readNodeLines rest3 = Except.ok nns → (nns.length : Int) ≠ num.emod (2 ^ 64) →
      exceptIsOk (dummyPartitionerInitialize ("DummyPartition" :: l2 :: rest2)) = false) := by
  refine ⟨rfl, ?_, ?_, ?_, ?_⟩
  · intro l1 rest h1
    simp only [dummyPartitionerInitialize]
    rw [if_pos h1]
    rfl
  · intro l2 rest2 hnot
    simp only [dummyPartitionerInitialize]
    rw [if_neg (by simp)]
    rcases hsp : splitCpp l2 ':' with _ | ⟨a, _ | ⟨b, _ | ⟨c, cs⟩⟩⟩
    · rfl
    · rfl
    · exact absurd ⟨a, b, hsp⟩ hnot
    · rfl
  · intro l2 rest2 h n hsp hh hle
    simp only [dummyPartitionerInitialize]
    rw [if_neg (by simp)]
    simp only [hsp]
    rw [if_neg (by simp [hh]), if_pos hle]
    rfl
  · intro l2 rest2 h n ms num rest3 nns hsp hh hpos hep hnn hmis
    simp only [dummyPartitionerInitialize]
    rw [if_neg (by simp)]
    simp only [hsp]
    rw [if_neg (by simp [hh]), if_neg (by omega)]
    simp only [hep, hnn]
    rw [if_pos hmis]
    rfl

/-- Append one element to a function-backed map of lists. -/
def updAppend {α : Type} (f : Nat → List α) (k : Nat) (v : α) : Nat → List α :=
  upd f k (f k ++ [v])

/-- Step 1 of `PlannerImpl::GenerateDeallocationPlan`: walk every stream
in reverse (so the first recorded consumer per stream is the last in
execution order); for each existing explicit/implicit input whose buffer
root is planned `Allocate`, record the node as a consumer of that root. -/
def buildValueConsumers (g : PGraph) (streams : List (List Nat)) (buffer : Nat → Nat)
    (plan : Nat → AllocEntry) : Nat → List Nat :=
  streams.foldl
    (fun acc sl =>
      sl.reverse.foldl
        (fun acc nidx =>
          match findNode g nidx with
          | none => acc
          | some n =>
            (occVals n.inputs ++ occVals n.implicitInputs).foldl
              (fun acc v =>
                if (plan (buffer v)).kind = AllocKind.allocate then
                  updAppend acc (buffer v) nidx
                else acc)
              acc)
        acc)
    (fun _ => [])

/-- `release_actions[release_action_idx].ref_count++`. -/
def bumpRef (acts : List (Nat × Nat)) (aidx : Nat) : List (Nat × Nat) :=
  match acts[aidx]? with
  | some a => acts.set aidx (a.1, a.2 + 1)
  | none => acts

/-- `process_consumer`: increment the release action's ref count and
append it to the node's release list. -/
def processConsumer (st : List (Nat × Nat) × (Nat → List Nat)) (aidx : Nat) (nidx : Nat) :
    List (Nat × Nat) × (Nat → List Nat) :=
  (bumpRef st.1 aidx, updAppend st.2 nidx aidx)

/-- Step 2 of `GenerateDeallocationPlan` for one value index: if the value
has consumers, create one release action; attach it to the first recorded
consumer when all consumers share one stream, otherwise to every
consumer. -/
def deallocStepList (streamOf : Nat → Nat)
    (st : List (Nat × Nat) × (Nat → List Nat)) (i : Nat) :
    List Nat → List (Nat × Nat) × (Nat → List Nat)
  | [] => st
  | c0 :: rest =>
    if rest.all (fun c => streamOf c = streamOf c0) then
      processConsumer (st.1 ++ [(i, 0)], st.2) st.1.length c0
    else (c0 :: rest).foldl (fun st2 c => processConsumer st2 st.1.length c)
      (st.1 ++ [(i, 0)], st.2)

def deallocStep (cons : Nat → List Nat) (streamOf : Nat → Nat)
    (st : List (Nat × Nat) × (Nat → List Nat)) (i : Nat) :
    List (Nat × Nat) × (Nat → List Nat) :=
  deallocStepList streamOf st i (cons i)

/-- `PlannerImpl::GenerateDeallocationPlan`, step 2: all value indices in
order. -/
def generateDeallocationPlan (g : PGraph) (streams : List (List Nat)) (buffer : Nat → Nat)
    (plan : Nat → AllocEntry) (streamOf : Nat → Nat) :
    List (Nat × Nat) × (Nat → List Nat) :=
  (List.range g.numValues).foldl
    (deallocStep (buildValueConsumers g streams buffer plan) streamOf) ([], fun _ => [])

theorem getAppendLeft {α : Type} (l l2 : List α) (j : Nat) (h : j < l.length) :
    (l ++ l2)[j]? = l[j]? := by
  rw [List.getElem?_append_left h]

theorem getAppendLast {α : Type} (l : List α) (v : α) : (l ++ [v])[l.length]? = some v := by
  rw [List.getElem?_append_right (le_refl _)]
  simp

theorem countAppendOne (l : List Nat) (a n : Nat) :
    (l ++ [a]).count n = l.count n + (if n = a then 1 else 0) := by
  rw [List.count_append]
  congr 1
  rw [List.count_singleton']
  by_cases h : n = a
  · rw [if_pos h, if_pos h.symm]
  · rw [if_neg h, if_neg (fun h2 => h h2.symm)]

theorem updAppend_count_same (f : Nat → List Nat) (k v n : Nat) :
    ((updAppend f k v) k).count n = (f k).count n + (if n = v then 1 else 0) := by
  unfold updAppend
  rw [upd_same, countAppendOne]

theorem updAppend_count_other (f : Nat → List Nat) (k v n x : Nat) (h : x ≠ k) :
    ((updAppend f k v) x).count n = (f x).count n := by
  unfold updAppend
  rw [upd_ne _ _ _ h]

theorem updAppend_count (f : Nat → List Nat) (k v n x : Nat) :
    ((updAppend f k v) x).count n =
      (f x).count n + (if x = k ∧ n = v then 1 else 0) := by
  by_cases h : x = k
  · subst h
    rw [updAppend_count_same]
    by_cases h2 : n = v
    · rw [if_pos h2, if_pos ⟨rfl, h2⟩]
    · rw [if_neg h2, if_neg (fun h3 => h2 h3.2)]
  · rw [updAppend_count_other _ _ _ _ _ h, if_neg (fun h3 => h h3.1)]
    omega

theorem bumpRef_length (acts : List (Nat × Nat)) (aidx : Nat) :
    (bumpRef acts aidx).length = acts.length := by
  unfold bumpRef
  cases h : acts[aidx]? <;> simp

theorem bumpRef_get_same (acts : List (Nat × Nat)) (aidx : Nat) (a : Nat × Nat)
    (h : acts[aidx]? = some a) : (bumpRef acts aidx)[aidx]? = some (a.1, a.2 + 1) := by
  unfold bumpRef
  rw [h]
  have hlt : aidx < acts.length := by
    rw [List.getElem?_eq_some] at h
    exact h.1
  rw [List.getElem?_set_eq_of_lt _ hlt]

theorem bumpRef_get_other (acts : List (Nat × Nat)) (aidx j : Nat) (h : j ≠ aidx) :
    (bumpRef acts aidx)[j]? = acts[j]? := by
  unfold bumpRef
  cases h2 : acts[aidx]? with
  | none => rfl
  | some a => rw [List.getElem?_set_ne (Ne.symm h)]

/-- The final ref count of the release action for root `i`: 1 when all
consumers share a stream, otherwise the number of recorded consumers. -/
def rcFor (cons : Nat → List Nat) (streamOf : Nat → Nat) (i : Nat) : Nat :=
  match cons i with
  | [] => 0
  | c0 :: rest =>
    if rest.all (fun c => streamOf c = streamOf c0) then 1 else (c0 :: rest).length

/-- How many times node `n` decrements the release action of root `i`:
once when it is the first recorded consumer of a single-stream root, once
per recorded occurrence otherwise. -/
def attachCountFor (cons : Nat → List Nat) (streamOf : Nat → Nat) (i n : Nat) : Nat :=
  match cons i with
  | [] => 0
  | c0 :: rest =>
    if rest.all (fun c => streamOf c = streamOf c0) then (if n = c0 then 1 else 0)
    else (c0 :: rest).count n

theorem processConsumer_fold (cs : List Nat) (aidx : Nat) (acts : List (Nat × Nat))
    (nrl : Nat → List Nat) (i rc0 : Nat) (hget : acts[aidx]? = some (i, rc0)) :
    (cs.foldl (fun st c => processConsumer st aidx c) (acts, nrl)).1[aidx]? =
        some (i, rc0 + cs.length) ∧
    (∀ j, j ≠ aidx →
      (cs.foldl (fun st c => processConsumer st aidx c) (acts, nrl)).1[j]? = acts[j]?) ∧
    (cs.foldl (fun st c => processConsumer st aidx c) (acts, nrl)).1.length = acts.length ∧
    (∀ n jj, ((cs.foldl (fun st c => processConsumer st aidx c) (acts, nrl)).2 n).count jj =
      (nrl n).count jj + (if jj = aidx then cs.count n else 0)) := by
  induction cs generalizing acts nrl rc0 with
  | nil => exact ⟨by simpa using hget, fun j _ => rfl, rfl, fun n jj => by simp⟩
  | cons c cs ih =>
    have hstep : (c :: cs).foldl (fun st c => processConsumer st aidx c) (acts, nrl) =
        cs.foldl (fun st c => processConsumer st aidx c)
          (bumpRef acts aidx, updAppend nrl c aidx) := rfl
    have hget2 : (bumpRef acts aidx)[aidx]? = some (i, rc0 + 1) :=
      bumpRef_get_same acts aidx (i, rc0) hget
    obtain ⟨h1, h2, h3, h4⟩ := ih (bumpRef acts aidx) (updAppend nrl c aidx) (rc0 + 1) hget2
    rw [hstep]
    refine ⟨?_, ?_, ?_, ?_⟩
    · rw [h1]
      have : rc0 + 1 + cs.length = rc0 + (c :: cs).length := by
        rw [List.length_cons]
        omega
      rw [this]
    · intro j hj
      rw [h2 j hj, bumpRef_get_other _ _ _ hj]
    · rw [h3, bumpRef_length]
    · intro n2 jj2
      rw [h4, updAppend_count]
      by_cases hjj : jj2 = aidx
      · rw [if_pos hjj, if_pos hjj]
        by_cases hnc : n2 = c
        · rw [if_pos ⟨hnc, hjj⟩, hnc, List.count_cons_self]
          omega
        · rw [if_neg (fun h => hnc h.1), List.count_cons_of_ne (fun h => hnc h)]
          omega
      · rw [if_neg (fun h => hjj h.2), if_neg hjj, if_neg hjj]

/-- The invariant of the step-2 fold of `GenerateDeallocationPlan`, for a
processed prefix `P` of value indices: the action list is exactly one
action per prefix value with consumers, carrying its final ref count;
each node's release list decrements each action `attachCountFor` times;
and indices beyond the action list are referenced nowhere. -/
def DeallocInv (cons : Nat → List Nat) (streamOf : Nat → Nat) (P : List Nat)
    (st : List (Nat × Nat) × (Nat → List Nat)) : Prop :=
  st.1 = P.filterMap
      (fun i => if cons i = [] then none else some (i, rcFor cons streamOf i)) ∧
  (∀ j i rc, st.1[j]? = some (i, rc) →
    ∀ n, (st.2 n).count j = attachCountFor cons streamOf i n) ∧
  (∀ n j, st.1.length ≤ j → (st.2 n).count j = 0)

theorem deallocStep_preserves (cons : Nat → List Nat) (streamOf : Nat → Nat)
    (P : List Nat) (st : List (Nat × Nat) × (Nat → List Nat)) (i : Nat)
    (hinv : DeallocInv cons streamOf P st) :
    DeallocInv cons streamOf (P ++ [i]) (deallocStep cons streamOf st i) := by
  obtain ⟨hacts, hcounts, hfresh⟩ := hinv
  cases hci : cons i with
  | nil =>
    have hstep : deallocStep cons streamOf st i = st := by
      unfold deallocStep
      rw [hci]
      rfl
    rw [hstep]
    refine ⟨?_, hcounts, hfresh⟩
    rw [List.filterMap_append, hacts]
    simp [hci]
  | cons c0 rest =>
    have hrc : rcFor cons streamOf i =
        if rest.all (fun c => streamOf c = streamOf c0) then 1 else (c0 :: rest).length := by
      unfold rcFor
      rw [hci]
    have hatt : ∀ n, attachCountFor cons streamOf i n =
        if rest.all (fun c => streamOf c = streamOf c0) then (if n = c0 then 1 else 0)
        else (c0 :: rest).count n := by
      intro n
      unfold attachCountFor
      rw [hci]
    have hget0 : (st.1 ++ [(i, 0)])[st.1.length]? = some (i, 0) := getAppendLast _ _
    have hfm : (P ++ [i]).filterMap
        (fun i => if cons i = [] then none else some (i, rcFor cons streamOf i)) =
        st.1 ++ [(i, rcFor cons streamOf i)] := by
      rw [List.filterMap_append, hacts]
      simp [hci]
    obtain ⟨hf1, hf2, hf3, hf4⟩ :=
      processConsumer_fold (c0 :: rest) st.1.length (st.1 ++ [(i, 0)]) st.2 i 0 hget0
    have hstep : deallocStep cons streamOf st i =
        if rest.all (fun c => streamOf c = streamOf c0) then
          processConsumer (st.1 ++ [(i, 0)], st.2) st.1.length c0
        else (c0 :: rest).foldl (fun st2 c => processConsumer st2 st.1.length c)
          (st.1 ++ [(i, 0)], st.2) := by
      unfold deallocStep
      rw [hci]
      simp only [deallocStepList]
    by_cases hsame : rest.all (fun c => streamOf c = streamOf c0)
    · rw [hstep, if_pos hsame]
      have hrc1 : rcFor cons streamOf i = 1 := by rw [hrc, if_pos hsame]
      refine ⟨?_, ?_, ?_⟩
      · rw [hfm, hrc1]
        show bumpRef (st.1 ++ [(i, 0)]) st.1.length = _
        apply List.ext_getElem?
        intro j
        by_cases hj : j = st.1.length
        · subst hj
          rw [bumpRef_get_same _ _ (i, 0) hget0, getAppendLast]
        · rw [bumpRef_get_other _ _ _ hj]
          rcases Nat.lt_or_ge j st.1.length with hlt | hge
          · rw [getAppendLeft _ _ _ hlt, getAppendLeft _ _ _ hlt]
          · have hgt : st.1.length < j := lt_of_le_of_ne hge (fun h => hj h.symm)
            rw [List.getElem?_eq_none, List.getElem?_eq_none] <;>
              simp only [List.length_append, List.length_singleton] <;> omega
      · intro j i2 rc2 hget n
        show ((updAppend st.2 c0 st.1.length) n).count j = _
        by_cases hj : j = st.1.length
        · subst hj
          have hgetb : (bumpRef (st.1 ++ [(i, 0)]) st.1.length)[st.1.length]? =
              some (i2, rc2) := hget
          have : i2 = i ∧ rc2 = 1 := by
            rw [bumpRef_get_same (st.1 ++ [(i, 0)]) st.1.length (i, 0) hget0] at hgetb
            have hp := Option.some.inj hgetb
            exact ⟨congrArg Prod.fst hp.symm, congrArg Prod.snd hp.symm⟩
          rw [this.1, hatt, if_pos hsame, updAppend_count, hfresh n _ (le_refl _)]
          by_cases hnc : n = c0
          · rw [if_pos ⟨hnc, rfl⟩, if_pos hnc]
          · rw [if_neg (fun h => hnc h.1), if_neg hnc]
        · have hgetb : (bumpRef (st.1 ++ [(i, 0)]) st.1.length)[j]? = some (i2, rc2) := hget
          have hget3 : st.1[j]? = some (i2, rc2) := by
            rw [bumpRef_get_other (st.1 ++ [(i, 0)]) st.1.length j hj] at hgetb
            rcases Nat.lt_or_ge j st.1.length with hlt | hge
            · rw [getAppendLeft _ _ _ hlt] at hgetb
              exact hgetb
            · have hgt : st.1.length < j := lt_of_le_of_ne hge (fun h => hj h.symm)
              rw [List.getElem?_eq_none] at hgetb
              · cases hgetb
              · simp only [List.length_append, List.length_singleton]
                omega
          rw [updAppend_count, if_neg (fun h => hj h.2)]
          exact hcounts j i2 rc2 hget3 n
      · intro n j hlen
        have hlenb : (bumpRef (st.1 ++ [(i, 0)]) st.1.length).length ≤ j := hlen
        have hlen2 : st.1.length + 1 ≤ j := by
          rw [bumpRef_length, List.length_append, List.length_singleton] at hlenb
          exact hlenb
        show ((updAppend st.2 c0 st.1.length) n).count j = 0
        rw [updAppend_count, if_neg (fun h => by omega)]
        rw [hfresh n j (by omega)]
    · rw [hstep, if_neg hsame]
      have hrcl : rcFor cons streamOf i = (c0 :: rest).length := by rw [hrc, if_neg hsame]
      refine ⟨?_, ?_, ?_⟩
      · rw [hfm, hrcl]
        apply List.ext_getElem?
        intro j
        by_cases hj : j = st.1.length
        · subst hj
          rw [hf1, getAppendLast, Nat.zero_add]
        · rw [hf2 j hj]
          rcases Nat.lt_or_ge j st.1.length with hlt | hge
          · rw [getAppendLeft _ _ _ hlt, getAppendLeft _ _ _ hlt]
          · have hgt : st.1.length < j := lt_of_le_of_ne hge (fun h => hj h.symm)
            rw [List.getElem?_eq_none, List.getElem?_eq_none] <;>
              simp only [List.length_append, List.length_singleton] <;> omega
      · intro j i2 rc2 hget n
        by_cases hj : j = st.1.length
        · subst hj
          have hi2 : i2 = i := by
            rw [hf1] at hget
            exact (Option.some.inj hget ▸ rfl : (i2, rc2).1 = i)
          rw [hi2, hatt, if_neg hsame, hf4, hfresh n _ (le_refl _), if_pos rfl,
            Nat.zero_add]
        · have hget3 : st.1[j]? = some (i2, rc2) := by
            rw [hf2 j hj] at hget
            rcases Nat.lt_or_ge j st.1.length with hlt | hge
            · rw [getAppendLeft _ _ _ hlt] at hget
              exact hget
            · have hgt : st.1.length < j := lt_of_le_of_ne hge (fun h => hj h.symm)
              rw [List.getElem?_eq_none] at hget
              · cases hget
              · simp only [List.length_append, List.length_singleton]
                omega
          rw [hf4, if_neg hj]
          rw [hcounts j i2 rc2 hget3 n, Nat.add_zero]
      · intro n j hlen
        rw [hf3] at hlen
        simp only [List.length_append, List.length_singleton] at hlen
        rw [hf4, if_neg (by omega), hfresh n j (by omega)]

theorem deallocFold_inv (cons : Nat → List Nat) (streamOf : Nat → Nat) (P : List Nat) :
    DeallocInv cons streamOf P (P.foldl (deallocStep cons streamOf) ([], fun _ => [])) := by
  induction P using List.reverseRecOn with
  | nil =>
    refine ⟨rfl, fun j i rc h => by simp at h, fun n j _ => rfl⟩
  | append_singleton P i ih =>
    rw [List.foldl_append]
    exact deallocStep_preserves cons streamOf P _ i ih

theorem nodup_getElem?_inj {α : Type} (l : List α) (h : l.Nodup) (j1 j2 : Nat) (a : α)
    (h1 : l[j1]? = some a) (h2 : l[j2]? = some a) : j1 = j2 := by
  rw [List.getElem?_eq_some] at h1 h2
  obtain ⟨b1, e1⟩ := h1
  obtain ⟨b2, e2⟩ := h2
  exact h.getElem_inj_iff.mp (e1.trans e2.symm)

/-- The total number of scheduled ref-count decrements for release action
`j` across the release lists of all nodes below `M`. -/
def totalAttach (nrl : Nat → List Nat) (M j : Nat) : Nat :=
  ∑ n ∈ Finset.range M, (nrl n).count j

theorem sum_count_range (cs : List Nat) (M : Nat) (h : ∀ c ∈ cs, c < M) :
    (∑ n ∈ Finset.range M, cs.count n) = cs.length := by
  induction cs with
  | nil => simp
  | cons c cs ih =>
    have hsplit : ∀ n : Nat, (c :: cs).count n = cs.count n + (if n = c then 1 else 0) := by
      intro n
      by_cases hn : n = c
      · subst hn; rw [List.count_cons_self, if_pos rfl]
      · rw [List.count_cons_of_ne hn, if_neg hn, Nat.add_zero]
    calc (∑ n ∈ Finset.range M, (c :: cs).count n)
        = ∑ n ∈ Finset.range M, (cs.count n + (if n = c then 1 else 0)) :=
          Finset.sum_congr rfl (fun n _ => hsplit n)
      _ = (∑ n ∈ Finset.range M, cs.count n) +
            ∑ n ∈ Finset.range M, (if n = c then 1 else 0) := Finset.sum_add_distrib
      _ = cs.length + 1 := by
          rw [ih (fun x hx => h x (List.mem_cons_of_mem _ hx))]
          congr 1
          rw [Finset.sum_ite_eq' (Finset.range M) c (fun _ => 1)]
          simp [Finset.mem_range.mpr (h c (List.mem_cons_self c cs))]
      _ = (c :: cs).length := by simp

/-- C8. For every root buffer with a non-empty recorded consumer list, the
deallocation planner creates exactly one release action; when all
consumers are on one stream it is attached only to the first consumer
recorded during the reverse walk (the last-executing consumer) with
ref count 1, otherwise it is attached once per recorded consumer with
ref count equal to the number of recorded consumers; in both cases the
scheduled decrements across all attachments sum to the ref count. -/
theorem generateDeallocationPlan_release_soundness (g : PGraph)
    (streams : List (List Nat)) (buffer : Nat → Nat) (plan : Nat → AllocEntry)
    (streamOf : Nat → Nat) (M : Nat)
    (hM : ∀ i n, n ∈ buildValueConsumers g streams buffer plan i → n < M)
    (i : Nat) (hi : i < g.numValues) (c0 : Nat) (rest : List Nat)
    (hcons : buildValueConsumers g streams buffer plan i = c0 :: rest) :
    ∃ j rc,
      (generateDeallocationPlan g streams buffer plan streamOf).1[j]? = some (i, rc) ∧
      (∀ j2 rc2, (generateDeallocationPlan g streams buffer plan streamOf).1[j2]? =
        some (i, rc2) → j2 = j ∧ rc2 = rc) ∧
      (∀ n, (((generateDeallocationPlan g streams buffer plan streamOf).2) n).count j =
        attachCountFor (buildValueConsumers g streams buffer plan) streamOf i n) ∧
      (rest.all (fun c => streamOf c = streamOf c0) = true →
        rc = 1 ∧
        ∀ n, (((generateDeallocationPlan g streams buffer plan streamOf).2) n).count j =
          if n = c0 then 1 else 0) ∧
      (rest.all (fun c => streamOf c = streamOf c0) = false →
        rc = (c0 :: rest).length ∧
        ∀ n, (((generateDeallocationPlan g streams buffer plan streamOf).2) n).count j =
          (c0 :: rest).count n) ∧
      totalAttach (generateDeallocationPlan g streams buffer plan streamOf).2 M j = rc := by
  have hinv := deallocFold_inv (buildValueConsumers g streams buffer plan) streamOf
    (List.range g.numValues)
  obtain ⟨hacts, hcounts, hfresh⟩ := hinv
  have hres : (generateDeallocationPlan g streams buffer plan streamOf) =
      (List.range g.numValues).foldl
        (deallocStep (buildValueConsumers g streams buffer plan) streamOf)
        ([], fun _ => []) := rfl
  have hne : ¬buildValueConsumers g streams buffer plan i = [] := by
    rw [hcons]; simp
  have hmem : (i, rcFor (buildValueConsumers g streams buffer plan) streamOf i) ∈
      (generateDeallocationPlan g streams buffer plan streamOf).1 := by
    rw [hres, hacts]
    exact List.mem_filterMap.mpr ⟨i, List.mem_range.mpr hi, by rw [if_neg hne]⟩
  obtain ⟨j, hj⟩ := List.getElem?_of_mem hmem
  have hnodup : ((generateDeallocationPlan g streams buffer plan streamOf).1).Nodup := by
    rw [hres, hacts]
    refine List.Nodup.filterMap ?_ (List.nodup_range _)
    intro a a2 b hb1 hb2
    have ha : b.1 = a := by
      by_cases h : buildValueConsumers g streams buffer plan a = []
      · rw [if_pos h] at hb1; cases hb1
      · rw [if_neg h] at hb1
        cases hb1
        rfl
    have ha2 : b.1 = a2 := by
      by_cases h : buildValueConsumers g streams buffer plan a2 = []
      · rw [if_pos h] at hb2; cases hb2
      · rw [if_neg h] at hb2
        cases hb2
        rfl
    exact ha.symm.trans ha2
  have hvalfix : ∀ i2 rc2,
      (i2, rc2) ∈ (generateDeallocationPlan g streams buffer plan streamOf).1 →
      rc2 = rcFor (buildValueConsumers g streams buffer plan) streamOf i2 := by
    intro i2 rc2 hmem2
    rw [hres, hacts] at hmem2
    obtain ⟨i0, _, hf⟩ := List.mem_filterMap.mp hmem2
    by_cases h : buildValueConsumers g streams buffer plan i0 = []
    · rw [if_pos h] at hf; cases hf
    · rw [if_neg h] at hf
      cases hf
      rfl
  have hcountsj : ∀ n,
      (((generateDeallocationPlan g streams buffer plan streamOf).2) n).count j =
        attachCountFor (buildValueConsumers g streams buffer plan) streamOf i n := by
    intro n
    have := hcounts j i _ (by rw [← hres]; exact hj) n
    rw [hres]
    exact this
  have hrcsame : rest.all (fun c => streamOf c = streamOf c0) = true →
      rcFor (buildValueConsumers g streams buffer plan) streamOf i = 1 := by
    intro hsame
    unfold rcFor
    rw [hcons]
    show (if rest.all (fun c => streamOf c = streamOf c0) = true then 1
      else (c0 :: rest).length) = 1
    rw [if_pos hsame]
  have hrcdiff : rest.all (fun c => streamOf c = streamOf c0) = false →
      rcFor (buildValueConsumers g streams buffer plan) streamOf i =
        (c0 :: rest).length := by
    intro hdiff
    unfold rcFor
    rw [hcons]
    show (if rest.all (fun c => streamOf c = streamOf c0) = true then 1
      else (c0 :: rest).length) = (c0 :: rest).length
    rw [if_neg (by rw [hdiff]; simp)]
  have hattsame : rest.all (fun c => streamOf c = streamOf c0) = true → ∀ n,
      attachCountFor (buildValueConsumers g streams buffer plan) streamOf i n =
        if n = c0 then 1 else 0 := by
    intro hsame n
    unfold attachCountFor
    rw [hcons]
    show (if rest.all (fun c => streamOf c = streamOf c0) = true then
      (if n = c0 then 1 else 0) else (c0 :: rest).count n) = _
    rw [if_pos hsame]
  have hattdiff : rest.all (fun c => streamOf c = streamOf c0) = false → ∀ n,
      attachCountFor (buildValueConsumers g streams buffer plan) streamOf i n =
        (c0 :: rest).count n := by
    intro hdiff n
    unfold attachCountFor
    rw [hcons]
    show (if rest.all (fun c => streamOf c = streamOf c0) = true then
      (if n = c0 then 1 else 0) else (c0 :: rest).count n) = _
    rw [if_neg (by rw [hdiff]; simp)]
  refine ⟨j, rcFor (buildValueConsumers g streams buffer plan) streamOf i, hj,
    ?_, hcountsj, ?_, ?_, ?_⟩
  · intro j2 rc2 hj2
    have hrc2 := hvalfix i rc2 (List.getElem?_mem hj2)
    subst hrc2
    exact ⟨nodup_getElem?_inj _ hnodup j2 j _ hj2 hj, rfl⟩
  · intro hsame
    refine ⟨hrcsame hsame, fun n => ?_⟩
    rw [hcountsj n, hattsame hsame n]
  · intro hdiff
    refine ⟨hrcdiff hdiff, fun n => ?_⟩
    rw [hcountsj n, hattdiff hdiff n]
  · unfold totalAttach
    by_cases hsame : rest.all (fun c => streamOf c = streamOf c0) = true
    · rw [hrcsame hsame]
      calc (∑ n ∈ Finset.range M,
            (((generateDeallocationPlan g streams buffer plan streamOf).2) n).count j)
          = ∑ n ∈ Finset.range M, (if n = c0 then 1 else 0) :=
            Finset.sum_congr rfl
              (fun n _ => by rw [hcountsj n, hattsame hsame n])
        _ = 1 := by
            rw [Finset.sum_ite_eq' (Finset.range M) c0 (fun _ => 1)]
            have hc0 : c0 < M := hM i c0 (by rw [hcons]; exact List.mem_cons_self _ _)
            simp [Finset.mem_range.mpr hc0]
    · have hdiff : rest.all (fun c => streamOf c = streamOf c0) = false :=
        Bool.not_eq_true _ ▸ (by simpa using hsame)
      rw [hrcdiff hdiff]
      calc (∑ n ∈ Finset.range M,
            (((generateDeallocationPlan g streams buffer plan streamOf).2) n).count j)
          = ∑ n ∈ Finset.range M, (c0 :: rest).count n :=
            Finset.sum_congr rfl (fun n _ => by rw [hcountsj n, hattdiff hdiff n])
        _ = (c0 :: rest).length :=
            sum_count_range _ _ (fun c hc => hM i c (by rw [hcons]; exact hc))

/-- Two single-node streams whose nodes both consume value 5. -/
def exGraph8 : PGraph :=
  ⟨[⟨0, [some 5], [], [], [], none, [], false, "A", "CPU", [], []⟩,
    ⟨1, [some 5], [], [], [], none, [], false, "B", "CPU", [], []⟩],
   [], [], [], [], fun _ => none, fun _ => exMeta, fun _ => 0, 6, none⟩

/-- The example partition: node 0 on stream 0, node 1 on stream 1. -/
def exStreams8 : List (List Nat) := [[0], [1]]

/-- Every value freshly allocated in the example. -/
def exPlan8 : Nat → AllocEntry := fun _ => ⟨AllocKind.allocate, 0⟩

/-- Identity buffer roots in the example. -/
def exBuf8 : Nat → Nat := fun v => v

/-- The example node-to-stream map. -/
def exStreamOf8 : Nat → Nat := fun n => n

theorem exHM8 : ∀ i n, n ∈ buildValueConsumers exGraph8 exStreams8 exBuf8 exPlan8 i →
    n < 2 := by
  intro i n hn
  have he : buildValueConsumers exGraph8 exStreams8 exBuf8 exPlan8 =
      updAppend (updAppend (fun _ => []) 5 0) 5 1 := rfl
  rw [he] at hn
  by_cases h5 : i = 5
  · subst h5
    have hv : updAppend (updAppend (fun _ => []) 5 0) 5 1 5 = [0, 1] := rfl
    rw [hv] at hn
    simp at hn
    rcases hn with h | h <;> omega
  · have hv : updAppend (updAppend (fun _ => []) 5 0) 5 1 i = [] := by
      unfold updAppend upd
      rw [if_neg h5, if_neg h5]
    rw [hv] at hn
    cases hn

/-- Witness for C8 at the concrete two-stream example: value 5 has
consumers on two streams, so its single release action has ref count 2
and is attached to both consumers. -/
theorem generateDeallocationPlan_release_soundness_witness :
    ∃ j rc,
      (generateDeallocationPlan exGraph8 exStreams8 exBuf8 exPlan8 exStreamOf8).1[j]? =
        some (5, rc) ∧
      (∀ j2 rc2,
        (generateDeallocationPlan exGraph8 exStreams8 exBuf8 exPlan8 exStreamOf8).1[j2]? =
          some (5, rc2) → j2 = j ∧ rc2 = rc) ∧
      (∀ n,
        (((generateDeallocationPlan exGraph8 exStreams8 exBuf8 exPlan8 exStreamOf8).2)
          n).count j =
        attachCountFor (buildValueConsumers exGraph8 exStreams8 exBuf8 exPlan8)
          exStreamOf8 5 n) ∧
      ([1].all (fun c => exStreamOf8 c = exStreamOf8 0) = true →
        rc = 1 ∧
        ∀ n,
          (((generateDeallocationPlan exGraph8 exStreams8 exBuf8 exPlan8 exStreamOf8).2)
            n).count j = if n = 0 then 1 else 0) ∧
      ([1].all (fun c => exStreamOf8 c = exStreamOf8 0) = false →
        rc = ([0, 1] : List Nat).length ∧
        ∀ n,
          (((generateDeallocationPlan exGraph8 exStreams8 exBuf8 exPlan8 exStreamOf8).2)
            n).count j = ([0, 1] : List Nat).count n) ∧
      totalAttach (generateDeallocationPlan exGraph8 exStreams8 exBuf8 exPlan8
        exStreamOf8).2 2 j = rc :=
  generateDeallocationPlan_release_soundness exGraph8 exStreams8 exBuf8 exPlan8
    exStreamOf8 2 exHM8 5 (by decide) 0 [1] rfl

/-- Witness for C9's amended theorem: a file with a wrong partitioner-name
header is rejected. -/
theorem dummyPartitionerInitialize_rejects_malformed_witness :
    exceptIsOk (dummyPartitionerInitialize ["WrongName", "x"]) = false :=
  dummyPartitionerInitialize_rejects_malformed.2.1 "WrongName" ["x"] (by decide)

/-- An execution step of a logic stream (`SequentialExecutionPlan`):
`BarrierStep`, `WaitOnEPStep`, `LaunchKernelStep`,
`ActivateNotificationStep`, `TriggerDownstreamStep`. -/
inductive Step : Type where
  | barrier (id : Nat)
  | waitOnEP (notif : Nat)
  | launchKernel (node : Nat)
  | activateNotification (notif : Nat)
  | triggerDownstream (notif : Nat)
deriving DecidableEq, Repr

/-- Step 2 of `PlannerImpl::BuildExecutionPlan`: a node whose model-graph
consumers are not all in its own stream receives the next notification
index. -/
def notifStep (g : PGraph) (sl : List Nat) (acc : List (Nat × Nat) × Nat)
    (nidx : Nat) : List (Nat × Nat) × Nat :=
  match findNode g nidx with
  | none => acc
  | some n =>
    if n.outputNodes.any (fun c => decide (c ∉ sl)) then
      (acc.1 ++ [(nidx, acc.2)], acc.2 + 1)
    else acc

def nodeToNotification (g : PGraph) (streams : List (List Nat)) :
    List (Nat × Nat) × Nat :=
  streams.foldl (fun acc sl => sl.foldl (notifStep g sl) acc) ([], 0)

/-- `node_to_notification.find(...)`. -/
def lookupNotif (m : List (Nat × Nat)) (nidx : Nat) : Option Nat :=
  (m.find? (fun p => p.1 = nidx)).map (fun p => p.2)

/-- `node_stream_map_`: last write of the stream-partition loop wins (each
node appears in exactly one stream in a well-formed partition). -/
def nodeStreamMap (streams : List (List Nat)) : Nat → Nat :=
  streams.enum.foldl
    (fun m p => p.2.foldl (fun m nidx => upd m nidx p.1) m)
    (fun _ => 0)

/-- Step 4 of `BuildExecutionPlan`: each notification is owned by the
stream of the node that produced it. -/
def notificationOwners (g : PGraph) (notifMap : List (Nat × Nat))
    (streamOf : Nat → Nat) : Nat → Nat :=
  g.nodes.foldl
    (fun own n =>
      match lookupNotif notifMap n.nid with
      | some nid => upd own nid (streamOf n.nid)
      | none => own)
    (fun _ => 0)

/-- The execution provider of a stream, as set in step 3 of
`BuildExecutionPlan` (all nodes of a stream share one provider; the C++
enforces this). -/
def streamEP (g : PGraph) (streams : List (List Nat)) (i : Nat) : String :=
  match (streams.getD i []).head? with
  | some nidx =>
    match findNode g nidx with
    | some n => n.provider
    | none => ""
  | none => ""

/-- The mutable state of step 5 of `BuildExecutionPlan`: the per-stream
step lists, the barrier counter and `downstream_map` (notification →
(stream, step-offset) pairs, recorded at the barrier's position). -/
structure BuildState : Type where
  steps : Nat → List Step
  numBarriers : Nat
  downstreamMap : Nat → List (Nat × Nat)

/-- Append one step to stream `i`. -/
def appendStepTo (st : BuildState) (i : Nat) (s : Step) : BuildState :=
  ⟨updAppend st.steps i s, st.numBarriers, st.downstreamMap⟩

/-- Push a barrier for notification `nid` on stream `i`: the
`downstream_map` entry records the barrier's (stream, step-offset)
position before the barrier itself is appended, and the barrier id
counter advances. -/
def emitBarrier (st : BuildState) (i nid : Nat) : BuildState :=
  ⟨updAppend st.steps i (Step.barrier st.numBarriers), st.numBarriers + 1,
    updAppend st.downstreamMap nid (i, (st.steps i).length)⟩

/-- The per-producer body of step 5: nothing for a same-stream producer;
otherwise a barrier on the producer's notification, followed by a
`WaitOnEP` when the (owner-stream provider, consumer provider) pair has a
registered wait handle.  The C++ `ORT_ENFORCE`s that the producer has a
notification; a missing entry (impossible for a well-formed partition) is
modelled as emitting nothing. -/
def emitSync (i : Nat) (sl : List Nat) (notifMap : List (Nat × Nat))
    (owners : Nat → Nat) (wh : String → String → Bool) (epf : Nat → String)
    (prov : String) (st : BuildState) (p : Nat) : BuildState :=
  if p ∈ sl then st
  else
    match lookupNotif notifMap p with
    | none => st
    | some nid =>
      if wh (epf (owners nid)) prov then
        appendStepTo (emitBarrier st i nid) i (Step.waitOnEP nid)
      else emitBarrier st i nid

/-- The synchronization prefix of one node: one `emitSync` per entry of
its `InputNodes` iteration. -/
def emitNodeSyncs (i : Nat) (sl : List Nat) (notifMap : List (Nat × Nat))
    (owners : Nat → Nat) (wh : String → String → Bool) (epf : Nat → String)
    (st : BuildState) (n : PNode) : BuildState :=
  n.inputNodes.foldl (emitSync i sl notifMap owners wh epf n.provider) st

/-- The per-node body of step 5: cross-stream synchronization, then the
kernel launch, then — when the node owns a notification — its activation
and downstream trigger. -/
def emitNode (i : Nat) (sl : List Nat) (notifMap : List (Nat × Nat))
    (owners : Nat → Nat) (wh : String → String → Bool) (epf : Nat → String)
    (st : BuildState) (n : PNode) : BuildState :=
  match lookupNotif notifMap n.nid with
  | some nid =>
    appendStepTo
      (appendStepTo
        (appendStepTo (emitNodeSyncs i sl notifMap owners wh epf st n) i
          (Step.launchKernel n.nid))
        i (Step.activateNotification nid))
      i (Step.triggerDownstream nid)
  | none =>
    appendStepTo (emitNodeSyncs i sl notifMap owners wh epf st n) i
      (Step.launchKernel n.nid)

/-- Step 5 of `PlannerImpl::BuildExecutionPlan`: every stream in order,
every node of the stream in order.  (The dependence-graph insertions the
same loop performs are modelled separately by `depAdj`.) -/
def buildExecutionPlan (g : PGraph) (streams : List (List Nat))
    (wh : String → String → Bool) : BuildState :=
  streams.enum.foldl
    (fun st p =>
      p.2.foldl
        (fun st nidx =>
          match findNode g nidx with
          | none => st
          | some n =>
            emitNode p.1 p.2 (nodeToNotification g streams).1
              (notificationOwners g (nodeToNotification g streams).1
                (nodeStreamMap streams))
              wh (streamEP g streams) st n)
        st)
    ⟨fun _ => [], 0, fun _ => []⟩

theorem foldl_preserves {σ β : Type} (l : List β) (f : σ → β → σ) (Q : σ → Prop)
    (st : σ) (hq : Q st) (hpres : ∀ st b, b ∈ l → Q st → Q (f st b)) :
    Q (l.foldl f st) := by
  induction l generalizing st with
  | nil => exact hq
  | cons b l ih =>
    exact ih (f st b) (hpres st b (List.mem_cons_self _ _) hq)
      (fun st2 b2 hb2 => hpres st2 b2 (List.mem_cons_of_mem _ hb2))

theorem foldl_establishes {σ β : Type} (l : List β) (f : σ → β → σ) (Q : σ → Prop)
    (st0 : σ) (e : β) (he : e ∈ l) (hest : ∀ st, Q (f st e))
    (hpres : ∀ st b, b ∈ l → Q st → Q (f st b)) : Q (l.foldl f st0) := by
  induction l generalizing st0 with
  | nil => cases he
  | cons b l ih =>
    by_cases hb : b = e
    · subst hb
      exact foldl_preserves l f Q (f st0 b) (hest st0)
        (fun st b2 hb2 => hpres st b2 (List.mem_cons_of_mem _ hb2))
    · rcases List.mem_cons.mp he with h | h
      · exact absurd h.symm hb
      · exact ih (f st0 b) h (fun st b2 hb2 => hpres st b2 (List.mem_cons_of_mem _ hb2))

/-- A build state extends another: every stream's step list and every
notification's downstream entries only grow. -/
def StExt (st st2 : BuildState) : Prop :=
  (∀ k, ∃ suf, st2.steps k = st.steps k ++ suf) ∧
  (∀ d, ∃ suf, st2.downstreamMap d = st.downstreamMap d ++ suf)

theorem stExt_refl (st : BuildState) : StExt st st :=
  ⟨fun k => ⟨[], by simp⟩, fun d => ⟨[], by simp⟩⟩

theorem stExt_trans {a b c : BuildState} (h1 : StExt a b) (h2 : StExt b c) : StExt a c := by
  refine ⟨fun k => ?_, fun d => ?_⟩
  · obtain ⟨s1, e1⟩ := h1.1 k
    obtain ⟨s2, e2⟩ := h2.1 k
    exact ⟨s1 ++ s2, by rw [e2, e1, List.append_assoc]⟩
  · obtain ⟨s1, e1⟩ := h1.2 d
    obtain ⟨s2, e2⟩ := h2.2 d
    exact ⟨s1 ++ s2, by rw [e2, e1, List.append_assoc]⟩

theorem updAppend_ext {α : Type} (f : Nat → List α) (k : Nat) (v : α) (x : Nat) :
    ∃ suf, updAppend f k v x = f x ++ suf := by
  by_cases h : x = k
  · subst h
    exact ⟨[v], by unfold updAppend; rw [upd_same]⟩
  · exact ⟨[], by unfold updAppend; rw [upd_ne _ _ _ h, List.append_nil]⟩

theorem appendStepTo_ext (st : BuildState) (i : Nat) (s : Step) :
    StExt st (appendStepTo st i s) :=
  ⟨fun k => updAppend_ext _ _ _ k, fun d => ⟨[], by simp [appendStepTo]⟩⟩

theorem emitBarrier_ext (st : BuildState) (i nid : Nat) : StExt st (emitBarrier st i nid) :=
  ⟨fun k => updAppend_ext _ _ _ k, fun d => updAppend_ext _ _ _ d⟩

theorem emitSync_ext (i : Nat) (sl : List Nat) (nm : List (Nat × Nat))
    (owners : Nat → Nat) (wh : String → String → Bool) (epf : Nat → String)
    (prov : String) (st : BuildState) (p : Nat) :
    StExt st (emitSync i sl nm owners wh epf prov st p) := by
  unfold emitSync
  by_cases hp : p ∈ sl
  · rw [if_pos hp]
    exact stExt_refl st
  · rw [if_neg hp]
    cases hl : lookupNotif nm p with
    | none => exact stExt_refl st
    | some nid =>
      show StExt st (if wh (epf (owners nid)) prov then
        appendStepTo (emitBarrier st i nid) i (Step.waitOnEP nid) else emitBarrier st i nid)
      by_cases hw : wh (epf (owners nid)) prov
      · rw [if_pos hw]
        exact stExt_trans (emitBarrier_ext st i nid) (appendStepTo_ext _ i _)
      · rw [if_neg hw]
        exact emitBarrier_ext st i nid

theorem emitNodeSyncs_ext (i : Nat) (sl : List Nat) (nm : List (Nat × Nat))
    (owners : Nat → Nat) (wh : String → String → Bool) (epf : Nat → String)
    (st : BuildState) (n : PNode) :
    StExt st (emitNodeSyncs i sl nm owners wh epf st n) := by
  unfold emitNodeSyncs
  have := foldl_preserves n.inputNodes (emitSync i sl nm owners wh epf n.provider)
    (StExt st) st (stExt_refl st)
    (fun st2 p _ h => stExt_trans h (emitSync_ext i sl nm owners wh epf n.provider st2 p))
  exact this

theorem emitNode_ext (i : Nat) (sl : List Nat) (nm : List (Nat × Nat))
    (owners : Nat → Nat) (wh : String → String → Bool) (epf : Nat → String)
    (st : BuildState) (n : PNode) :
    StExt st (emitNode i sl nm owners wh epf st n) := by
  unfold emitNode
  cases hl : lookupNotif nm n.nid with
  | none =>
    exact stExt_trans (emitNodeSyncs_ext i sl nm owners wh epf st n)
      (appendStepTo_ext _ i _)
  | some nid =>
    exact stExt_trans (emitNodeSyncs_ext i sl nm owners wh epf st n)
      (stExt_trans (appendStepTo_ext _ i _)
        (stExt_trans (appendStepTo_ext _ i _) (appendStepTo_ext _ i _)))

theorem getElem?_append_of_some {α : Type} {l : List α} (suf : List α) {j : Nat} {a : α}
    (h : l[j]? = some a) : (l ++ suf)[j]? = some a := by
  have hj : j < l.length := by
    rw [List.getElem?_eq_some] at h
    exact h.1
  rw [getAppendLeft _ _ _ hj]
  exact h

theorem streams_disjoint (streams : List (List Nat)) (hnd : streams.flatten.Nodup)
    (i1 i2 : Nat) (sl1 sl2 : List Nat) (h1 : streams[i1]? = some sl1)
    (h2 : streams[i2]? = some sl2) (hne : i1 ≠ i2) (x : Nat) (hx1 : x ∈ sl1) :
    x ∉ sl2 := by
  have hpw := (List.nodup_flatten.mp hnd).2
  rw [List.pairwise_iff_getElem] at hpw
  rw [List.getElem?_eq_some] at h1 h2
  obtain ⟨b1, e1⟩ := h1
  obtain ⟨b2, e2⟩ := h2
  rcases Nat.lt_or_ge i1 i2 with hlt | hge
  · have hd := hpw i1 i2 b1 b2 hlt
    rw [e1, e2] at hd
    exact hd hx1
  · have hlt2 : i2 < i1 := lt_of_le_of_ne hge (fun h => hne h.symm)
    have hd := hpw i2 i1 b2 b1 hlt2
    rw [e1, e2] at hd
    exact fun hx2 => (hd hx2) hx1

theorem notifStep_bound_nodup (g : PGraph) (sl : List Nat)
    (acc : List (Nat × Nat) × Nat) (nidx : Nat)
    (hq : (∀ pr ∈ acc.1, pr.2 < acc.2) ∧ (acc.1.map Prod.snd).Nodup) :
    (∀ pr ∈ (notifStep g sl acc nidx).1, pr.2 < (notifStep g sl acc nidx).2) ∧
    ((notifStep g sl acc nidx).1.map Prod.snd).Nodup := by
  cases hf : findNode g nidx with
  | none => simp only [notifStep, hf]; exact hq
  | some n =>
    simp only [notifStep, hf]
    by_cases hcond : n.outputNodes.any (fun c => decide (c ∉ sl))
    · rw [if_pos hcond]
      constructor
      · intro pr hpr
        rcases List.mem_append.mp hpr with h | h
        · exact Nat.lt_succ_of_lt (hq.1 pr h)
        · rw [List.mem_singleton] at h
          rw [h]
          exact Nat.lt_succ_self _
      · rw [List.map_append, List.nodup_append]
        refine ⟨hq.2, by simp, ?_⟩
        intro x hx
        rcases List.mem_map.mp hx with ⟨pr, hpr, hpr2⟩
        simp only [List.map_cons, List.map_nil, List.mem_singleton]
        intro hx2
        have := hq.1 pr hpr
        omega
    · rw [if_neg hcond]
      exact hq

theorem nodeToNotification_inv (g : PGraph) (streams : List (List Nat)) :
    (∀ pr ∈ (nodeToNotification g streams).1, pr.2 < (nodeToNotification g streams).2) ∧
    ((nodeToNotification g streams).1.map Prod.snd).Nodup := by
  unfold nodeToNotification
  refine foldl_preserves streams _
    (fun acc : List (Nat × Nat) × Nat =>
      (∀ pr ∈ acc.1, pr.2 < acc.2) ∧ (acc.1.map Prod.snd).Nodup)
    ([], 0) ⟨fun pr h => absurd h (List.not_mem_nil pr), List.nodup_nil⟩ ?_
  intro acc sl _ hq
  exact foldl_preserves sl _ _ acc hq
    (fun acc2 nidx _ hq2 => notifStep_bound_nodup g sl acc2 nidx hq2)

theorem notifMap_snd_inj (g : PGraph) (streams : List (List Nat)) (a b k : Nat)
    (ha : (a, k) ∈ (nodeToNotification g streams).1)
    (hb : (b, k) ∈ (nodeToNotification g streams).1) : a = b := by
  have hnd := (nodeToNotification_inv g streams).2
  have heq := List.inj_on_of_nodup_map hnd ha hb (rfl : ((a, k) : Nat × Nat).2 = (b, k).2)
  exact congrArg Prod.fst heq

theorem lookupNotif_mem (m : List (Nat × Nat)) (x k : Nat)
    (h : lookupNotif m x = some k) : (x, k) ∈ m := by
  unfold lookupNotif at h
  cases hf : m.find? (fun p => p.1 = x) with
  | none => rw [hf] at h; cases h
  | some pr =>
    rw [hf] at h
    simp only [Option.map_some', Option.some.injEq] at h
    have hx : pr.1 = x := by simpa using List.find?_some hf
    have hm := List.mem_of_find?_eq_some hf
    have hpr : pr = (x, k) := Prod.ext hx h
    rw [← hpr]
    exact hm

theorem notifStep_keeps_found (g : PGraph) (sl : List Nat)
    (acc : List (Nat × Nat) × Nat) (nidx w : Nat)
    (hq : ((acc.1.find? (fun pr => pr.1 = w)).isSome = true)) :
    (((notifStep g sl acc nidx).1.find? (fun pr => pr.1 = w)).isSome = true) := by
  cases hf : findNode g nidx with
  | none => simp only [notifStep, hf]; exact hq
  | some n =>
    simp only [notifStep, hf]
    by_cases hcond : n.outputNodes.any (fun c => decide (c ∉ sl))
    · rw [if_pos hcond]
      obtain ⟨x, hx, hpx⟩ := List.find?_isSome.mp hq
      exact List.find?_isSome.mpr ⟨x, List.mem_append_left _ hx, hpx⟩
    · rw [if_neg hcond]
      exact hq

theorem nodeToNotification_assigns (g : PGraph) (streams : List (List Nat))
    (np : PNode) (slp : List Nat) (c : Nat)
    (hfp : findNode g np.nid = some np) (hslp : slp ∈ streams) (hmp : np.nid ∈ slp)
    (hc : c ∈ np.outputNodes) (hcnot : c ∉ slp) :
    ∃ nid, lookupNotif (nodeToNotification g streams).1 np.nid = some nid := by
  have hq : (((nodeToNotification g streams).1.find?
      (fun pr => pr.1 = np.nid)).isSome = true) := by
    unfold nodeToNotification
    refine foldl_establishes streams _
      (fun acc : List (Nat × Nat) × Nat =>
        ((acc.1.find? (fun pr => pr.1 = np.nid)).isSome = true))
      ([], 0) slp hslp ?_ ?_
    · intro acc
      refine foldl_establishes slp _
        (fun acc2 : List (Nat × Nat) × Nat =>
          ((acc2.1.find? (fun pr => pr.1 = np.nid)).isSome = true))
        acc np.nid hmp ?_ ?_
      · intro acc2
        simp only [notifStep, hfp]
        rw [if_pos (List.any_eq_true.mpr ⟨c, hc, by simp [hcnot]⟩)]
        exact List.find?_isSome.mpr
          ⟨(np.nid, acc2.2), List.mem_append_right _ (List.mem_singleton.mpr rfl),
            by simp⟩
      · intro acc2 nidx _ hq2
        exact notifStep_keeps_found g slp acc2 nidx np.nid hq2
    · intro acc sl2 _ hq2
      exact foldl_preserves sl2 _ _ acc hq2
        (fun acc2 nidx _ hq3 => notifStep_keeps_found g sl2 acc2 nidx np.nid hq3)
  obtain ⟨pr, hpr⟩ := Option.isSome_iff_exists.mp hq
  refine ⟨pr.2, ?_⟩
  unfold lookupNotif
  rw [hpr]
  rfl

theorem nodeStreamMap_eq (streams : List (List Nat)) (hnd : streams.flatten.Nodup)
    (ip : Nat) (slp : List Nat) (hsp : streams[ip]? = some slp)
    (x : Nat) (hx : x ∈ slp) : nodeStreamMap streams x = ip := by
  unfold nodeStreamMap
  refine foldl_establishes streams.enum _ (fun m : Nat → Nat => m x = ip)
    (fun _ => 0) (ip, slp) (List.mem_enum_iff_getElem?.mpr hsp) ?_ ?_
  · intro m
    refine foldl_establishes slp _ (fun m2 : Nat → Nat => m2 x = ip) m x hx ?_ ?_
    · intro m2
      exact upd_same m2 x ip
    · intro m2 y _ hq
      by_cases hxy : x = y
      · subst hxy
        exact upd_same m2 x ip
      · rw [upd_ne _ _ _ hxy]
        exact hq
  · intro m b hbmem hq
    obtain ⟨j, sl⟩ := b
    have hbs : streams[j]? = some sl := List.mem_enum_iff_getElem?.mp hbmem
    by_cases hxs : x ∈ sl
    · have hj : j = ip := by
        by_contra hne
        exact (streams_disjoint streams hnd j ip sl slp hbs hsp hne x hxs) hx
      refine foldl_establishes sl _ (fun m2 : Nat → Nat => m2 x = ip) m x hxs ?_ ?_
      · intro m2
        show upd m2 x j x = ip
        rw [upd_same, hj]
      · intro m2 y _ hq2
        by_cases hxy : x = y
        · subst hxy
          show upd m2 x j x = ip
          rw [upd_same, hj]
        · rw [upd_ne _ _ _ hxy]
          exact hq2
    · refine foldl_preserves sl _ (fun m2 : Nat → Nat => m2 x = ip) m hq ?_
      intro m2 y hy hq2
      have hne : x ≠ y := fun h => hxs (h ▸ hy)
      rw [upd_ne _ _ _ hne]
      exact hq2

theorem notificationOwners_eq (g : PGraph) (streams : List (List Nat))
    (streamOf : Nat → Nat) (np : PNode) (nid : Nat) (hmem : np ∈ g.nodes)
    (hlook : lookupNotif (nodeToNotification g streams).1 np.nid = some nid) :
    notificationOwners g (nodeToNotification g streams).1 streamOf nid
      = streamOf np.nid := by
  unfold notificationOwners
  refine foldl_establishes g.nodes _ (fun own : Nat → Nat => own nid = streamOf np.nid)
    (fun _ => 0) np hmem ?_ ?_
  · intro own
    simp only [hlook]
    exact upd_same _ _ _
  · intro own n2 _ hq
    cases hl2 : lookupNotif (nodeToNotification g streams).1 n2.nid with
    | none =>
      simp only [hl2]
      exact hq
    | some nid2 =>
      simp only [hl2]
      by_cases h2 : nid = nid2
      · subst h2
        have ha := lookupNotif_mem _ _ _ hl2
        have hb := lookupNotif_mem _ _ _ hlook
        have heq : n2.nid = np.nid := notifMap_snd_inj g streams _ _ _ ha hb
        rw [upd_same, heq]
      · rw [upd_ne _ _ _ h2]
        exact hq

theorem stExt_keeps_step {st st2 : BuildState} (hext : StExt st st2) (i j : Nat)
    (s : Step) (h : (st.steps i)[j]? = some s) : (st2.steps i)[j]? = some s := by
  obtain ⟨suf, hsuf⟩ := hext.1 i
  rw [hsuf]
  exact getElem?_append_of_some suf h

theorem stExt_keeps_dm {st st2 : BuildState} (hext : StExt st st2) (d : Nat)
    (p : Nat × Nat) (h : p ∈ st.downstreamMap d) : p ∈ st2.downstreamMap d := by
  obtain ⟨suf, hsuf⟩ := hext.2 d
  rw [hsuf]
  exact List.mem_append_left _ h

theorem appendStepTo_steps_self (st : BuildState) (i : Nat) (s : Step) :
    (appendStepTo st i s).steps i = st.steps i ++ [s] := by
  show upd st.steps i (st.steps i ++ [s]) i = st.steps i ++ [s]
  exact upd_same _ _ _

theorem appendStepTo_dm (st : BuildState) (i : Nat) (s : Step) (d : Nat) :
    (appendStepTo st i s).downstreamMap d = st.downstreamMap d := rfl

theorem emitBarrier_steps_self (st : BuildState) (i nid : Nat) :
    (emitBarrier st i nid).steps i = st.steps i ++ [Step.barrier st.numBarriers] := by
  show upd st.steps i (st.steps i ++ [Step.barrier st.numBarriers]) i = _
  exact upd_same _ _ _

theorem emitBarrier_dm_self (st : BuildState) (i nid : Nat) :
    (emitBarrier st i nid).downstreamMap nid
      = st.downstreamMap nid ++ [(i, (st.steps i).length)] := by
  show upd st.downstreamMap nid
    (st.downstreamMap nid ++ [(i, (st.steps i).length)]) nid = _
  exact upd_same _ _ _

theorem emitSync_emits_barrier (i : Nat) (sl : List Nat) (nm : List (Nat × Nat))
    (owners : Nat → Nat) (wh : String → String → Bool) (epf : Nat → String)
    (prov : String) (st : BuildState) (p nid : Nat)
    (hp : p ∉ sl) (hl : lookupNotif nm p = some nid) :
    ∃ b bid,
      ((emitSync i sl nm owners wh epf prov st p).steps i)[b]? =
        some (Step.barrier bid) ∧
      (i, b) ∈ (emitSync i sl nm owners wh epf prov st p).downstreamMap nid ∧
      (wh (epf (owners nid)) prov = true →
        ((emitSync i sl nm owners wh epf prov st p).steps i)[b + 1]? =
          some (Step.waitOnEP nid)) := by
  unfold emitSync
  rw [if_neg hp]
  simp only [hl]
  by_cases hw : wh (epf (owners nid)) prov
  · rw [if_pos hw]
    refine ⟨(st.steps i).length, st.numBarriers, ?_, ?_, fun _ => ?_⟩
    · rw [appendStepTo_steps_self, emitBarrier_steps_self]
      exact getElem?_append_of_some _ (getAppendLast _ _)
    · rw [appendStepTo_dm, emitBarrier_dm_self]
      exact List.mem_append_right _ (List.mem_singleton.mpr rfl)
    · rw [appendStepTo_steps_self, emitBarrier_steps_self]
      have h := getAppendLast (st.steps i ++ [Step.barrier st.numBarriers])
        (Step.waitOnEP nid)
      rw [List.length_append, List.length_singleton] at h
      exact h
  · rw [if_neg hw]
    refine ⟨(st.steps i).length, st.numBarriers, ?_, ?_, fun hcontra => absurd hcontra hw⟩
    · rw [emitBarrier_steps_self]
      exact getAppendLast _ _
    · rw [emitBarrier_dm_self]
      exact List.mem_append_right _ (List.mem_singleton.mpr rfl)

theorem emitNodeSyncs_emits_barrier (i : Nat) (sl : List Nat) (nm : List (Nat × Nat))
    (owners : Nat → Nat) (wh : String → String → Bool) (epf : Nat → String)
    (st : BuildState) (nc : PNode) (p nid : Nat)
    (hedge : p ∈ nc.inputNodes) (hp : p ∉ sl) (hl : lookupNotif nm p = some nid) :
    ∃ b bid,
      ((emitNodeSyncs i sl nm owners wh epf st nc).steps i)[b]? =
        some (Step.barrier bid) ∧
      (i, b) ∈ (emitNodeSyncs i sl nm owners wh epf st nc).downstreamMap nid ∧
      (wh (epf (owners nid)) nc.provider = true →
        ((emitNodeSyncs i sl nm owners wh epf st nc).steps i)[b + 1]? =
          some (Step.waitOnEP nid)) := by
  unfold emitNodeSyncs
  refine foldl_establishes nc.inputNodes _
    (fun st2 : BuildState => ∃ b bid,
      ((st2.steps i)[b]? = some (Step.barrier bid)) ∧
      (i, b) ∈ st2.downstreamMap nid ∧
      (wh (epf (owners nid)) nc.provider = true →
        (st2.steps i)[b + 1]? = some (Step.waitOnEP nid)))
    st p hedge ?_ ?_
  · intro st2
    exact emitSync_emits_barrier i sl nm owners wh epf nc.provider st2 p nid hp hl
  · intro st2 q _ hq
    obtain ⟨b, bid, h1, h2, h3⟩ := hq
    have hext := emitSync_ext i sl nm owners wh epf nc.provider st2 q
    exact ⟨b, bid, stExt_keeps_step hext _ _ _ h1, stExt_keeps_dm hext _ _ h2,
      fun hw => stExt_keeps_step hext _ _ _ (h3 hw)⟩

theorem emitNode_consumer_facts (i : Nat) (sl : List Nat) (nm : List (Nat × Nat))
    (owners : Nat → Nat) (wh : String → String → Bool) (epf : Nat → String)
    (st : BuildState) (nc : PNode) (p nid : Nat)
    (hedge : p ∈ nc.inputNodes) (hp : p ∉ sl) (hl : lookupNotif nm p = some nid) :
    ∃ b l bid, b < l ∧
      ((emitNode i sl nm owners wh epf st nc).steps i)[b]? =
        some (Step.barrier bid) ∧
      (i, b) ∈ (emitNode i sl nm owners wh epf st nc).downstreamMap nid ∧
      ((emitNode i sl nm owners wh epf st nc).steps i)[l]? =
        some (Step.launchKernel nc.nid) ∧
      (wh (epf (owners nid)) nc.provider = true →
        ((emitNode i sl nm owners wh epf st nc).steps i)[b + 1]? =
          some (Step.waitOnEP nid)) := by
  obtain ⟨b, bid, h1, h2, h3⟩ :=
    emitNodeSyncs_emits_barrier i sl nm owners wh epf st nc p nid hedge hp hl
  have hb : b < ((emitNodeSyncs i sl nm owners wh epf st nc).steps i).length :=
    (List.getElem?_eq_some.mp h1).1
  cases hlc : lookupNotif nm nc.nid with
  | none =>
    simp only [emitNode, hlc]
    refine ⟨b, ((emitNodeSyncs i sl nm owners wh epf st nc).steps i).length, bid,
      hb, ?_, ?_, ?_, fun hw => ?_⟩
    · rw [appendStepTo_steps_self]
      exact getElem?_append_of_some _ h1
    · rw [appendStepTo_dm]
      exact h2
    · rw [appendStepTo_steps_self]
      exact getAppendLast _ _
    · rw [appendStepTo_steps_self]
      exact getElem?_append_of_some _ (h3 hw)
  | some nidc =>
    simp only [emitNode, hlc]
    refine ⟨b, ((emitNodeSyncs i sl nm owners wh epf st nc).steps i).length, bid,
      hb, ?_, ?_, ?_, fun hw => ?_⟩
    · rw [appendStepTo_steps_self, appendStepTo_steps_self, appendStepTo_steps_self]
      exact getElem?_append_of_some _ (getElem?_append_of_some _
        (getElem?_append_of_some _ h1))
    · rw [appendStepTo_dm, appendStepTo_dm, appendStepTo_dm]
      exact h2
    · rw [appendStepTo_steps_self, appendStepTo_steps_self, appendStepTo_steps_self]
      exact getElem?_append_of_some _ (getElem?_append_of_some _ (getAppendLast _ _))
    · rw [appendStepTo_steps_self, appendStepTo_steps_self, appendStepTo_steps_self]
      exact getElem?_append_of_some _ (getElem?_append_of_some _
        (getElem?_append_of_some _ (h3 hw)))

theorem emitNode_producer_facts (i : Nat) (sl : List Nat) (nm : List (Nat × Nat))
    (owners : Nat → Nat) (wh : String → String → Bool) (epf : Nat → String)
    (st : BuildState) (np : PNode) (nid : Nat)
    (hl : lookupNotif nm np.nid = some nid) :
    ∃ lp a t : Nat, lp < a ∧ a < t ∧
      ((emitNode i sl nm owners wh epf st np).steps i)[lp]? =
        some (Step.launchKernel np.nid) ∧
      ((emitNode i sl nm owners wh epf st np).steps i)[a]? =
        some (Step.activateNotification nid) ∧
      ((emitNode i sl nm owners wh epf st np).steps i)[t]? =
        some (Step.triggerDownstream nid) := by
  simp only [emitNode, hl]
  refine ⟨((emitNodeSyncs i sl nm owners wh epf st np).steps i).length,
    ((emitNodeSyncs i sl nm owners wh epf st np).steps i).length + 1,
    ((emitNodeSyncs i sl nm owners wh epf st np).steps i).length + 2,
    ?_, ?_, ?_, ?_, ?_⟩
  · exact Nat.lt_succ_self _
  · exact Nat.lt_succ_self _
  · rw [appendStepTo_steps_self, appendStepTo_steps_self, appendStepTo_steps_self]
    exact getElem?_append_of_some _ (getElem?_append_of_some _ (getAppendLast _ _))
  · rw [appendStepTo_steps_self, appendStepTo_steps_self, appendStepTo_steps_self]
    have h := getAppendLast
      ((emitNodeSyncs i sl nm owners wh epf st np).steps i ++
        [Step.launchKernel np.nid])
      (Step.activateNotification nid)
    rw [List.length_append, List.length_singleton] at h
    exact getElem?_append_of_some _ h
  · rw [appendStepTo_steps_self, appendStepTo_steps_self, appendStepTo_steps_self]
    have h := getAppendLast
      (((emitNodeSyncs i sl nm owners wh epf st np).steps i ++
        [Step.launchKernel np.nid]) ++ [Step.activateNotification nid])
      (Step.triggerDownstream nid)
    rw [List.length_append, List.length_append, List.length_singleton,
      List.length_singleton] at h
    exact h

theorem buildNodeStep_ext (g : PGraph) (i : Nat) (sl : List Nat)
    (nm : List (Nat × Nat)) (owners : Nat → Nat) (wh : String → String → Bool)
    (epf : Nat → String) (st : BuildState) (nidx : Nat) :
    StExt st (match findNode g nidx with
      | none => st
      | some n => emitNode i sl nm owners wh epf st n) := by
  cases hf : findNode g nidx with
  | none =>
    simp only [hf]
    exact stExt_refl st
  | some n =>
    simp only [hf]
    exact emitNode_ext i sl nm owners wh epf st n

theorem buildStreamStep_ext (g : PGraph) (i : Nat) (sl : List Nat)
    (nm : List (Nat × Nat)) (owners : Nat → Nat) (wh : String → String → Bool)
    (epf : Nat → String) (st : BuildState) :
    StExt st (sl.foldl (fun st2 nidx => match findNode g nidx with
      | none => st2
      | some n => emitNode i sl nm owners wh epf st2 n) st) := by
  refine foldl_preserves sl _ (StExt st) st (stExt_refl st) ?_
  intro st2 nidx _ h
  exact stExt_trans h (buildNodeStep_ext g i sl nm owners wh epf st2 nidx)

/-- C2: for every cross-stream edge producer → consumer in the model
graph, the emitted execution plan contains, in the consumer's stream, a
`Barrier` step — and, when a wait handle is registered for the
producer-stream / consumer provider pair, a `WaitOnEP` step right after
it — preceding the consumer's `LaunchKernel` step, associated with a
notification owned by the producer's stream; and the producer's
`ActivateNotification` and `TriggerDownstream` steps come after its
`LaunchKernel` step in the producer's stream. -/
theorem buildExecutionPlan_sync_completeness (g : PGraph)
    (streams : List (List Nat)) (wh : String → String → Bool)
    (np nc : PNode) (ip ic : Nat) (slp slc : List Nat)
    (hnd : streams.flatten.Nodup)
    (hfp : findNode g np.nid = some np) (hfc : findNode g nc.nid = some nc)
    (hsp : streams[ip]? = some slp) (hsc : streams[ic]? = some slc)
    (hmp : np.nid ∈ slp) (hmc : nc.nid ∈ slc)
    (hedge : np.nid ∈ nc.inputNodes) (hout : nc.nid ∈ np.outputNodes)
    (hcross : ip ≠ ic) :
    ∃ nid : Nat,
      lookupNotif (nodeToNotification g streams).1 np.nid = some nid ∧
      notificationOwners g (nodeToNotification g streams).1
        (nodeStreamMap streams) nid = ip ∧
      (∃ b l bid : Nat, b < l ∧
        ((buildExecutionPlan g streams wh).steps ic)[b]? =
          some (Step.barrier bid) ∧
        (ic, b) ∈ (buildExecutionPlan g streams wh).downstreamMap nid ∧
        ((buildExecutionPlan g streams wh).steps ic)[l]? =
          some (Step.launchKernel nc.nid) ∧
        (wh (streamEP g streams ip) nc.provider = true →
          ((buildExecutionPlan g streams wh).steps ic)[b + 1]? =
            some (Step.waitOnEP nid))) ∧
      (∃ lp a t : Nat, lp < a ∧ a < t ∧
        ((buildExecutionPlan g streams wh).steps ip)[lp]? =
          some (Step.launchKernel np.nid) ∧
        ((buildExecutionPlan g streams wh).steps ip)[a]? =
          some (Step.activateNotification nid) ∧
        ((buildExecutionPlan g streams wh).steps ip)[t]? =
          some (Step.triggerDownstream nid)) := by
  have hslp : slp ∈ streams := List.getElem?_mem hsp
  have hncnotp : nc.nid ∉ slp :=
    streams_disjoint streams hnd ic ip slc slp hsc hsp
      (fun h => hcross h.symm) nc.nid hmc
  have hnpnotc : np.nid ∉ slc :=
    streams_disjoint streams hnd ip ic slp slc hsp hsc hcross np.nid hmp
  obtain ⟨nid, hlook⟩ :=
    nodeToNotification_assigns g streams np slp nc.nid hfp hslp hmp hout hncnotp
  have hmemnp : np ∈ g.nodes := List.mem_of_find?_eq_some hfp
  have howner : notificationOwners g (nodeToNotification g streams).1
      (nodeStreamMap streams) nid = ip := by
    rw [notificationOwners_eq g streams (nodeStreamMap streams) np nid hmemnp hlook]
    exact nodeStreamMap_eq streams hnd ip slp hsp np.nid hmp
  refine ⟨nid, hlook, howner, ?_, ?_⟩
  · have hcf : ∃ b l bid : Nat, b < l ∧
        ((buildExecutionPlan g streams wh).steps ic)[b]? =
          some (Step.barrier bid) ∧
        (ic, b) ∈ (buildExecutionPlan g streams wh).downstreamMap nid ∧
        ((buildExecutionPlan g streams wh).steps ic)[l]? =
          some (Step.launchKernel nc.nid) ∧
        (wh (streamEP g streams (notificationOwners g
            (nodeToNotification g streams).1 (nodeStreamMap streams) nid))
            nc.provider = true →
          ((buildExecutionPlan g streams wh).steps ic)[b + 1]? =
            some (Step.waitOnEP nid)) := by
      unfold buildExecutionPlan
      refine foldl_establishes streams.enum _
        (fun st : BuildState => ∃ b l bid : Nat, b < l ∧
          (st.steps ic)[b]? = some (Step.barrier bid) ∧
          (ic, b) ∈ st.downstreamMap nid ∧
          (st.steps ic)[l]? = some (Step.launchKernel nc.nid) ∧
          (wh (streamEP g streams (notificationOwners g
              (nodeToNotification g streams).1 (nodeStreamMap streams) nid))
              nc.provider = true →
            (st.steps ic)[b + 1]? = some (Step.waitOnEP nid)))
        ⟨fun _ => [], 0, fun _ => []⟩ (ic, slc)
        (List.mem_enum_iff_getElem?.mpr hsc) ?_ ?_
      · intro st
        refine foldl_establishes slc _
          (fun st2 : BuildState => ∃ b l bid : Nat, b < l ∧
            (st2.steps ic)[b]? = some (Step.barrier bid) ∧
            (ic, b) ∈ st2.downstreamMap nid ∧
            (st2.steps ic)[l]? = some (Step.launchKernel nc.nid) ∧
            (wh (streamEP g streams (notificationOwners g
                (nodeToNotification g streams).1 (nodeStreamMap streams) nid))
                nc.provider = true →
              (st2.steps ic)[b + 1]? = some (Step.waitOnEP nid)))
          st nc.nid hmc ?_ ?_
        · intro st2
          simp only [hfc]
          exact emitNode_consumer_facts ic slc (nodeToNotification g streams).1
            (notificationOwners g (nodeToNotification g streams).1
              (nodeStreamMap streams))
            wh (streamEP g streams) st2 nc np.nid nid hedge hnpnotc hlook
        · intro st2 nidx _ hq
          obtain ⟨b, l, bid, h0, h1, h2, h3, h4⟩ := hq
          have hext := buildNodeStep_ext g ic slc (nodeToNotification g streams).1
            (notificationOwners g (nodeToNotification g streams).1
              (nodeStreamMap streams))
            wh (streamEP g streams) st2 nidx
          exact ⟨b, l, bid, h0, stExt_keeps_step hext _ _ _ h1,
            stExt_keeps_dm hext _ _ h2, stExt_keeps_step hext _ _ _ h3,
            fun hw => stExt_keeps_step hext _ _ _ (h4 hw)⟩
      · intro st b2 _ hq
        obtain ⟨b, l, bid, h0, h1, h2, h3, h4⟩ := hq
        have hext := buildStreamStep_ext g b2.1 b2.2
          (nodeToNotification g streams).1
          (notificationOwners g (nodeToNotification g streams).1
            (nodeStreamMap streams))
          wh (streamEP g streams) st
        exact ⟨b, l, bid, h0, stExt_keeps_step hext _ _ _ h1,
          stExt_keeps_dm hext _ _ h2, stExt_keeps_step hext _ _ _ h3,
          fun hw => stExt_keeps_step hext _ _ _ (h4 hw)⟩
    obtain ⟨b, l, bid, h0, h1, h2, h3, h4⟩ := hcf
    rw [howner] at h4
    exact ⟨b, l, bid, h0, h1, h2, h3, h4⟩
  · unfold buildExecutionPlan
    refine foldl_establishes streams.enum _
      (fun st : BuildState => ∃ lp a t : Nat, lp < a ∧ a < t ∧
        (st.steps ip)[lp]? = some (Step.launchKernel np.nid) ∧
        (st.steps ip)[a]? = some (Step.activateNotification nid) ∧
        (st.steps ip)[t]? = some (Step.triggerDownstream nid))
      ⟨fun _ => [], 0, fun _ => []⟩ (ip, slp)
      (List.mem_enum_iff_getElem?.mpr hsp) ?_ ?_
    · intro st
      refine foldl_establishes slp _
        (fun st2 : BuildState => ∃ lp a t : Nat, lp < a ∧ a < t ∧
          (st2.steps ip)[lp]? = some (Step.launchKernel np.nid) ∧
          (st2.steps ip)[a]? = some (Step.activateNotification nid) ∧
          (st2.steps ip)[t]? = some (Step.triggerDownstream nid))
        st np.nid hmp ?_ ?_
      · intro st2
        simp only [hfp]
        exact emitNode_producer_facts ip slp (nodeToNotification g streams).1
          (notificationOwners g (nodeToNotification g streams).1
            (nodeStreamMap streams))
          wh (streamEP g streams) st2 np nid hlook
      · intro st2 nidx _ hq
        obtain ⟨lp, a, t, h0, h1, h2, h3, h4⟩ := hq
        have hext := buildNodeStep_ext g ip slp (nodeToNotification g streams).1
          (notificationOwners g (nodeToNotification g streams).1
            (nodeStreamMap streams))
          wh (streamEP g streams) st2 nidx
        exact ⟨lp, a, t, h0, h1, stExt_keeps_step hext _ _ _ h2,
          stExt_keeps_step hext _ _ _ h3, stExt_keeps_step hext _ _ _ h4⟩
    · intro st b2 _ hq
      obtain ⟨lp, a, t, h0, h1, h2, h3, h4⟩ := hq
      have hext := buildStreamStep_ext g b2.1 b2.2
        (nodeToNotification g streams).1
        (notificationOwners g (nodeToNotification g streams).1
          (nodeStreamMap streams))
        wh (streamEP g streams) st
      exact ⟨lp, a, t, h0, h1, stExt_keeps_step hext _ _ _ h2,
        stExt_keeps_step hext _ _ _ h3, stExt_keeps_step hext _ _ _ h4⟩

/-- Witness: the C2 theorem applied to the cross-stream edge A → B of the
two-node, two-stream example graph. -/
theorem buildExecutionPlan_sync_completeness_witness :
    exNodeA.nid ∈ exNodeB.inputNodes ∧
    (∃ nid : Nat,
      lookupNotif (nodeToNotification exG7 exStreams7).1 exNodeA.nid = some nid ∧
      notificationOwners exG7 (nodeToNotification exG7 exStreams7).1
        (nodeStreamMap exStreams7) nid = 0 ∧
      (∃ b l bid : Nat, b < l ∧
        ((buildExecutionPlan exG7 exStreams7 (fun _ _ => true)).steps 1)[b]? =
          some (Step.barrier bid) ∧
        (1, b) ∈
          (buildExecutionPlan exG7 exStreams7 (fun _ _ => true)).downstreamMap nid ∧
        ((buildExecutionPlan exG7 exStreams7 (fun _ _ => true)).steps 1)[l]? =
          some (Step.launchKernel exNodeB.nid) ∧
        (true = true →
          ((buildExecutionPlan exG7 exStreams7 (fun _ _ => true)).steps 1)[b + 1]? =
            some (Step.waitOnEP nid))) ∧
      (∃ lp a t : Nat, lp < a ∧ a < t ∧
        ((buildExecutionPlan exG7 exStreams7 (fun _ _ => true)).steps 0)[lp]? =
          some (Step.launchKernel exNodeA.nid) ∧
        ((buildExecutionPlan exG7 exStreams7 (fun _ _ => true)).steps 0)[a]? =
          some (Step.activateNotification nid) ∧
        ((buildExecutionPlan exG7 exStreams7 (fun _ _ => true)).steps 0)[t]? =
          some (Step.triggerDownstream nid))) :=
  ⟨by decide,
    buildExecutionPlan_sync_completeness exG7 exStreams7 (fun _ _ => true)
      exNodeA exNodeB 0 1 [0] [1] (by decide) (by rfl) (by rfl) (by rfl) (by rfl)
      (by decide) (by decide) (by decide) (by decide) (by decide)⟩

/-- One waiting-list entry of `OptimizeReusePlanForMultiStream`: the
downstream `NodeArg` (encoded by its resolved value index — `GetIdx` is
modelled as always succeeding on it) and the node whose `dependents_map`
entry the stored `std::set<NodeIndex>*` references. -/
structure WEntry : Type where
  arg : Nat
  pnode : Nat
deriving DecidableEq, Repr

/-- One ghost record per waiting-list reuse decision of
`TryReuseOutput` (line `allocation_plan[downstream_value].alloc_kind =
AllocKind::kReuse`): the downstream value `d`, the donor output `o`, the
node being processed (`o`'s producer), the node backing the entry's
dependents pointer (`d`'s producer), and snapshots of
`value_consumer_map_[o]` and `input_output_map[o]` at the decision. -/
structure ReuseLog : Type where
  d : Nat
  o : Nat
  onode : Nat
  pnode : Nat
  consumersO : List Nat
  inOutO : List Nat
deriving DecidableEq, Repr

/-- The mutable state of `OptimizeReusePlanForMultiStream`:
`allocation_plan` (kind/reused-buffer slices), `value_consumer_map_`,
`input_output_map`, `reused`, `waiting_list` (flattened to one
association list keyed (location, byte size) — the C++ two-level
`std::map` look-up fails exactly when the flattened key is absent),
`dependents_map`, and the ghost decision log. -/
structure MSState : Type where
  plan : Nat → AllocEntry
  consumers : Nat → List Nat
  inOutMap : Nat → List Nat
  reused : List Nat
  waiting : List ((Nat × Nat) × List WEntry)
  dependentsMap : Nat → List Nat
  log : List ReuseLog

/-- `std::set`/`std::unordered_set` insertion on a duplicate-free list. -/
def insertUniq (l : List Nat) (x : Nat) : List Nat :=
  if x ∈ l then l else l ++ [x]

/-- Range insertion `set.insert(other.begin(), other.end())`. -/
def unionUniq (l l2 : List Nat) : List Nat :=
  l2.foldl insertUniq l

/-- The immediate intra-stream predecessor edges step 5 of
`BuildExecutionPlan` inserts into `dependence_graph_`:
`dependence_graph_[stream_nodes_[i][j]] ∋ stream_nodes_[i][j-1]`. -/
def predsIn : List Nat → Nat → List Nat
  | [], _ => []
  | [_], _ => []
  | a :: b :: rest, c => (if b = c then [a] else []) ++ predsIn (b :: rest) c

def intraPreds (streams : List (List Nat)) (c : Nat) : List Nat :=
  streams.foldl (fun acc sl => acc ++ predsIn sl c) []

/-- The model-graph edges the same loop inserts: for every node `p` and
every output neighbour `c`, `dependence_graph_[c] ∋ p.nid`. -/
def modelPreds (g : PGraph) (c : Nat) : List Nat :=
  (g.nodes.filter (fun p => c ∈ p.outputNodes)).map PNode.nid

/-- `dependence_graph_[c]`: the upstream adjacency the optimizer walks
(model edges plus intra-stream predecessor edges). -/
def depAdjL (g : PGraph) (streams : List (List Nat)) (c : Nat) : List Nat :=
  intraPreds streams c ++ modelPreds g c

/-- The `fetch_all_dependents` DFS with explicit fuel: insert `curr` if
unseen, then recurse into `dependence_graph_[curr]`. -/
def dfsCollect (adj : Nat → List Nat) : Nat → List Nat → Nat → List Nat
  | 0, acc, _ => acc
  | fuel + 1, acc, curr =>
    if curr ∈ acc then acc
    else (adj curr).foldl (dfsCollect adj fuel) (acc ++ [curr])

/-- Enough fuel for the DFS to terminate only by exhausting fresh nodes. -/
def dfsFuel (g : PGraph) (streams : List (List Nat)) : Nat :=
  streams.flatten.length + g.nodes.length + 2

/-- Flattened `waiting_list` bucket look-up. -/
def wlookup (w : List ((Nat × Nat) × List WEntry)) (key : Nat × Nat) :
    Option (List WEntry) :=
  (w.find? (fun pr => pr.1 = key)).map (fun pr => pr.2)

/-- Assign a bucket at a key (`std::map::operator[]` write). -/
def wset (w : List ((Nat × Nat) × List WEntry)) (key : Nat × Nat)
    (bucket : List WEntry) : List ((Nat × Nat) × List WEntry) :=
  match w with
  | [] => [(key, bucket)]
  | pr :: rest => if pr.1 = key then (key, bucket) :: rest else pr :: wset rest key bucket

/-- Erase a key (`std::map::erase` of an emptied size bucket). -/
def wremove (w : List ((Nat × Nat) × List WEntry)) (key : Nat × Nat) :
    List ((Nat × Nat) × List WEntry) :=
  w.filter (fun pr => pr.1 ≠ key)

/-- Insert-or-assign within a bucket, keyed by the downstream arg
(`waiting_list[location][size][node_output] = &dependents_map[...]`). -/
def bset (bucket : List WEntry) (e : WEntry) : List WEntry :=
  match bucket with
  | [] => [e]
  | e2 :: rest => if e2.arg = e.arg then e :: rest else e2 :: bset rest e

def winsert (w : List ((Nat × Nat) × List WEntry)) (key : Nat × Nat)
    (e : WEntry) : List ((Nat × Nat) × List WEntry) :=
  wset w key (bset ((wlookup w key).getD []) e)

/-- The alias-map loop of `TryReuseInput`: first pair whose
`(size_t)pair.second` equals the output slot, with an in-range existing
input whose plan entry is still `kAllocate`. -/
def trAlias (st : MSState) (n : PNode) (k : Nat) : Option Nat :=
  n.aliasMap.findSome? fun p =>
    if p.2.emod (2 ^ 64) = (k : Int) then
      match argAt n.inputs p.1 with
      | some ri => if (st.plan ri).kind = AllocKind.allocate then some ri else none
      | none => none
    else none

/-- The variadic-alias clause of `TryReuseInput`: `size_t` arithmetic
`output_arg_num - output_offset + input_offset` wraps modulo `2^64`. -/
def trVariadic (st : MSState) (n : PNode) (k : Nat) : Option Nat :=
  match n.variadicAlias with
  | none => none
  | some io =>
    if (((k : Int) - io.2 + io.1).emod (2 ^ 64)).toNat < n.inputs.length then
      match n.inputs.getD (((k : Int) - io.2 + io.1).emod (2 ^ 64)).toNat none with
      | some ri => if (st.plan ri).kind = AllocKind.allocate then some ri else none
      | none => none
    else none

/-- Record a reuse of input root `ri` by output `o` in `TryReuseInput`:
plan rewrite, consumer union and `reused` insertion. -/
def trDoReuse (st : MSState) (o ri : Nat) : MSState :=
  { st with
    plan := upd st.plan o ⟨AllocKind.reuse, ri⟩
    consumers := upd st.consumers ri (unionUniq (st.consumers ri) (st.consumers o))
    reused := insertUniq st.reused ri }

/-- One pair of the may-inplace loop of `TryReuseInput` (the loop does
not break after a success). -/
def trInplaceStep (g : PGraph) (n : PNode) (k : Nat) (o : Nat) (st : MSState)
    (p : Int × Int) : MSState :=
  if p.2.emod (2 ^ 64) = (k : Int) then
    match argAt n.inputs p.1 with
    | some ri =>
      if (st.plan ri).kind = AllocKind.allocate then
        if (st.consumers ri).length = 1 ∧ sameSizeVals g ri o = true then
          trDoReuse st o ri
        else st
      else st
    | none => st
  else st

/-- One output slot of `TryReuseInput`: skip missing outputs and outputs
not planned `kAllocate`; record the input→output pairs; then alias map,
variadic alias and may-inplace in order.  (`kernel_create_info_map` /
`kernel_def` are modelled as always present — the alias data lives on
`PNode`.) -/
def tryReuseInputChain (g : PGraph) (n : PNode) (k o : Nat) (st1 : MSState) :
    MSState :=
  match trAlias st1 n k with
  | some ri => trDoReuse st1 o ri
  | none =>
    match trVariadic st1 n k with
    | some ri => trDoReuse st1 o ri
    | none => n.mayInplace.foldl (trInplaceStep g n k o) st1

def tryReuseInputV (g : PGraph) (n : PNode) (st : MSState) (k : Nat) : MSState :=
  match listGetOpt n.outputs k with
  | none => st
  | some o =>
    if (st.plan o).kind = AllocKind.allocate then
      tryReuseInputChain g n k o
        { st with inOutMap :=
            ((occVals n.inputs).foldl (fun m i => upd m i (insertUniq (m i) o))
              st.inOutMap) }
    else st

/-- `TryReuseInput` over all output slots of the node. -/
def tryReuseInput (g : PGraph) (nidx : Nat) (st : MSState) : MSState :=
  match findNode g nidx with
  | none => st
  | some n => (List.range n.outputs.length).foldl (tryReuseInputV g n) st

/-- The waiting-list scan of `TryReuseOutput`: the first entry that is
not an input→output pair of `o`, has the same size, whose dependents
contain the processing node, and whose dependents cover every consumer
of `o`; returns it with the remaining bucket. -/
def wscan (st : MSState) (g : PGraph) (o nnid : Nat) :
    List WEntry → Option (WEntry × List WEntry)
  | [] => none
  | e :: rest =>
    if e.arg ∈ st.inOutMap o ∨ sameSizeVals g e.arg o = false ∨
        nnid ∉ st.dependentsMap e.pnode ∨
        ¬ (∀ c ∈ st.consumers o, c ∈ st.dependentsMap e.pnode) then
      (wscan st g o nnid rest).map (fun pr => (pr.1, e :: pr.2))
    else some (e, rest)

/-- One existing output `o` of `TryReuseOutput`: skip if already reused
or not planned `kAllocate` or of unknown shape; otherwise either take
the first acceptable waiting entry (rewriting its plan to `Reuse(o)`,
merging consumers, erasing the entry and marking `o` reused — and
appending the ghost log record) or join the waiting list. -/
def tryReuseOutputBody (g : PGraph) (bsz : Shape → Nat) (vnm : Nat → Nat)
    (n : PNode) (st : MSState) (o : Nat) (so : Shape) : MSState :=
  match wlookup st.waiting (g.location o, bsz so) with
  | none =>
    { st with waiting := winsert st.waiting (g.location o, bsz so) ⟨o, n.nid⟩ }
  | some bucket =>
    match wscan st g o n.nid bucket with
    | some (e, rest) =>
      { st with
        plan := upd st.plan e.arg ⟨AllocKind.reuse, o⟩
        consumers := upd st.consumers o
          (unionUniq (insertUniq (st.consumers o) (vnm e.arg))
            (st.consumers e.arg))
        waiting :=
          if rest.isEmpty then wremove st.waiting (g.location o, bsz so)
          else wset st.waiting (g.location o, bsz so) rest
        reused := insertUniq st.reused o
        log := st.log ++
          [⟨e.arg, o, n.nid, e.pnode, st.consumers o, st.inOutMap o⟩] }
    | none =>
      { st with waiting := winsert st.waiting (g.location o, bsz so) ⟨o, n.nid⟩ }

def tryReuseOutputV (g : PGraph) (bsz : Shape → Nat) (vnm : Nat → Nat)
    (n : PNode) (st : MSState) (o : Nat) : MSState :=
  if o ∈ st.reused ∨ (st.plan o).kind ≠ AllocKind.allocate then st
  else
    match g.shape o with
    | none => st
    | some so => tryReuseOutputBody g bsz vnm n st o so

/-- `TryReuseOutput`: store the node's dependents-closure, then process
every existing output. -/
def tryReuseOutput (g : PGraph) (streams : List (List Nat)) (bsz : Shape → Nat)
    (vnm : Nat → Nat) (nidx : Nat) (st : MSState) : MSState :=
  let st1 : MSState :=
    { st with dependentsMap :=
        (upd st.dependentsMap nidx
          (dfsCollect (depAdjL g streams) (dfsFuel g streams) [] nidx)) }
  match findNode g nidx with
  | none => st1
  | some n => (occVals n.outputs).foldl (tryReuseOutputV g bsz vnm n) st1

/-- The candidate key set of `dependence_graph_` (nodes with at least one
recorded upstream).  The C++ map's keys are exactly the downstream sides
of the inserted edges; under a well-formed partition those are the node
ids below. -/
def depKeys (g : PGraph) (streams : List (List Nat)) : List Nat :=
  ((streams.flatten ++ g.nodes.map PNode.nid).dedup).filter
    (fun c => ¬(depAdjL g streams c).isEmpty)

/-- The initial in-traversal counts: `dependents[u]` = number of
downstream keys listing `u` as an upstream. -/
def dependents0 (g : PGraph) (streams : List (List Nat)) (x : Nat) : Int :=
  ((depKeys g streams).filter (fun c => x ∈ depAdjL g streams c)).length

/-- The initially enqueued nodes: keys with no downstream dependents
(the sinks of the model — the traversal walks upstream). -/
def que0 (g : PGraph) (streams : List (List Nat)) : List Nat :=
  (depKeys g streams).filter (fun c => dependents0 g streams c = 0)

/-- The `while (!que.empty())` Kahn loop: `TryReuseInput` then
`TryReuseOutput` on the front node, then decrement every upstream
neighbour's count, enqueueing those that reach zero. -/
def msLoop (g : PGraph) (streams : List (List Nat)) (bsz : Shape → Nat)
    (vnm : Nat → Nat) : Nat → List Nat → (Nat → Int) → MSState → MSState
  | 0, _, _, st => st
  | fuel + 1, que, deps, st =>
    match que with
    | [] => st
    | nidx :: rest =>
      msLoop g streams bsz vnm fuel
        (rest ++ (((depAdjL g streams nidx).dedup.foldl
          (fun pr nxt =>
            (upd pr.1 nxt (pr.1 nxt - 1),
              if pr.1 nxt - 1 = 0 then pr.2 ++ [nxt] else pr.2))
          (deps, ([] : List Nat))).2))
        (((depAdjL g streams nidx).dedup.foldl
          (fun pr nxt =>
            (upd pr.1 nxt (pr.1 nxt - 1),
              if pr.1 nxt - 1 = 0 then pr.2 ++ [nxt] else pr.2))
          (deps, ([] : List Nat))).1)
        (tryReuseOutput g streams bsz vnm nidx (tryReuseInput g nidx st))

/-- Enough fuel for the Kahn loop: initial queue plus every possible
enqueue-by-decrement. -/
def msFuel (g : PGraph) (streams : List (List Nat)) : Nat :=
  (que0 g streams).length +
    ((depKeys g streams).map (fun c => (depAdjL g streams c).length)).sum + 1

/-- `PlannerImpl::OptimizeReusePlanForMultiStream`, with the
pre-existing `allocation_plan` kinds and `value_consumer_map_` as inputs
(`plan0`, `consumers0`), `value_node_map_` as `vnm`, and the
`TensorShapeProto::ByteSizeLong` grouping key abstracted to `bsz`
(modelled from the spec: an arbitrary function of the shape — protobuf
code is outside this repository). -/
def optimizeReusePlanForMultiStream (g : PGraph) (streams : List (List Nat))
    (bsz : Shape → Nat) (vnm : Nat → Nat) (plan0 : Nat → AllocEntry)
    (consumers0 : Nat → List Nat) : MSState :=
  msLoop g streams bsz vnm (msFuel g streams) (que0 g streams)
    (dependents0 g streams)
    ⟨plan0, consumers0, fun _ => [], [], [], fun _ => [], []⟩

/-- Well-formedness of a waiting-list entry under its (location, size)
key: the entry's arg is an output of the recorded node, lives at the
key's location, and its known shape has the key's byte size. -/
def EntryWF (g : PGraph) (bsz : Shape → Nat) (key : Nat × Nat) (e : WEntry) : Prop :=
  (∃ nd, findNode g e.pnode = some nd ∧ ∃ k2, listGetOpt nd.outputs k2 = some e.arg) ∧
  g.location e.arg = key.1 ∧
  (∃ sh, g.shape e.arg = some sh ∧ bsz sh = key.2)

/-- The C1 conditions of one waiting-list reuse decision `d → Reuse(o)`:
`d` and `o` are outputs of the recorded nodes, `o`'s producer and every
recorded consumer of `o` are transitive predecessors (upstream closure of
the combined dependence graph) of `d`'s producer, `d` is not one of `o`'s
recorded input→output partners, and the two values share location and
byte size and pass `SameSize`. -/
def C1Cond (g : PGraph) (streams : List (List Nat)) (bsz : Shape → Nat)
    (e : ReuseLog) : Prop :=
  (∃ nd, findNode g e.pnode = some nd ∧ ∃ k2, listGetOpt nd.outputs k2 = some e.d) ∧
  (∃ no, findNode g e.onode = some no ∧ ∃ k2, listGetOpt no.outputs k2 = some e.o) ∧
  Relation.ReflTransGen (fun a b => b ∈ depAdjL g streams a) e.pnode e.onode ∧
  (∀ c ∈ e.consumersO,
    Relation.ReflTransGen (fun a b => b ∈ depAdjL g streams a) e.pnode c) ∧
  e.d ∉ e.inOutO ∧
  g.location e.o = g.location e.d ∧
  (∃ so sd, g.shape e.o = some so ∧ g.shape e.d = some sd ∧ bsz so = bsz sd ∧
    sameSizeShapes sd (g.meta e.d) so (g.meta e.o) = true)

/-- The optimizer invariant: waiting entries are well-formed under their
keys, `dependents_map` is sound for upstream reachability, and every
logged decision satisfies the C1 conditions. -/
def MSInv (g : PGraph) (streams : List (List Nat)) (bsz : Shape → Nat)
    (st : MSState) : Prop :=
  (∀ pr ∈ st.waiting, ∀ e ∈ pr.2, EntryWF g bsz pr.1 e) ∧
  (∀ nidx x, x ∈ st.dependentsMap nidx →
    Relation.ReflTransGen (fun a b => b ∈ depAdjL g streams a) nidx x) ∧
  (∀ e ∈ st.log, C1Cond g streams bsz e)

/-- `TryReuseInput` never touches the waiting list, the dependents map
or the decision log. -/
def SameWDL (st st2 : MSState) : Prop :=
  st2.waiting = st.waiting ∧ st2.dependentsMap = st.dependentsMap ∧ st2.log = st.log

theorem sameWDL_refl (st : MSState) : SameWDL st st := ⟨rfl, rfl, rfl⟩

theorem sameWDL_inv (g : PGraph) (streams : List (List Nat)) (bsz : Shape → Nat)
    (st st2 : MSState) (hs : SameWDL st st2) (h : MSInv g streams bsz st) :
    MSInv g streams bsz st2 := by
  obtain ⟨h1, h2, h3⟩ := hs
  refine ⟨?_, ?_, ?_⟩
  · rw [h1]; exact h.1
  · rw [h2]; exact h.2.1
  · rw [h3]; exact h.2.2

theorem dfsCollect_sound (adj : Nat → List Nat) (root : Nat) :
    ∀ fuel acc curr,
      (∀ x ∈ acc, Relation.ReflTransGen (fun a b => b ∈ adj a) root x) →
      Relation.ReflTransGen (fun a b => b ∈ adj a) root curr →
      ∀ x ∈ dfsCollect adj fuel acc curr,
        Relation.ReflTransGen (fun a b => b ∈ adj a) root x := by
  intro fuel
  induction fuel with
  | zero =>
    intro acc curr hacc _ x hx
    exact hacc x hx
  | succ fuel ih =>
    intro acc curr hacc hcurr x hx
    simp only [dfsCollect] at hx
    by_cases hc : curr ∈ acc
    · rw [if_pos hc] at hx
      exact hacc x hx
    · rw [if_neg hc] at hx
      refine foldl_preserves (adj curr) (dfsCollect adj fuel)
        (fun acc2 : List Nat => ∀ y ∈ acc2,
          Relation.ReflTransGen (fun a b => b ∈ adj a) root y)
        (acc ++ [curr]) ?_ ?_ x hx
      · intro y hy
        rcases List.mem_append.mp hy with h | h
        · exact hacc y h
        · rw [List.mem_singleton] at h
          exact h ▸ hcurr
      · intro acc2 nxt hnxt hq
        exact ih acc2 nxt hq (Relation.ReflTransGen.tail hcurr hnxt)

theorem sameSizeVals_shapes (g : PGraph) (a b : Nat)
    (h : sameSizeVals g a b = true) :
    ∃ sa sb, g.shape a = some sa ∧ g.shape b = some sb ∧
      sameSizeShapes sa (g.meta a) sb (g.meta b) = true := by
  unfold sameSizeVals at h
  cases ha : g.shape a with
  | none =>
    simp only [ha] at h
    exact Bool.noConfusion h
  | some sa =>
    cases hb : g.shape b with
    | none => simp only [ha, hb] at h; exact Bool.noConfusion h
    | some sb =>
      simp only [ha, hb] at h
      exact ⟨sa, sb, rfl, rfl, h⟩

theorem occVals_slot (l : List (Option Nat)) (x : Nat) (hx : x ∈ occVals l) :
    ∃ k, listGetOpt l k = some x := by
  unfold occVals at hx
  obtain ⟨a, ha, hax⟩ := List.mem_filterMap.mp hx
  obtain ⟨k, hk⟩ := List.mem_iff_getElem?.mp ha
  refine ⟨k, ?_⟩
  unfold listGetOpt
  rw [List.getD_eq_getElem?_getD, hk]
  exact hax

theorem findNode_self (g : PGraph) (nidx : Nat) (n : PNode)
    (h : findNode g nidx = some n) : findNode g n.nid = some n := by
  have hn : n.nid = nidx := by simpa using List.find?_some h
  rw [hn]
  exact h

theorem wlookup_mem (w : List ((Nat × Nat) × List WEntry)) (key : Nat × Nat)
    (bucket : List WEntry) (h : wlookup w key = some bucket) : (key, bucket) ∈ w := by
  unfold wlookup at h
  cases hf : w.find? (fun pr => pr.1 = key) with
  | none => rw [hf] at h; cases h
  | some pr =>
    rw [hf] at h
    simp only [Option.map_some', Option.some.injEq] at h
    have h1 : pr.1 = key := by simpa using List.find?_some hf
    have hm := List.mem_of_find?_eq_some hf
    have hpr : pr = (key, bucket) := Prod.ext h1 h
    rw [← hpr]
    exact hm

theorem bset_mem (bucket : List WEntry) (e x : WEntry) (hx : x ∈ bset bucket e) :
    x = e ∨ x ∈ bucket := by
  induction bucket with
  | nil =>
    simp only [bset, List.mem_singleton] at hx
    exact Or.inl hx
  | cons e2 rest ih =>
    simp only [bset] at hx
    by_cases h2 : e2.arg = e.arg
    · rw [if_pos h2] at hx
      rcases List.mem_cons.mp hx with h | h
      · exact Or.inl h
      · exact Or.inr (List.mem_cons_of_mem _ h)
    · rw [if_neg h2] at hx
      rcases List.mem_cons.mp hx with h | h
      · exact Or.inr (h ▸ List.mem_cons_self _ _)
      · rcases ih h with h3 | h3
        · exact Or.inl h3
        · exact Or.inr (List.mem_cons_of_mem _ h3)

theorem wset_mem (w : List ((Nat × Nat) × List WEntry)) (key : Nat × Nat)
    (bucket : List WEntry) (pr : (Nat × Nat) × List WEntry)
    (hpr : pr ∈ wset w key bucket) : pr = (key, bucket) ∨ pr ∈ w := by
  induction w with
  | nil =>
    simp only [wset, List.mem_singleton] at hpr
    exact Or.inl hpr
  | cons pr2 rest ih =>
    simp only [wset] at hpr
    by_cases h2 : pr2.1 = key
    · rw [if_pos h2] at hpr
      rcases List.mem_cons.mp hpr with h | h
      · exact Or.inl h
      · exact Or.inr (List.mem_cons_of_mem _ h)
    · rw [if_neg h2] at hpr
      rcases List.mem_cons.mp hpr with h | h
      · exact Or.inr (h ▸ List.mem_cons_self _ _)
      · rcases ih h with h3 | h3
        · exact Or.inl h3
        · exact Or.inr (List.mem_cons_of_mem _ h3)

theorem wscan_sound (st : MSState) (g : PGraph) (o nnid : Nat) :
    ∀ bucket e rest, wscan st g o nnid bucket = some (e, rest) →
      e ∈ bucket ∧ (∀ e2 ∈ rest, e2 ∈ bucket) ∧
      e.arg ∉ st.inOutMap o ∧ sameSizeVals g e.arg o = true ∧
      nnid ∈ st.dependentsMap e.pnode ∧
      (∀ c ∈ st.consumers o, c ∈ st.dependentsMap e.pnode) := by
  intro bucket
  induction bucket with
  | nil =>
    intro e rest h
    simp only [wscan] at h
    cases h
  | cons e1 tl ih =>
    intro e rest h
    simp only [wscan] at h
    by_cases hc : e1.arg ∈ st.inOutMap o ∨ sameSizeVals g e1.arg o = false ∨
        nnid ∉ st.dependentsMap e1.pnode ∨
        ¬ (∀ c ∈ st.consumers o, c ∈ st.dependentsMap e1.pnode)
    · rw [if_pos hc] at h
      cases hs : wscan st g o nnid tl with
      | none => rw [hs] at h; cases h
      | some pr =>
        obtain ⟨pr1, pr2⟩ := pr
        rw [hs] at h
        simp only [Option.map_some', Option.some.injEq, Prod.mk.injEq] at h
        obtain ⟨he, hr⟩ := h
        obtain ⟨h1, h2, h3, h4, h5, h6⟩ := ih pr1 pr2 hs
        subst he
        refine ⟨List.mem_cons_of_mem _ h1, ?_, h3, h4, h5, h6⟩
        intro e2 he2
        rw [← hr] at he2
        rcases List.mem_cons.mp he2 with h | h
        · exact h ▸ List.mem_cons_self _ _
        · exact List.mem_cons_of_mem _ (h2 e2 h)
    · rw [if_neg hc] at h
      simp only [Option.some.injEq, Prod.mk.injEq] at h
      obtain ⟨he, hr⟩ := h
      push_neg at hc
      obtain ⟨hc1, hc2, hc3, hc4⟩ := hc
      have hc2' : sameSizeVals g e1.arg o = true := by
        revert hc2
        cases sameSizeVals g e1.arg o <;> simp
      subst he
      subst hr
      exact ⟨List.mem_cons_self _ _, fun e2 he2 => List.mem_cons_of_mem _ he2,
        hc1, hc2', hc3, hc4⟩

theorem trDoReuse_sameWDL (st : MSState) (o ri : Nat) :
    SameWDL st (trDoReuse st o ri) := ⟨rfl, rfl, rfl⟩

theorem sameWDL_trans {a b c : MSState} (h1 : SameWDL a b) (h2 : SameWDL b c) :
    SameWDL a c :=
  ⟨h2.1.trans h1.1, h2.2.1.trans h1.2.1, h2.2.2.trans h1.2.2⟩

theorem trInplaceStep_sameWDL (g : PGraph) (n : PNode) (k o : Nat) (st : MSState)
    (p : Int × Int) : SameWDL st (trInplaceStep g n k o st p) := by
  unfold trInplaceStep
  by_cases h1 : p.2.emod (2 ^ 64) = (k : Int)
  · rw [if_pos h1]
    cases ha : argAt n.inputs p.1 with
    | none => exact sameWDL_refl st
    | some ri =>
      show SameWDL st (if (st.plan ri).kind = AllocKind.allocate then
        (if (st.consumers ri).length = 1 ∧ sameSizeVals g ri o = true then
          trDoReuse st o ri else st) else st)
      by_cases h2 : (st.plan ri).kind = AllocKind.allocate
      · rw [if_pos h2]
        by_cases h3 : (st.consumers ri).length = 1 ∧ sameSizeVals g ri o = true
        · rw [if_pos h3]
          exact trDoReuse_sameWDL st o ri
        · rw [if_neg h3]
          exact sameWDL_refl st
      · rw [if_neg h2]
        exact sameWDL_refl st
  · rw [if_neg h1]
    exact sameWDL_refl st

theorem tryReuseInputChain_sameWDL (g : PGraph) (n : PNode) (k o : Nat)
    (st1 : MSState) : SameWDL st1 (tryReuseInputChain g n k o st1) := by
  cases ha : trAlias st1 n k with
  | some ri =>
    simp only [tryReuseInputChain, ha]
    exact trDoReuse_sameWDL st1 o ri
  | none =>
    cases hv : trVariadic st1 n k with
    | some ri =>
      simp only [tryReuseInputChain, ha, hv]
      exact trDoReuse_sameWDL st1 o ri
    | none =>
      simp only [tryReuseInputChain, ha, hv]
      refine foldl_preserves n.mayInplace _ (SameWDL st1) st1 (sameWDL_refl st1) ?_
      intro st2 p _ hq
      exact sameWDL_trans hq (trInplaceStep_sameWDL g n k o st2 p)

theorem tryReuseInputV_sameWDL (g : PGraph) (n : PNode) (st : MSState) (k : Nat) :
    SameWDL st (tryReuseInputV g n st k) := by
  cases ho : listGetOpt n.outputs k with
  | none =>
    simp only [tryReuseInputV, ho]
    exact sameWDL_refl st
  | some o =>
    simp only [tryReuseInputV, ho]
    by_cases h1 : (st.plan o).kind = AllocKind.allocate
    · rw [if_pos h1]
      exact sameWDL_trans (⟨rfl, rfl, rfl⟩ : SameWDL st _)
        (tryReuseInputChain_sameWDL g n k o _)
    · rw [if_neg h1]
      exact sameWDL_refl st

theorem tryReuseInput_sameWDL (g : PGraph) (nidx : Nat) (st : MSState) :
    SameWDL st (tryReuseInput g nidx st) := by
  unfold tryReuseInput
  cases hf : findNode g nidx with
  | none => exact sameWDL_refl st
  | some n =>
    refine foldl_preserves (List.range n.outputs.length) _ (SameWDL st) st
      (sameWDL_refl st) ?_
    intro st2 k _ hq
    exact sameWDL_trans hq (tryReuseInputV_sameWDL g n st2 k)

theorem winsert_wf (g : PGraph) (bsz : Shape → Nat)
    (w : List ((Nat × Nat) × List WEntry)) (key : Nat × Nat) (enew : WEntry)
    (hw : ∀ pr ∈ w, ∀ e ∈ pr.2, EntryWF g bsz pr.1 e)
    (hnew : EntryWF g bsz key enew) :
    ∀ pr ∈ winsert w key enew, ∀ e ∈ pr.2, EntryWF g bsz pr.1 e := by
  intro pr hpr e he
  rcases wset_mem _ _ _ _ hpr with h | h
  · subst h
    rcases bset_mem _ _ _ he with h2 | h2
    · subst h2
      exact hnew
    · cases hlk : wlookup w key with
      | none =>
        rw [hlk] at h2
        cases h2
      | some bucket =>
        rw [hlk] at h2
        exact hw _ (wlookup_mem w key bucket hlk) e h2
  · exact hw pr h e he

theorem tryReuseOutputBody_inv (g : PGraph) (streams : List (List Nat))
    (bsz : Shape → Nat) (vnm : Nat → Nat) (n : PNode) (st : MSState) (o : Nat)
    (so : Shape)
    (hn : findNode g n.nid = some n)
    (hslot : ∃ k2, listGetOpt n.outputs k2 = some o)
    (hsh : g.shape o = some so)
    (hinv : MSInv g streams bsz st) :
    MSInv g streams bsz (tryReuseOutputBody g bsz vnm n st o so) := by
  obtain ⟨hw, hd, hl⟩ := hinv
  have hewf : EntryWF g bsz (g.location o, bsz so) ⟨o, n.nid⟩ :=
    ⟨⟨n, hn, hslot⟩, rfl, ⟨so, hsh, rfl⟩⟩
  cases hlk : wlookup st.waiting (g.location o, bsz so) with
  | none =>
    simp only [tryReuseOutputBody, hlk]
    exact ⟨winsert_wf g bsz st.waiting _ _ hw hewf, hd, hl⟩
  | some bucket =>
    cases hsc : wscan st g o n.nid bucket with
    | none =>
      simp only [tryReuseOutputBody, hlk, hsc]
      exact ⟨winsert_wf g bsz st.waiting _ _ hw hewf, hd, hl⟩
    | some pr0 =>
      obtain ⟨e0, rest⟩ := pr0
      simp only [tryReuseOutputBody, hlk, hsc]
      obtain ⟨hmem, hrest, hio, hsz, hnn, hcons⟩ :=
        wscan_sound st g o n.nid bucket e0 rest hsc
      have he0wf : EntryWF g bsz (g.location o, bsz so) e0 :=
        hw _ (wlookup_mem st.waiting _ bucket hlk) e0 hmem
      refine ⟨?_, hd, ?_⟩
      · intro pr hpr e he
        have hpr2 : pr ∈ (if rest.isEmpty then
            wremove st.waiting (g.location o, bsz so)
          else wset st.waiting (g.location o, bsz so) rest) := hpr
        by_cases hre : rest.isEmpty
        · rw [if_pos hre] at hpr2
          exact hw pr (List.mem_of_mem_filter hpr2) e he
        · rw [if_neg hre] at hpr2
          rcases wset_mem _ _ _ _ hpr2 with h | h
          · subst h
            exact hw _ (wlookup_mem st.waiting _ bucket hlk) e (hrest e he)
          · exact hw pr h e he
      · intro e2 he2
        have he3 : e2 ∈ st.log ++
            [⟨e0.arg, o, n.nid, e0.pnode, st.consumers o, st.inOutMap o⟩] := he2
        rcases List.mem_append.mp he3 with h | h
        · exact hl e2 h
        · rw [List.mem_singleton] at h
          subst h
          obtain ⟨hprod, hloc, ⟨shd, hshd, hbszd⟩⟩ := he0wf
          obtain ⟨sa, sb, hsa, hsb, hss⟩ := sameSizeVals_shapes g e0.arg o hsz
          refine ⟨hprod, ⟨n, hn, hslot⟩, hd e0.pnode n.nid hnn,
            fun c hc => hd e0.pnode c (hcons c hc), hio, hloc.symm, ?_⟩
          refine ⟨so, shd, hsh, hshd, hbszd.symm, ?_⟩
          have hsbso : sb = so := by
            rw [hsh] at hsb
            exact (Option.some.inj hsb).symm
          have hsashd : sa = shd := by
            rw [hshd] at hsa
            exact (Option.some.inj hsa).symm
          rw [← hsbso, ← hsashd]
          exact hss

theorem tryReuseOutputV_inv (g : PGraph) (streams : List (List Nat))
    (bsz : Shape → Nat) (vnm : Nat → Nat) (n : PNode) (st : MSState) (o : Nat)
    (hn : findNode g n.nid = some n)
    (hslot : ∃ k2, listGetOpt n.outputs k2 = some o)
    (hinv : MSInv g streams bsz st) :
    MSInv g streams bsz (tryReuseOutputV g bsz vnm n st o) := by
  unfold tryReuseOutputV
  by_cases h1 : o ∈ st.reused ∨ (st.plan o).kind ≠ AllocKind.allocate
  · rw [if_pos h1]
    exact hinv
  · rw [if_neg h1]
    cases hsh : g.shape o with
    | none => exact hinv
    | some so =>
      show MSInv g streams bsz (tryReuseOutputBody g bsz vnm n st o so)
      exact tryReuseOutputBody_inv g streams bsz vnm n st o so hn hslot hsh hinv

theorem tryReuseOutput_inv (g : PGraph) (streams : List (List Nat))
    (bsz : Shape → Nat) (vnm : Nat → Nat) (nidx : Nat) (st : MSState)
    (hinv : MSInv g streams bsz st) :
    MSInv g streams bsz (tryReuseOutput g streams bsz vnm nidx st) := by
  have hinv1 : MSInv g streams bsz
      { st with dependentsMap :=
          (upd st.dependentsMap nidx
            (dfsCollect (depAdjL g streams) (dfsFuel g streams) [] nidx)) } := by
    refine ⟨hinv.1, ?_, hinv.2.2⟩
    intro nj x hx
    have hx2 : x ∈ upd st.dependentsMap nidx
        (dfsCollect (depAdjL g streams) (dfsFuel g streams) [] nidx) nj := hx
    by_cases hj : nj = nidx
    · subst hj
      rw [upd_same] at hx2
      exact dfsCollect_sound (depAdjL g streams) nj (dfsFuel g streams) [] nj
        (fun y hy => absurd hy (List.not_mem_nil y)) Relation.ReflTransGen.refl x hx2
    · rw [upd_ne _ _ _ hj] at hx2
      exact hinv.2.1 nj x hx2
  cases hf : findNode g nidx with
  | none =>
    simp only [tryReuseOutput, hf]
    exact hinv1
  | some n =>
    simp only [tryReuseOutput, hf]
    refine foldl_preserves (occVals n.outputs) _ (MSInv g streams bsz) _ hinv1 ?_
    intro st2 o ho h2
    exact tryReuseOutputV_inv g streams bsz vnm n st2 o
      (findNode_self g nidx n hf) (occVals_slot _ _ ho) h2

theorem msLoop_inv (g : PGraph) (streams : List (List Nat)) (bsz : Shape → Nat)
    (vnm : Nat → Nat) :
    ∀ fuel que deps st, MSInv g streams bsz st →
      MSInv g streams bsz (msLoop g streams bsz vnm fuel que deps st) := by
  intro fuel
  induction fuel with
  | zero =>
    intro que deps st h
    exact h
  | succ fuel ih =>
    intro que deps st h
    cases que with
    | nil =>
      simp only [msLoop]
      exact h
    | cons nidx rest =>
      simp only [msLoop]
      refine ih _ _ _ ?_
      refine tryReuseOutput_inv g streams bsz vnm nidx _ ?_
      exact sameWDL_inv g streams bsz st _ (tryReuseInput_sameWDL g nidx st) h

/-- C1 (amended): for every reuse decision the multi-stream optimizer
makes through the waiting list — rewriting a downstream value `d` to
`Reuse(o)` — every consumer of the donor `o` that is recorded in
`value_consumer_map_[o]` at the decision is a transitive predecessor of
`d`'s producing node in the combined dependence graph (model edges plus
intra-stream predecessor edges), `o`'s producing node is in that
predecessor set, `d` is not a recorded input→output partner of `o`, and
`o` and `d` have the same location, the same byte size, and pass the
`SameSize` shape test.  The recorded-consumer qualification is essential:
nothing in this source populates `value_consumer_map_` from the graph
before the optimizer runs (its only writers are the optimizer's own
rewrites), so the all-consumers-covered loop ranges over at most the
consumers merged by earlier reuse rewrites, and a graph-level consumer of
`o` on another stream need not be a predecessor of `d`'s producer. -/
theorem optimizeReusePlan_waiting_reuse_safe (g : PGraph)
    (streams : List (List Nat)) (bsz : Shape → Nat) (vnm : Nat → Nat)
    (plan0 : Nat → AllocEntry) (consumers0 : Nat → List Nat) :
    ∀ e ∈ (optimizeReusePlanForMultiStream g streams bsz vnm plan0 consumers0).log,
      C1Cond g streams bsz e := by
  have h := msLoop_inv g streams bsz vnm (msFuel g streams) (que0 g streams)
    (dependents0 g streams)
    ⟨plan0, consumers0, fun _ => [], [], [], fun _ => [], []⟩
    ⟨fun pr hpr => absurd hpr (List.not_mem_nil pr),
      fun nidx x hx => absurd hx (List.not_mem_nil x),
      fun e he => absurd he (List.not_mem_nil e)⟩
  exact h.2.2

/-- Example 4-node chain A → B → C → D on a single stream; all values
share one location and one shape, so the optimizer's waiting list groups
them together. -/
def exMSNodeA : PNode :=
  ⟨0, [some 0], [], [some 1], [], none, [], false, "A", "CPU", [], [1]⟩

def exMSNodeB : PNode :=
  ⟨1, [some 1], [], [some 2], [], none, [], false, "B", "CPU", [0], [2]⟩

def exMSNodeC : PNode :=
  ⟨2, [some 2], [], [some 3], [], none, [], false, "C", "CPU", [1], [3]⟩

def exMSNodeD : PNode :=
  ⟨3, [some 3], [], [some 4], [], none, [], false, "D", "CPU", [2], []⟩

def exGms : PGraph :=
  ⟨[exMSNodeA, exMSNodeB, exMSNodeC, exMSNodeD], [0], [4], [], [],
    fun _ => some ⟨[DimV.val 4]⟩, fun _ => ⟨false, 4, true, false⟩,
    fun _ => 0, 5, none⟩

def exStreamsMs : List (List Nat) := [[0, 1, 2, 3]]

/-- The decision log of the optimizer on the example. -/
def exLogMs : List ReuseLog :=
  (optimizeReusePlanForMultiStream exGms exStreamsMs (fun _ => 0) (fun _ => 0)
    (fun _ => ⟨AllocKind.allocate, 0⟩) (fun _ => [])).log

/-- Witness: the first waiting-list decision on the example chain — value
4 (D's output) is rewritten to reuse value 2 (B's output) — satisfies the
C1 conditions, by the main theorem applied at that concrete log entry. -/
theorem optimizeReusePlan_waiting_reuse_safe_witness :
    (⟨4, 2, 1, 3, [], [3]⟩ : ReuseLog) ∈ exLogMs ∧
    C1Cond exGms exStreamsMs (fun _ => 0) ⟨4, 2, 1, 3, [], [3]⟩ :=
  ⟨by decide,
    optimizeReusePlan_waiting_reuse_safe exGms exStreamsMs (fun _ => 0)
      (fun _ => 0) (fun _ => ⟨AllocKind.allocate, 0⟩) (fun _ => [])
      ⟨4, 2, 1, 3, [], [3]⟩ (by decide)⟩

/-- The never-decremented part of a value's use count: one each for
graph-input, outer-scope, initializer and graph-output membership
(`ComputeReuseCount`), plus the extra `+1` for outputs of kernels
declaring external outputs (counted 2 there but decremented once). -/
def pinCount (g : PGraph) (v : Nat) : Nat :=
  (if v ∈ g.graphInputs then 1 else 0) + (if v ∈ g.outerScopeArgs then 1 else 0) +
  (if v ∈ g.initializers then 1 else 0) + (if v ∈ g.graphOutputs then 1 else 0) +
  (if g.nodes.any (fun n => n.hasExternalOutputs && decide (v ∈ occVals n.outputs))
    then 1 else 0)

/-- Occurrences of `v` still to be decremented in the given node list. -/
def occMulti (ns : List PNode) (v : Nat) : Nat :=
  (ns.map (fun n => (nodeOccList n).count v)).sum

/-- All existing outputs of a node list, in order. -/
def outsOf (ns : List PNode) : List Nat :=
  (ns.map (fun n => occVals n.outputs)).flatten

/-- The invariant quantity: over one buffer class, the pinned counts plus
the still-pending occurrence counts. -/
def classSum (g : PGraph) (buf : Nat → Nat) (P : Nat → Nat) (r : Nat) : Int :=
  ((Finset.range g.numValues).filter (fun v => buf v = r)).sum
    (fun v => (pinCount g v : Int) + (P v : Int))

theorem classSum_nonneg (g : PGraph) (buf P : Nat → Nat) (r : Nat) :
    0 ≤ classSum g buf P r := by
  refine Finset.sum_nonneg ?_
  intro v _
  positivity

theorem classSum_ge_term (g : PGraph) (buf P : Nat → Nat) (r v : Nat)
    (hv : v < g.numValues) (hbv : buf v = r) :
    (pinCount g v : Int) + (P v : Int) ≤ classSum g buf P r := by
  unfold classSum
  refine @Finset.single_le_sum Nat Int _
    (fun x => (pinCount g x : Int) + (P x : Int))
    ((Finset.range g.numValues).filter (fun x => buf x = r))
    (fun i _ => by positivity) v ?_
  exact Finset.mem_filter.mpr ⟨Finset.mem_range.mpr hv, by simp [hbv]⟩

theorem classSum_singleton (g : PGraph) (buf P : Nat → Nat) (w : Nat)
    (hw : buf w = w) (hw2 : ∀ u, u ≠ w → buf u ≠ w) (hwN : w < g.numValues) :
    classSum g buf P w = (pinCount g w : Int) + (P w : Int) := by
  unfold classSum
  have hfil : (Finset.range g.numValues).filter (fun v => buf v = w) = {w} := by
    ext v
    simp only [Finset.mem_filter, Finset.mem_range, Finset.mem_singleton]
    constructor
    · intro ⟨_, hbv⟩
      by_contra hne
      exact hw2 v hne hbv
    · intro h
      subst h
      exact ⟨hwN, hw⟩
  rw [hfil, Finset.sum_singleton]

theorem classSum_merge (g : PGraph) (buf P : Nat → Nat) (r w : Nat)
    (hwr : w ≠ r) (hw : buf w = w) (hwN : w < g.numValues) :
    classSum g (upd buf w r) P r =
      classSum g buf P r + ((pinCount g w : Int) + (P w : Int)) := by
  unfold classSum
  have hfil : (Finset.range g.numValues).filter (fun v => upd buf w r v = r) =
      insert w ((Finset.range g.numValues).filter (fun v => buf v = r)) := by
    ext v
    simp only [Finset.mem_filter, Finset.mem_range, Finset.mem_insert]
    constructor
    · intro ⟨hvN, hbv⟩
      by_cases hvw : v = w
      · exact Or.inl hvw
      · rw [upd_ne _ _ _ hvw] at hbv
        exact Or.inr ⟨hvN, hbv⟩
    · intro h
      rcases h with h | ⟨hvN, hbv⟩
      · subst h
        exact ⟨hwN, upd_same _ _ _⟩
      · by_cases hvw : v = w
        · rw [hvw, hw] at hbv
          exact absurd hbv hwr
        · exact ⟨hvN, by rw [upd_ne _ _ _ hvw]; exact hbv⟩
  rw [hfil, Finset.sum_insert]
  · ring
  · simp only [Finset.mem_filter, Finset.mem_range, not_and]
    intro _
    rw [hw]
    omega

theorem classSum_merge_other (g : PGraph) (buf P : Nat → Nat) (r w r2 : Nat)
    (hr2r : r2 ≠ r) (hr2w : r2 ≠ w) (hw : buf w = w) :
    classSum g (upd buf w r) P r2 = classSum g buf P r2 := by
  unfold classSum
  congr 1
  ext v
  simp only [Finset.mem_filter, Finset.mem_range]
  by_cases hvw : v = w
  · subst hvw
    rw [upd_same, hw]
    constructor
    · intro ⟨hvN, h⟩
      exact absurd h.symm hr2r
    · intro ⟨hvN, h⟩
      exact absurd h.symm hr2w
  · rw [upd_ne _ _ _ hvw]

theorem classSum_pdec_self (g : PGraph) (buf P : Nat → Nat) (r v : Nat)
    (hv : buf v = r) (hvN : v < g.numValues) (hP : 1 ≤ P v) :
    classSum g buf (upd P v (P v - 1)) r = classSum g buf P r - 1 := by
  unfold classSum
  have hmem : v ∈ (Finset.range g.numValues).filter (fun x => buf x = r) :=
    Finset.mem_filter.mpr ⟨Finset.mem_range.mpr hvN, by simp [hv]⟩
  rw [← Finset.sum_erase_add _ _ hmem, ← Finset.sum_erase_add _
    (fun x => (pinCount g x : Int) + (P x : Int)) hmem]
  have herase : ∀ x ∈ ((Finset.range g.numValues).filter
      (fun x => buf x = r)).erase v,
      (pinCount g x : Int) + ((upd P v (P v - 1)) x : Int) =
        (pinCount g x : Int) + (P x : Int) := by
    intro x hx
    have hxv : x ≠ v := (Finset.mem_erase.mp hx).1
    rw [upd_ne _ _ _ hxv]
  rw [Finset.sum_congr rfl herase, upd_same, Nat.cast_sub hP]
  push_cast
  ring

theorem classSum_pdec_other (g : PGraph) (buf P : Nat → Nat) (r2 v : Nat)
    (hv : buf v ≠ r2) :
    classSum g buf (upd P v (P v - 1)) r2 = classSum g buf P r2 := by
  unfold classSum
  refine Finset.sum_congr rfl ?_
  intro x hx
  have hbx : buf x = r2 := by
    have := Finset.mem_filter.mp hx
    simpa using this.2
  have hxv : x ≠ v := fun h => hv (h ▸ hbx)
  rw [upd_ne _ _ _ hxv]

/-- The core accounting invariant of the single-stream pass:
buffer roots stay in range and idempotent, every root's use count equals
its class's pins-plus-pending sum, every still-unplanned output (`U`) is
an untouched singleton class, and freelist members are in range and not
future outputs. -/
def CoreInv (g : PGraph) (s : PassState) (P : Nat → Nat) (U : List Nat) : Prop :=
  (∀ v, v < g.numValues → s.buffer v < g.numValues) ∧
  (∀ v, s.buffer (s.buffer v) = s.buffer v) ∧
  (∀ r, r < g.numValues → s.buffer r = r → s.count r = classSum g s.buffer P r) ∧
  (∀ v ∈ U, s.buffer v = v ∧ ∀ u, u ≠ v → s.buffer u ≠ v) ∧
  (∀ r ∈ s.freelist, r < g.numValues ∧ r ∉ U)

theorem doReuse_core (g : PGraph) (s : PassState) (P : Nat → Nat) (U U2 : List Nat)
    (u w : Nat) (kind : AllocKind)
    (hcore : CoreInv g s P U)
    (hwU : w ∈ U) (hwN : w < g.numValues) (huN : u < g.numValues) (huU : u ∉ U)
    (hsub : ∀ x ∈ U2, x ∈ U) (hwU2 : w ∉ U2) :
    CoreInv g (doReuse s u w kind) P U2 := by
  obtain ⟨hA, hB, hC, hD, hE⟩ := hcore
  have hrN : s.buffer u < g.numValues := hA u huN
  have hrr : s.buffer (s.buffer u) = s.buffer u := hB u
  have hrU : s.buffer u ∉ U := by
    intro hin
    obtain ⟨hb, h2⟩ := hD _ hin
    by_cases huw : u = s.buffer u
    · rw [← huw] at hin
      exact huU hin
    · exact h2 u huw rfl
  have hwr : w ≠ s.buffer u := fun h => hrU (h ▸ hwU)
  have hbw : s.buffer w = w := (hD w hwU).1
  have hw2 : ∀ x, x ≠ w → s.buffer x ≠ w := (hD w hwU).2
  have hbuf : (doReuse s u w kind).buffer = upd s.buffer w (s.buffer u) := rfl
  have hcnt : (doReuse s u w kind).count =
      upd s.count (s.buffer u) (s.count (s.buffer u) + s.count w) := rfl
  have hfl : (doReuse s u w kind).freelist = s.freelist := rfl
  refine ⟨?_, ?_, ?_, ?_, ?_⟩
  · intro v hv
    rw [hbuf]
    by_cases hvw : v = w
    · subst hvw
      rw [upd_same]
      exact hrN
    · rw [upd_ne _ _ _ hvw]
      exact hA v hv
  · intro v
    rw [hbuf]
    by_cases hvw : v = w
    · subst hvw
      rw [upd_same, upd_ne _ _ _ (fun h => hwr h.symm)]
      exact hrr
    · rw [upd_ne _ _ _ hvw]
      have hbv : s.buffer v ≠ w := hw2 v hvw
      rw [upd_ne _ _ _ hbv]
      exact hB v
  · intro r2 hr2N hroot2
    rw [hbuf] at hroot2
    have hr2w : r2 ≠ w := by
      intro h
      subst h
      rw [upd_same] at hroot2
      exact hwr hroot2.symm
    rw [upd_ne _ _ _ hr2w] at hroot2
    rw [hbuf, hcnt]
    by_cases hr2 : r2 = s.buffer u
    · subst hr2
      rw [upd_same]
      have hcw : s.count w = (pinCount g w : Int) + (P w : Int) := by
        rw [hC w hwN hbw]
        exact classSum_singleton g s.buffer P w hbw hw2 hwN
      rw [classSum_merge g s.buffer P _ w hwr hbw hwN, hC _ hr2N hroot2, hcw]
    · rw [upd_ne _ _ _ hr2]
      rw [classSum_merge_other g s.buffer P _ w r2 hr2 hr2w hbw]
      exact hC r2 hr2N hroot2
  · intro v hvU2
    have hvU : v ∈ U := hsub v hvU2
    have hvw : v ≠ w := fun h => hwU2 (h ▸ hvU2)
    obtain ⟨hb, h2⟩ := hD v hvU
    rw [hbuf]
    constructor
    · rw [upd_ne _ _ _ hvw]
      exact hb
    · intro x hxv
      by_cases hxw : x = w
      · subst hxw
        rw [upd_same]
        exact fun h => hrU (h ▸ hvU)
      · rw [upd_ne _ _ _ hxw]
        exact h2 x hxv
  · intro r hr
    rw [hfl] at hr
    obtain ⟨h1, h2⟩ := hE r hr
    exact ⟨h1, fun h => h2 (hsub r h)⟩

theorem decOne_core (g : PGraph) (s : PassState) (P : Nat → Nat) (U : List Nat)
    (v : Nat) (hcore : CoreInv g s P U) (hvN : v < g.numValues)
    (hPv : 1 ≤ P v) (hvU : v ∉ U) :
    CoreInv g (decOne s v) (upd P v (P v - 1)) U ∧
    (decOne s v).assertOk = s.assertOk ∧
    (∀ x ∈ (decOne s v).freelist, x ∈ s.freelist ∨ pinCount g x = 0) := by
  obtain ⟨hA, hB, hC, hD, hE⟩ := hcore
  have hrN : s.buffer v < g.numValues := hA v hvN
  have hrr : s.buffer (s.buffer v) = s.buffer v := hB v
  have hcr : s.count (s.buffer v) = classSum g s.buffer P (s.buffer v) :=
    hC _ hrN hrr
  have hge : (pinCount g v : Int) + (P v : Int) ≤ s.count (s.buffer v) := by
    rw [hcr]
    exact classSum_ge_term g s.buffer P _ v hvN rfl
  have hc0 : 0 ≤ s.count (s.buffer v) - 1 := by
    have : (1 : Int) ≤ (P v : Int) := by exact_mod_cast hPv
    omega
  have hrU : s.buffer v ∉ U := by
    intro hin
    obtain ⟨hb, h2⟩ := hD _ hin
    by_cases hvr : v = s.buffer v
    · rw [← hvr] at hin
      exact hvU hin
    · exact h2 v hvr rfl
  have hbuf : (decOne s v).buffer = s.buffer := rfl
  have hcnt : (decOne s v).count =
      upd s.count (s.buffer v) (s.count (s.buffer v) - 1) := rfl
  have hpd : classSum g s.buffer (upd P v (P v - 1)) (s.buffer v) =
      classSum g s.buffer P (s.buffer v) - 1 :=
    classSum_pdec_self g s.buffer P _ v rfl hvN hPv
  have hpin0 : s.count (s.buffer v) - 1 = 0 → pinCount g (s.buffer v) = 0 := by
    intro h0
    have hterm : (pinCount g (s.buffer v) : Int) + ((upd P v (P v - 1)) (s.buffer v) : Int) ≤
        classSum g s.buffer (upd P v (P v - 1)) (s.buffer v) :=
      classSum_ge_term g s.buffer _ _ _ hrN hrr
    rw [hpd, ← hcr, h0] at hterm
    have hpn : (0 : Int) ≤ (pinCount g (s.buffer v) : Int) := by positivity
    have hqn : (0 : Int) ≤ ((upd P v (P v - 1)) (s.buffer v) : Int) := by positivity
    omega
  refine ⟨⟨?_, ?_, ?_, ?_, ?_⟩, ?_, ?_⟩
  · intro x hx
    rw [hbuf]
    exact hA x hx
  · intro x
    rw [hbuf]
    exact hB x
  · intro r2 hr2N hroot2
    rw [hbuf] at hroot2
    rw [hbuf, hcnt]
    by_cases hr2 : r2 = s.buffer v
    · subst hr2
      rw [upd_same, hpd, hcr]
    · rw [upd_ne _ _ _ hr2]
      rw [classSum_pdec_other g s.buffer P r2 v (fun h => hr2 h.symm)]
      exact hC r2 hr2N hroot2
  · intro x hx
    rw [hbuf]
    exact hD x hx
  · intro r hr
    have hr2 : r ∈ (if s.count (s.buffer v) - 1 = 0 then
        s.buffer v :: s.freelist else s.freelist) := hr
    by_cases hz : s.count (s.buffer v) - 1 = 0
    · rw [if_pos hz] at hr2
      rcases List.mem_cons.mp hr2 with h | h
      · exact h ▸ ⟨hrN, hrU⟩
      · exact hE r h
    · rw [if_neg hz] at hr2
      exact hE r hr2
  · show (s.assertOk && decide (0 ≤ s.count (s.buffer v) - 1)) = s.assertOk
    rw [decide_eq_true hc0, Bool.and_true]
  · intro x hx
    have hx2 : x ∈ (if s.count (s.buffer v) - 1 = 0 then
        s.buffer v :: s.freelist else s.freelist) := hx
    by_cases hz : s.count (s.buffer v) - 1 = 0
    · rw [if_pos hz] at hx2
      rcases List.mem_cons.mp hx2 with h | h
      · exact Or.inr (h ▸ hpin0 hz)
      · exact Or.inl h
    · rw [if_neg hz] at hx2
      exact Or.inl hx2

def kindOkGO (k : AllocKind) : Prop :=
  k = AllocKind.allocateOutput ∨ k = AllocKind.share ∨ k = AllocKind.allocatedExternally

/-- The graph-output safety invariant: classes rooted at non-graph-output
values stay so, reuse entries never point at graph outputs, the freelist
holds no graph output, and every produced graph output is either already
planned with a graph-output kind or still unplanned. -/
def SafeInv (g : PGraph) (s : PassState) (U : List Nat) : Prop :=
  (∀ u, u ∉ g.graphOutputs → s.buffer u ∉ g.graphOutputs) ∧
  (∀ w, (s.plan w).kind = AllocKind.reuse →
    (s.plan w).reusedBuffer ∉ g.graphOutputs) ∧
  (∀ r ∈ s.freelist, r ∉ g.graphOutputs) ∧
  (∀ v ∈ g.graphOutputs, v ∈ outsOf g.nodes → (kindOkGO (s.plan v).kind ∨ v ∈ U))

/-- No kernel's mandatory alias (plain or variadic) resolves to a graph
output. -/
def NoAliasGO (g : PGraph) : Prop :=
  ∀ n ∈ g.nodes, ∀ k r, (findAlias n k = some r ∨ findVariadic n k = some r) →
    r ∉ g.graphOutputs

theorem pinCount_GO (g : PGraph) (v : Nat) (hgo : v ∈ g.graphOutputs) :
    1 ≤ pinCount g v := by
  unfold pinCount
  rw [if_pos hgo]
  split_ifs <;> omega

theorem coreInv_mono (g : PGraph) (s : PassState) (P : Nat → Nat) (U U2 : List Nat)
    (hcore : CoreInv g s P U) (hsub : ∀ x ∈ U2, x ∈ U) : CoreInv g s P U2 := by
  obtain ⟨hA, hB, hC, hD, hE⟩ := hcore
  exact ⟨hA, hB, hC, fun x hx => hD x (hsub x hx),
    fun r hr => ⟨(hE r hr).1, fun h => (hE r hr).2 (hsub r h)⟩⟩

theorem setPlanKind_core (g : PGraph) (s : PassState) (P : Nat → Nat)
    (U U2 : List Nat) (v : Nat) (k : AllocKind)
    (hcore : CoreInv g s P U) (hsub : ∀ x ∈ U2, x ∈ U) :
    CoreInv g (setPlanKind s v k) P U2 :=
  coreInv_mono g s P U U2 hcore hsub

theorem setPlanKind_safe (g : PGraph) (s : PassState) (U U2 : List Nat)
    (v : Nat) (k : AllocKind)
    (hsafe : SafeInv g s U)
    (hUrel : ∀ x ∈ U, x = v ∨ x ∈ U2)
    (hkr : k ≠ AllocKind.reuse)
    (hgo : v ∈ g.graphOutputs → kindOkGO k) :
    SafeInv g (setPlanKind s v k) U2 := by
  obtain ⟨h1, h2, h3, h4⟩ := hsafe
  have hplan : (setPlanKind s v k).plan =
      upd s.plan v { s.plan v with kind := k } := rfl
  refine ⟨h1, ?_, h3, ?_⟩
  · intro w hw
    rw [hplan] at hw ⊢
    by_cases hwv : w = v
    · subst hwv
      rw [upd_same] at hw
      exact absurd hw hkr
    · rw [upd_ne _ _ _ hwv] at hw ⊢
      exact h2 w hw
  · intro v2 hgo2 hout
    rw [hplan]
    by_cases hv2 : v2 = v
    · subst hv2
      rw [upd_same]
      exact Or.inl (hgo hgo2)
    · rw [upd_ne _ _ _ hv2]
      rcases h4 v2 hgo2 hout with h | h
      · exact Or.inl h
      · rcases hUrel v2 h with h5 | h5
        · exact absurd h5 hv2
        · exact Or.inr h5

theorem doReuse_safe (g : PGraph) (s : PassState) (U U2 : List Nat)
    (u w : Nat) (kind : AllocKind)
    (hsafe : SafeInv g s U)
    (hUrel : ∀ x ∈ U, x = w ∨ x ∈ U2)
    (hwk : w ∈ g.graphOutputs → kindOkGO kind)
    (hkr : kind = AllocKind.reuse → s.buffer u ∉ g.graphOutputs)
    (hwgo : w ∉ g.graphOutputs → s.buffer u ∉ g.graphOutputs) :
    SafeInv g (doReuse s u w kind) U2 := by
  obtain ⟨h1, h2, h3, h4⟩ := hsafe
  have hbuf : (doReuse s u w kind).buffer = upd s.buffer w (s.buffer u) := rfl
  have hplan : (doReuse s u w kind).plan =
      upd s.plan w ⟨kind, s.buffer u⟩ := rfl
  have hfl : (doReuse s u w kind).freelist = s.freelist := rfl
  refine ⟨?_, ?_, ?_, ?_⟩
  · intro u2 hu2
    rw [hbuf]
    by_cases hu2w : u2 = w
    · subst hu2w
      rw [upd_same]
      exact hwgo hu2
    · rw [upd_ne _ _ _ hu2w]
      exact h1 u2 hu2
  · intro w2 hw2
    rw [hplan] at hw2 ⊢
    by_cases hww : w2 = w
    · subst hww
      rw [upd_same] at hw2 ⊢
      exact hkr hw2
    · rw [upd_ne _ _ _ hww] at hw2 ⊢
      exact h2 w2 hw2
  · intro r hr
    rw [hfl] at hr
    exact h3 r hr
  · intro v2 hgo2 hout
    rw [hplan]
    by_cases hv2 : v2 = w
    · subst hv2
      rw [upd_same]
      exact Or.inl (hwk hgo2)
    · rw [upd_ne _ _ _ hv2]
      rcases h4 v2 hgo2 hout with h | h
      · exact Or.inl h
      · rcases hUrel v2 h with h5 | h5
        · exact absurd h5 hv2
        · exact Or.inr h5

theorem argAt_mem (l : List (Option Nat)) (i : Int) (v : Nat)
    (h : argAt l i = some v) : v ∈ occVals l := by
  unfold argAt at h
  by_cases hi : i < 0
  · rw [if_pos hi] at h
    cases h
  · rw [if_neg hi] at h
    rw [List.getD_eq_getElem?_getD] at h
    cases hg : l[i.toNat]? with
    | none => rw [hg] at h; cases h
    | some o =>
      rw [hg] at h
      have ho : o = some v := h
      unfold occVals
      exact List.mem_filterMap.mpr ⟨o, List.getElem?_mem hg, by rw [ho]; rfl⟩

theorem findAlias_mem (n : PNode) (k r : Nat) (h : findAlias n k = some r) :
    r ∈ occVals n.inputs := by
  unfold findAlias at h
  obtain ⟨p, _, hf⟩ := findSome?_some_mem _ _ _ h
  by_cases h2 : p.2 = (k : Int)
  · rw [if_pos h2] at hf
    exact argAt_mem _ _ _ hf
  · rw [if_neg h2] at hf
    cases hf

theorem findVariadic_mem (n : PNode) (k r : Nat) (h : findVariadic n k = some r) :
    r ∈ occVals n.inputs := by
  unfold findVariadic at h
  cases hv : n.variadicAlias with
  | none => rw [hv] at h; cases h
  | some io =>
    rw [hv] at h
    exact argAt_mem _ _ _ h

theorem findInplace_mem (g : PGraph) (s : PassState) (n : PNode) (k ov r : Nat)
    (h : findInplace g s n k ov = some r) : r ∈ occVals n.inputs := by
  unfold findInplace at h
  obtain ⟨p, _, hf⟩ := findSome?_some_mem _ _ _ h
  by_cases h2 : p.2 = (k : Int)
  · rw [if_pos h2] at hf
    cases hv : argAt n.inputs p.1 with
    | none => simp only [hv] at hf; cases hf
    | some v =>
      simp only [hv] at hf
      by_cases hc : s.count (s.buffer v) = 1 ∧ sameSizeVals g v ov = true
      · rw [if_pos hc] at hf
        have : v = r := Option.some.inj hf
        exact this ▸ argAt_mem _ _ _ hv
      · rw [if_neg hc] at hf
        cases hf
  · rw [if_neg h2] at hf
    cases hf

theorem findReusableInput_cases (g : PGraph) (s : PassState) (n : PNode)
    (k ov r : Nat) (h : findReusableInput g s n k ov = some r) :
    findAlias n k = some r ∨ findVariadic n k = some r ∨
      findInplace g s n k ov = some r := by
  unfold findReusableInput at h
  cases ha : findAlias n k with
  | some x =>
    simp only [ha, Option.orElse] at h
    exact Or.inl h
  | none =>
    simp only [ha, Option.orElse] at h
    cases hv : findVariadic n k with
    | some x =>
      simp only [hv] at h
      exact Or.inr (Or.inl h)
    | none =>
      simp only [hv] at h
      exact Or.inr (Or.inr h)

theorem findReusableTensorAux_rest (g : PGraph) (outV : Nat) (reqShape : Shape) :
    ∀ fl r rest, findReusableTensorAux g outV reqShape fl = some (r, rest) →
      ∀ x ∈ rest, x ∈ fl := by
  intro fl
  induction fl with
  | nil => intro r rest h; cases h
  | cons a fl ih =>
    intro r rest h
    have hkeep : ∀ rest2, keepHead a (findReusableTensorAux g outV reqShape fl) =
        some (r, rest2) → ∀ x ∈ rest2, x ∈ a :: fl := by
      intro rest2 hk x hx
      unfold keepHead at hk
      cases hres : findReusableTensorAux g outV reqShape fl with
      | none => rw [hres] at hk; cases hk
      | some pr =>
        rw [hres] at hk
        simp only [Option.map_some', Option.some.injEq, Prod.mk.injEq] at hk
        obtain ⟨h1, h2⟩ := hk
        rw [← h2] at hx
        rcases List.mem_cons.mp hx with h3 | h3
        · exact h3 ▸ List.mem_cons_self _ _
        · exact List.mem_cons_of_mem _ (ih pr.1 pr.2 (by rw [hres]) x h3)
    simp only [findReusableTensorAux] at h
    by_cases h1 : (g.meta a).isOptional
    · rw [if_pos h1] at h
      exact hkeep rest h
    · rw [if_neg h1] at h
      by_cases h2 : g.location a ≠ g.location outV
      · rw [if_pos h2] at h
        exact hkeep rest h
      · rw [if_neg h2] at h
        cases hsh : g.shape a with
        | none =>
          simp only [hsh] at h
          exact hkeep rest h
        | some sh =>
          simp only [hsh] at h
          by_cases h3 : sameSizeShapes sh (g.meta a) reqShape (g.meta outV)
          · rw [if_pos h3] at h
            simp only [Option.some.injEq, Prod.mk.injEq] at h
            obtain ⟨hr, hrest⟩ := h
            intro x hx
            rw [← hrest] at hx
            exact List.mem_cons_of_mem _ hx
          · rw [if_neg h3] at h
            exact hkeep rest h

theorem findReusableTensor_rest (g : PGraph) (ctx : PlannerCtx) (s : PassState)
    (outV r : Nat) (rest : List Nat)
    (h : findReusableTensor g ctx s outV = some (r, rest)) :
    ∀ x ∈ rest, x ∈ s.freelist := by
  unfold findReusableTensor at h
  by_cases hen : ¬ctx.enableMemoryReuse
  · rw [if_pos hen] at h
    cases h
  · rw [if_neg hen] at h
    cases hsh : g.shape outV with
    | none => simp only [hsh] at h; cases h
    | some sh =>
      simp only [hsh] at h
      by_cases hz : sh.dims.length = 0
      · rw [if_pos hz] at h
        cases h
      · rw [if_neg hz] at h
        exact findReusableTensorAux_rest g outV sh s.freelist r rest h

theorem inplace_root_pin0 (g : PGraph) (s : PassState) (P : Nat → Nat)
    (U : List Nat) (u : Nat) (hcore : CoreInv g s P U) (huN : u < g.numValues)
    (hPu : 1 ≤ P u) (hcnt : s.count (s.buffer u) = 1) :
    pinCount g (s.buffer u) = 0 := by
  obtain ⟨hA, hB, hC, hD, hE⟩ := hcore
  have hrN : s.buffer u < g.numValues := hA u huN
  have hrr : s.buffer (s.buffer u) = s.buffer u := hB u
  have hcs : classSum g s.buffer P (s.buffer u) = 1 := by
    rw [← hC _ hrN hrr]
    exact hcnt
  have hP1 : (1 : Int) ≤ (P u : Int) := by exact_mod_cast hPu
  have hnnu : (0 : Int) ≤ (pinCount g u : Int) := by positivity
  have hnnr : (0 : Int) ≤ (pinCount g (s.buffer u) : Int) := by positivity
  have hnnPr : (0 : Int) ≤ (P (s.buffer u) : Int) := by positivity
  by_cases hur : u = s.buffer u
  · have hterm := classSum_ge_term g s.buffer P (s.buffer u) u huN rfl
    rw [hcs] at hterm
    have hp0 : (pinCount g (s.buffer u) : Int) = 0 := by
      rw [← hur]
      omega
    exact_mod_cast hp0
  · have hmemu : u ∈ (Finset.range g.numValues).filter
        (fun v => s.buffer v = s.buffer u) :=
      Finset.mem_filter.mpr ⟨Finset.mem_range.mpr huN, by simp⟩
    have hmemr : s.buffer u ∈ (Finset.range g.numValues).filter
        (fun v => s.buffer v = s.buffer u) :=
      Finset.mem_filter.mpr ⟨Finset.mem_range.mpr hrN, by simp [hrr]⟩
    have hpairsub : ({u, s.buffer u} : Finset Nat) ⊆
        (Finset.range g.numValues).filter (fun v => s.buffer v = s.buffer u) := by
      intro x hx
      rcases Finset.mem_insert.mp hx with h | h
      · exact h ▸ hmemu
      · rw [Finset.mem_singleton] at h
        exact h ▸ hmemr
    have hsum2 : (({u, s.buffer u} : Finset Nat).sum
        (fun v => (pinCount g v : Int) + (P v : Int))) ≤
        classSum g s.buffer P (s.buffer u) := by
      unfold classSum
      refine Finset.sum_le_sum_of_subset_of_nonneg hpairsub ?_
      intro i _ _
      positivity
    rw [Finset.sum_pair hur, hcs] at hsum2
    have hp0 : (pinCount g (s.buffer u) : Int) = 0 := by omega
    exact_mod_cast hp0

theorem planOutputTail_step (g : PGraph) (ctx : PlannerCtx) (v : Nat)
    (s : PassState) (P : Nat → Nat) (U U2 : List Nat)
    (hcore : CoreInv g s P U)
    (hvU : v ∈ U) (hvN : v < g.numValues)
    (hU2 : ∀ x ∈ U2, x ∈ U) (hvU2 : v ∉ U2)
    (hUrel : ∀ x ∈ U, x = v ∨ x ∈ U2)
    (hvgo : v ∉ g.graphOutputs) :
    CoreInv g (planOutputTail g ctx v s) P U2 ∧
    (planOutputTail g ctx v s).assertOk = s.assertOk ∧
    (∀ x ∈ (planOutputTail g ctx v s).freelist, x ∈ s.freelist) ∧
    (SafeInv g s U → SafeInv g (planOutputTail g ctx v s) U2) := by
  have hsetp : ∀ kk, kk ≠ AllocKind.reuse →
      CoreInv g (setPlanKind s v kk) P U2 ∧
      (setPlanKind s v kk).assertOk = s.assertOk ∧
      (∀ x ∈ (setPlanKind s v kk).freelist, x ∈ s.freelist) ∧
      (SafeInv g s U → SafeInv g (setPlanKind s v kk) U2) := by
    intro kk hkk
    refine ⟨setPlanKind_core g s P U U2 v kk hcore hU2, rfl, fun x hx => hx, ?_⟩
    intro hsafe
    exact setPlanKind_safe g s U U2 v kk hsafe hUrel hkk
      (fun h => absurd h hvgo)
  unfold planOutputTail
  by_cases ht : ¬(g.meta v).isTensor
  · rw [if_pos ht]
    exact hsetp AllocKind.allocate (fun h => AllocKind.noConfusion h)
  · rw [if_neg ht]
    by_cases hp : ctx.parallel
    · rw [if_pos hp]
      exact hsetp AllocKind.allocate (fun h => AllocKind.noConfusion h)
    · rw [if_neg hp]
      cases hrf : findReusableTensor g ctx s v with
      | none => exact hsetp AllocKind.allocate (fun h => AllocKind.noConfusion h)
      | some rf =>
        obtain ⟨hen, hmem, hloc, hsz⟩ :=
          findReusableTensor_sound g ctx s v rf.1 rf.2 (by rw [hrf])
        have hrest := findReusableTensor_rest g ctx s v rf.1 rf.2 (by rw [hrf])
        obtain ⟨hA, hB, hC, hD, hE⟩ := hcore
        have hfN : rf.1 < g.numValues := (hE rf.1 hmem).1
        have hfU : rf.1 ∉ U := (hE rf.1 hmem).2
        have hcore2 : CoreInv g { s with freelist := rf.2 } P U := by
          refine ⟨hA, hB, hC, hD, ?_⟩
          intro r hr
          exact hE r (hrest r hr)
        refine ⟨?_, rfl, ?_, ?_⟩
        · exact doReuse_core g { s with freelist := rf.2 } P U U2 rf.1 v
            AllocKind.reuse hcore2 hvU hvN hfN hfU hU2 hvU2
        · intro x hx
          exact hrest x hx
        · intro hsafe
          obtain ⟨h1, h2, h3, h4⟩ := hsafe
          have hs2 : SafeInv g { s with freelist := rf.2 } U := by
            refine ⟨h1, h2, ?_, h4⟩
            intro r hr
            exact h3 r (hrest r hr)
          have hrgo : s.buffer rf.1 ∉ g.graphOutputs := h1 rf.1 (h3 rf.1 hmem)
          exact doReuse_safe g { s with freelist := rf.2 } U U2 rf.1 v
            AllocKind.reuse hs2 hUrel (fun h => absurd h hvgo)
            (fun _ => hrgo) (fun _ => hrgo)

theorem planOutputV_step (g : PGraph) (ctx : PlannerCtx) (n : PNode) (k v : Nat)
    (s : PassState) (P : Nat → Nat) (U U2 : List Nat)
    (hcore : CoreInv g s P U)
    (hvU : v ∈ U) (hvN : v < g.numValues)
    (hU2 : ∀ x ∈ U2, x ∈ U) (hvU2 : v ∉ U2)
    (hUrel : ∀ x ∈ U, x = v ∨ x ∈ U2)
    (hinputs : ∀ u ∈ occVals n.inputs, u < g.numValues ∧ u ∉ U)
    (hinP : ∀ u ∈ occVals n.inputs, 1 ≤ P u) :
    CoreInv g (planOutputV g ctx n k v s) P U2 ∧
    (planOutputV g ctx n k v s).assertOk = s.assertOk ∧
    (∀ x ∈ (planOutputV g ctx n k v s).freelist, x ∈ s.freelist) ∧
    ((∀ k2 r, (findAlias n k2 = some r ∨ findVariadic n k2 = some r) →
        r ∉ g.graphOutputs) →
      SafeInv g s U → SafeInv g (planOutputV g ctx n k v s) U2) := by
  have hsetp : ∀ kk, kk ≠ AllocKind.reuse →
      (v ∈ g.graphOutputs → kindOkGO kk) →
      CoreInv g (setPlanKind s v kk) P U2 ∧
      (setPlanKind s v kk).assertOk = s.assertOk ∧
      (∀ x ∈ (setPlanKind s v kk).freelist, x ∈ s.freelist) ∧
      (SafeInv g s U → SafeInv g (setPlanKind s v kk) U2) := by
    intro kk hkk hgo
    refine ⟨setPlanKind_core g s P U U2 v kk hcore hU2, rfl, fun x hx => hx, ?_⟩
    intro hsafe
    exact setPlanKind_safe g s U U2 v kk hsafe hUrel hkk hgo
  unfold planOutputV
  by_cases hext : n.hasExternalOutputs
  · rw [if_pos hext]
    obtain ⟨c1, c2, c3, c4⟩ := hsetp AllocKind.allocatedExternally
      (fun h => AllocKind.noConfusion h) (fun _ => Or.inr (Or.inr rfl))
    exact ⟨c1, c2, c3, fun _ => c4⟩
  · rw [if_neg hext]
    by_cases hgo : v ∈ g.graphOutputs
    · rw [if_pos hgo]
      by_cases hloop : g.parentOpType = some "Loop" ∧ n.opType = "Identity"
      · rw [if_pos hloop]
        cases hinp : n.inputs with
        | nil =>
          simp only [loopShareResult]
          obtain ⟨c1, c2, c3, c4⟩ := hsetp AllocKind.allocateOutput
            (fun h => AllocKind.noConfusion h) (fun _ => Or.inl rfl)
          exact ⟨c1, c2, c3, fun _ => c4⟩
        | cons o t =>
          cases o with
          | none =>
            simp only [loopShareResult]
            obtain ⟨c1, c2, c3, c4⟩ := hsetp AllocKind.allocateOutput
              (fun h => AllocKind.noConfusion h) (fun _ => Or.inl rfl)
            exact ⟨c1, c2, c3, fun _ => c4⟩
          | some inV =>
            simp only [loopShareResult]
            have hinVmem : inV ∈ occVals n.inputs := by
              rw [hinp]
              exact List.mem_cons_self _ _
            obtain ⟨hinVN, hinVU⟩ := hinputs inV hinVmem
            by_cases hh : g.graphInputs.head? = some inV
            · rw [if_pos hh]
              obtain ⟨c1, c2, c3, c4⟩ := hsetp AllocKind.allocateOutput
                (fun h => AllocKind.noConfusion h) (fun _ => Or.inl rfl)
              exact ⟨c1, c2, c3, fun _ => c4⟩
            · rw [if_neg hh]
              by_cases hpre : ((setPlanKind s v AllocKind.allocateOutput).plan
                  inV).kind = AllocKind.preExisting
              · rw [if_pos hpre]
                have hcore1 : CoreInv g (setPlanKind s v AllocKind.allocateOutput)
                    P U := hcore
                refine ⟨?_, rfl, fun x hx => hx, ?_⟩
                · exact doReuse_core g _ P U U2 inV v AllocKind.share hcore1
                    hvU hvN hinVN hinVU hU2 hvU2
                · intro _ hsafe
                  have hs1 : SafeInv g (setPlanKind s v AllocKind.allocateOutput)
                      U :=
                    setPlanKind_safe g s U U v AllocKind.allocateOutput hsafe
                      (fun x hx => Or.inr hx) (fun h => AllocKind.noConfusion h)
                      (fun _ => Or.inl rfl)
                  exact doReuse_safe g _ U U2 inV v AllocKind.share hs1 hUrel
                    (fun _ => Or.inr (Or.inl rfl))
                    (fun h => AllocKind.noConfusion h)
                    (fun hng => absurd hgo hng)
              · rw [if_neg hpre]
                obtain ⟨c1, c2, c3, c4⟩ := hsetp AllocKind.allocateOutput
                  (fun h => AllocKind.noConfusion h) (fun _ => Or.inl rfl)
                exact ⟨c1, c2, c3, fun _ => c4⟩
      · rw [if_neg hloop]
        obtain ⟨c1, c2, c3, c4⟩ := hsetp AllocKind.allocateOutput
          (fun h => AllocKind.noConfusion h) (fun _ => Or.inl rfl)
        exact ⟨c1, c2, c3, fun _ => c4⟩
    · rw [if_neg hgo]
      by_cases hp : ctx.parallel
      · rw [if_pos hp]
        obtain ⟨c1, c2, c3, c4⟩ := planOutputTail_step g ctx v s P U U2 hcore
          hvU hvN hU2 hvU2 hUrel hgo
        exact ⟨c1, c2, c3, fun _ => c4⟩
      · rw [if_neg hp]
        cases hfr : findReusableInput g s n k v with
        | none =>
          obtain ⟨c1, c2, c3, c4⟩ := planOutputTail_step g ctx v s P U U2 hcore
            hvU hvN hU2 hvU2 hUrel hgo
          exact ⟨c1, c2, c3, fun _ => c4⟩
        | some r =>
          have hrmem : r ∈ occVals n.inputs := by
            rcases findReusableInput_cases g s n k v r hfr with h | h | h
            · exact findAlias_mem n k r h
            · exact findVariadic_mem n k r h
            · exact findInplace_mem g s n k v r h
          obtain ⟨hrN, hrU⟩ := hinputs r hrmem
          refine ⟨?_, rfl, fun x hx => hx, ?_⟩
          · exact doReuse_core g s P U U2 r v AllocKind.reuse hcore hvU hvN
              hrN hrU hU2 hvU2
          · intro hga hsafe
            have hrootgo : s.buffer r ∉ g.graphOutputs := by
              rcases findReusableInput_cases g s n k v r hfr with h | h | h
              · exact hsafe.1 r (hga k r (Or.inl h))
              · exact hsafe.1 r (hga k r (Or.inr h))
              · have hc := (findInplace_cond g s n k v r h).1
                have hpin := inplace_root_pin0 g s P U r hcore hrN
                  (hinP r hrmem) hc
                intro hin
                have := pinCount_GO g (s.buffer r) hin
                omega
            exact doReuse_safe g s U U2 r v AllocKind.reuse hsafe hUrel
              (fun h => absurd h hgo) (fun _ => hrootgo) (fun _ => hrootgo)

/-- The values planned by a list of output slots. -/
def slotVals (l : List (Option Nat)) (ks : List Nat) : List Nat :=
  ks.filterMap (fun k2 => listGetOpt l k2)

theorem slotVals_range (l : List (Option Nat)) :
    slotVals l (List.range l.length) = occVals l := by
  induction l with
  | nil => rfl
  | cons a t ih =>
    unfold slotVals at ih ⊢
    rw [List.length_cons, List.range_succ_eq_map, List.filterMap_cons,
      List.filterMap_map]
    have hco : (fun k2 => listGetOpt (a :: t) k2) ∘ Nat.succ =
        fun k2 => listGetOpt t k2 := by
      funext k2
      rfl
    rw [hco, ih]
    cases a with
    | none => rfl
    | some x => rfl

/-- Pending occurrences: a base plus the occurrence counts of a list. -/
def addOcc (P : Nat → Nat) (occ : List Nat) : Nat → Nat :=
  fun v => P v + occ.count v

theorem occMulti_cons (n : PNode) (rest : List PNode) :
    occMulti (n :: rest) = addOcc (occMulti rest) (nodeOccList n) := by
  funext v
  unfold occMulti addOcc
  rw [List.map_cons, List.sum_cons]
  exact Nat.add_comm _ _

theorem addOcc_cons_step (P : Nat → Nat) (v : Nat) (occ : List Nat) :
    upd (addOcc P (v :: occ)) v (addOcc P (v :: occ) v - 1) = addOcc P occ := by
  funext x
  unfold upd addOcc
  by_cases hx : x = v
  · subst hx
    rw [if_pos rfl, List.count_cons_self]
    omega
  · rw [if_neg hx, List.count_cons_of_ne (fun h => hx h)]

theorem addOcc_nil (P : Nat → Nat) : addOcc P [] = P := by
  funext x
  unfold addOcc
  simp

theorem outsOf_cons (n : PNode) (rest : List PNode) :
    outsOf (n :: rest) = occVals n.outputs ++ outsOf rest := by
  unfold outsOf
  rw [List.map_cons, List.flatten_cons]

/-- Well-formedness of a node suffix: occurrence values in range, output
values globally fresh, and inputs never drawn from still-future outputs. -/
def SuffixWF (g : PGraph) : List PNode → Prop
  | [] => True
  | n :: rest =>
    (∀ v ∈ nodeOccList n, v < g.numValues) ∧
    (occVals n.outputs).Nodup ∧
    (∀ v ∈ occVals n.outputs, v ∉ outsOf rest) ∧
    (∀ u ∈ occVals n.inputs ++ occVals n.implicitInputs, u ∉ outsOf (n :: rest)) ∧
    SuffixWF g rest

theorem planSlots_step (g : PGraph) (ctx : PlannerCtx) (n : PNode) :
    ∀ ks (s : PassState) (P : Nat → Nat) (Urest : List Nat),
      CoreInv g s P (slotVals n.outputs ks ++ Urest) →
      (∀ v ∈ slotVals n.outputs ks, v < g.numValues) →
      (slotVals n.outputs ks).Nodup →
      (∀ x ∈ slotVals n.outputs ks, x ∉ Urest) →
      (∀ u ∈ occVals n.inputs, u < g.numValues ∧
        u ∉ slotVals n.outputs ks ++ Urest) →
      (∀ u ∈ occVals n.inputs, 1 ≤ P u) →
      CoreInv g (ks.foldl (fun s2 k2 => planOutput g ctx n k2 s2) s) P Urest ∧
      (ks.foldl (fun s2 k2 => planOutput g ctx n k2 s2) s).assertOk = s.assertOk ∧
      (∀ x ∈ (ks.foldl (fun s2 k2 => planOutput g ctx n k2 s2) s).freelist,
        x ∈ s.freelist) ∧
      ((∀ k2 r, (findAlias n k2 = some r ∨ findVariadic n k2 = some r) →
          r ∉ g.graphOutputs) →
        SafeInv g s (slotVals n.outputs ks ++ Urest) →
        SafeInv g (ks.foldl (fun s2 k2 => planOutput g ctx n k2 s2) s) Urest) := by
  intro ks
  induction ks with
  | nil =>
    intro s P Urest hcore _ _ _ _ _
    exact ⟨hcore, rfl, fun x hx => hx, fun _ hs => hs⟩
  | cons k0 ks ih =>
    intro s P Urest hcore hbound hnd hdisj hin hinP
    rw [List.foldl_cons]
    cases hv0 : listGetOpt n.outputs k0 with
    | none =>
      have hsv : slotVals n.outputs (k0 :: ks) = slotVals n.outputs ks := by
        simp only [slotVals, List.filterMap_cons, hv0]
      have hstep : planOutput g ctx n k0 s = s := by
        simp only [planOutput, hv0]
      rw [hstep]
      rw [hsv] at hcore hbound hnd hdisj hin ⊢
      exact ih s P Urest hcore hbound hnd hdisj hin hinP
    | some v =>
      have hsv : slotVals n.outputs (k0 :: ks) =
          v :: slotVals n.outputs ks := by
        simp only [slotVals, List.filterMap_cons, hv0]
      have hstep : planOutput g ctx n k0 s = planOutputV g ctx n k0 v s := by
        simp only [planOutput, hv0]
      rw [hstep]
      rw [hsv] at hcore hbound hnd hdisj hin ⊢
      have hvN : v < g.numValues := hbound v (List.mem_cons_self _ _)
      have hvU2 : v ∉ slotVals n.outputs ks ++ Urest := by
        intro hx
        rcases List.mem_append.mp hx with h | h
        · exact (List.nodup_cons.mp hnd).1 h
        · exact hdisj v (List.mem_cons_self _ _) h
      obtain ⟨c1, c2, c3, c4⟩ := planOutputV_step g ctx n k0 v s P
        (v :: (slotVals n.outputs ks ++ Urest)) (slotVals n.outputs ks ++ Urest)
        hcore (List.mem_cons_self _ _) hvN
        (fun x hx => List.mem_cons_of_mem _ hx) hvU2
        (fun x hx => List.mem_cons.mp hx)
        hin
        hinP
      obtain ⟨d1, d2, d3, d4⟩ := ih (planOutputV g ctx n k0 v s) P Urest c1
        (fun x hx => hbound x (List.mem_cons_of_mem _ hx))
        (List.nodup_cons.mp hnd).2
        (fun x hx => hdisj x (List.mem_cons_of_mem _ hx))
        (fun u hu => ⟨(hin u hu).1, fun h => (hin u hu).2
          (List.mem_cons_of_mem _ h)⟩)
        hinP
      refine ⟨d1, d2.trans c2, fun x hx => c3 x (d3 x hx), ?_⟩
      intro hga hsafe
      exact d4 hga (c4 hga hsafe)

theorem decList_step (g : PGraph) :
    ∀ occ (s : PassState) (P : Nat → Nat) (U : List Nat),
      CoreInv g s (addOcc P occ) U →
      (∀ v ∈ occ, v < g.numValues ∧ v ∉ U) →
      CoreInv g (occ.foldl decOne s) P U ∧
      (occ.foldl decOne s).assertOk = s.assertOk ∧
      (∀ x ∈ (occ.foldl decOne s).freelist,
        x ∈ s.freelist ∨ pinCount g x = 0) ∧
      (SafeInv g s U → SafeInv g (occ.foldl decOne s) U) := by
  intro occ
  induction occ with
  | nil =>
    intro s P U hcore _
    rw [addOcc_nil] at hcore
    exact ⟨hcore, rfl, fun x hx => Or.inl hx, fun hs => hs⟩
  | cons v occ ih =>
    intro s P U hcore hb
    rw [List.foldl_cons]
    have hvN := (hb v (List.mem_cons_self _ _)).1
    have hvU := (hb v (List.mem_cons_self _ _)).2
    have hPv : 1 ≤ addOcc P (v :: occ) v := by
      unfold addOcc
      rw [List.count_cons_self]
      omega
    obtain ⟨c1, c2, c3⟩ := decOne_core g s (addOcc P (v :: occ)) U v hcore
      hvN hPv hvU
    rw [addOcc_cons_step] at c1
    obtain ⟨d1, d2, d3, d4⟩ := ih (decOne s v) P U c1
      (fun x hx => hb x (List.mem_cons_of_mem _ hx))
    refine ⟨d1, d2.trans c2, ?_, ?_⟩
    · intro x hx
      rcases d3 x hx with h | h
      · exact c3 x h
      · exact Or.inr h
    · intro hsafe
      refine d4 ?_
      obtain ⟨h1, h2, h3, h4⟩ := hsafe
      refine ⟨h1, h2, ?_, h4⟩
      intro r hr
      rcases c3 r hr with h | h
      · exact h3 r h
      · intro hin
        have := pinCount_GO g r hin
        omega

theorem processNode_step (g : PGraph) (ctx : PlannerCtx) (n : PNode)
    (rest : List PNode) (s : PassState)
    (hwf : SuffixWF g (n :: rest))
    (hcore : CoreInv g s (occMulti (n :: rest)) (outsOf (n :: rest))) :
    CoreInv g (processNode g ctx s n) (occMulti rest) (outsOf rest) ∧
    (processNode g ctx s n).assertOk = s.assertOk ∧
    (∀ x ∈ (processNode g ctx s n).freelist,
      x ∈ s.freelist ∨ pinCount g x = 0) ∧
    ((∀ k2 r, (findAlias n k2 = some r ∨ findVariadic n k2 = some r) →
        r ∉ g.graphOutputs) →
      SafeInv g s (outsOf (n :: rest)) → SafeInv g (processNode g ctx s n)
        (outsOf rest)) := by
  obtain ⟨w1, w2, w3, w4, _⟩ := hwf
  have heq : processNode g ctx s n = (nodeOccList n).foldl decOne
      ((List.range n.outputs.length).foldl
        (fun s2 k2 => planOutput g ctx n k2 s2) s) := rfl
  rw [heq]
  have hUeq : outsOf (n :: rest) =
      slotVals n.outputs (List.range n.outputs.length) ++ outsOf rest := by
    rw [slotVals_range, outsOf_cons]
  rw [hUeq] at hcore
  have hinputs : ∀ u ∈ occVals n.inputs, u < g.numValues ∧
      u ∉ slotVals n.outputs (List.range n.outputs.length) ++ outsOf rest := by
    intro u hu
    have huocc : u ∈ nodeOccList n := by
      unfold nodeOccList
      exact List.mem_append_left _ (List.mem_append_left _ hu)
    refine ⟨w1 u huocc, ?_⟩
    rw [← hUeq]
    exact w4 u (List.mem_append_left _ hu)
  have hinP : ∀ u ∈ occVals n.inputs, 1 ≤ occMulti (n :: rest) u := by
    intro u hu
    have huocc : u ∈ nodeOccList n := by
      unfold nodeOccList
      exact List.mem_append_left _ (List.mem_append_left _ hu)
    have hc : 0 < (nodeOccList n).count u := List.count_pos_iff.mpr huocc
    unfold occMulti
    rw [List.map_cons, List.sum_cons]
    omega
  obtain ⟨c1, c2, c3, c4⟩ := planSlots_step g ctx n
    (List.range n.outputs.length) s (occMulti (n :: rest)) (outsOf rest)
    hcore
    (by rw [slotVals_range]
        intro v hv
        refine w1 v ?_
        unfold nodeOccList
        exact List.mem_append_right _ hv)
    (by rw [slotVals_range]; exact w2)
    (by rw [slotVals_range]; exact w3)
    hinputs hinP
  have hoccb : ∀ v ∈ nodeOccList n, v < g.numValues ∧ v ∉ outsOf rest := by
    intro v hv
    refine ⟨w1 v hv, ?_⟩
    unfold nodeOccList at hv
    rcases List.mem_append.mp hv with h | h
    · have := w4 v h
      rw [outsOf_cons] at this
      exact fun h2 => this (List.mem_append_right _ h2)
    · exact w3 v h
  rw [occMulti_cons] at c1
  obtain ⟨d1, d2, d3, d4⟩ := decList_step g (nodeOccList n)
    ((List.range n.outputs.length).foldl (fun s2 k2 => planOutput g ctx n k2 s2) s)
    (occMulti rest) (outsOf rest) c1 hoccb
  refine ⟨d1, d2.trans c2, ?_, ?_⟩
  · intro x hx
    rcases d3 x hx with h | h
    · exact Or.inl (c3 x h)
    · exact Or.inr h
  · intro hga hsafe
    rw [hUeq] at hsafe
    exact d4 (c4 hga hsafe)

theorem ssRun (g : PGraph) (ctx : PlannerCtx) :
    ∀ ns (s : PassState),
      SuffixWF g ns →
      CoreInv g s (occMulti ns) (outsOf ns) →
      CoreInv g (ns.foldl (processNode g ctx) s) (occMulti []) (outsOf []) ∧
      (ns.foldl (processNode g ctx) s).assertOk = s.assertOk ∧
      (∀ x ∈ (ns.foldl (processNode g ctx) s).freelist,
        x ∈ s.freelist ∨ pinCount g x = 0) ∧
      ((∀ n ∈ ns, ∀ k2 r,
          (findAlias n k2 = some r ∨ findVariadic n k2 = some r) →
          r ∉ g.graphOutputs) →
        SafeInv g s (outsOf ns) →
        SafeInv g (ns.foldl (processNode g ctx) s) (outsOf [])) := by
  intro ns
  induction ns with
  | nil =>
    intro s _ hcore
    exact ⟨hcore, rfl, fun x hx => Or.inl hx, fun _ hs => hs⟩
  | cons n rest ih =>
    intro s hwf hcore
    rw [List.foldl_cons]
    obtain ⟨c1, c2, c3, c4⟩ := processNode_step g ctx n rest s hwf hcore
    have hwfr : SuffixWF g rest := by
      obtain ⟨_, _, _, _, h5⟩ := hwf
      exact h5
    obtain ⟨d1, d2, d3, d4⟩ := ih (processNode g ctx s n) hwfr c1
    refine ⟨d1, d2.trans c2, ?_, ?_⟩
    · intro x hx
      rcases d3 x hx with h | h
      · rcases c3 x h with h2 | h2
        · exact Or.inl h2
        · exact Or.inr h2
      · exact Or.inr h
    · intro hga hsafe
      refine d4 (fun n2 hn2 => hga n2 (List.mem_cons_of_mem _ hn2)) ?_
      exact c4 (hga n (List.mem_cons_self _ _)) hsafe

/-- C10: starting from the computed use counts, the single-stream pass
never decrements any buffer root's use count below zero — the
`assert(use_count >= 0)` inside `DecrementUseCount`, recorded by the
ghost `assertOk` flag, never fires on a well-formed graph. -/
theorem singleStreamPlan_no_negative_count (g : PGraph) (ctx : PlannerCtx)
    (s0 : PassState)
    (hwf : SuffixWF g g.nodes)
    (hbuf : s0.buffer = fun v => v)
    (hfl : s0.freelist = [])
    (hok : s0.assertOk = true)
    (hcnt : ∀ v, s0.count v =
      (pinCount g v : Int) + (occMulti g.nodes v : Int)) :
    (computeSingleStreamReusePlan g ctx s0).assertOk = true := by
  have hcore : CoreInv g s0 (occMulti g.nodes) (outsOf g.nodes) := by
    refine ⟨?_, ?_, ?_, ?_, ?_⟩
    · intro v hv
      rw [hbuf]
      exact hv
    · intro v
      rw [hbuf]
    · intro r hrN hroot
      rw [hcnt r, classSum_singleton g s0.buffer (occMulti g.nodes) r hroot
        (fun u hu => by rw [hbuf]; exact hu) hrN]
    · intro v _
      rw [hbuf]
      exact ⟨rfl, fun u hu => hu⟩
    · intro r hr
      rw [hfl] at hr
      cases hr
  have h := ssRun g ctx g.nodes s0 hwf hcore
  show (g.nodes.foldl (processNode g ctx) s0).assertOk = true
  rw [h.2.1, hok]

/-- Initial state for the single-stream examples: identity buffers, the
computed use counts, empty freelist. -/
def exS10 : PassState :=
  ⟨fun v => (pinCount exG7 v : Int) + (occMulti exG7.nodes v : Int),
    fun v => v, fun _ => ⟨AllocKind.notSet, 0⟩, [], true⟩

/-- Witness: the C10 theorem applied to the two-node example chain. -/
theorem singleStreamPlan_no_negative_count_witness :
    SuffixWF exG7 exG7.nodes ∧
    (computeSingleStreamReusePlan exG7 ⟨false, true⟩ exS10).assertOk = true :=
  ⟨⟨by decide, by decide, by decide, by decide,
      ⟨by decide, by decide, by decide, by decide, trivial⟩⟩,
    singleStreamPlan_no_negative_count exG7 ⟨false, true⟩ exS10
      ⟨by decide, by decide, by decide, by decide,
        ⟨by decide, by decide, by decide, by decide, trivial⟩⟩
      rfl rfl rfl (fun v => rfl)⟩

/-- A graph whose second node carries a mandatory alias pair whose input
is a graph output: node A produces graph output 1, node B aliases its
input 1 into its output 2. -/
def exNodeA5 : PNode :=
  ⟨0, [some 0], [], [some 1], [], none, [], false, "Relu", "CPU", [], [1]⟩

def exNodeB5 : PNode :=
  ⟨1, [some 1], [], [some 2], [(0, 0)], none, [], false, "Reshape", "CPU",
    [0], []⟩

def exG5 : PGraph :=
  ⟨[exNodeA5, exNodeB5], [0], [1], [], [], fun _ => some ⟨[DimV.val 4]⟩,
    fun _ => ⟨false, 4, true, false⟩, fun _ => 0, 3, none⟩

def exS5 : PassState :=
  ⟨fun v => (pinCount exG5 v : Int) + (occMulti exG5.nodes v : Int),
    fun v => v, fun _ => ⟨AllocKind.notSet, 0⟩, [], true⟩

/-- Counterexample to C5 as stated: the mandatory alias-map clause of the
single-stream planner rewrites intermediate value 2 to `Reuse(1)` even
though value 1 is a graph output. -/
theorem singleStream_reuses_graph_output :
    ((computeSingleStreamReusePlan exG5 ⟨false, true⟩ exS5).plan 2).kind =
      AllocKind.reuse ∧
    ((computeSingleStreamReusePlan exG5 ⟨false, true⟩ exS5).plan 2).reusedBuffer
      = 1 ∧
    1 ∈ exG5.graphOutputs ∧ 2 ∉ exG5.graphOutputs :=
  ⟨by decide, by decide, by decide, by decide⟩

/-- Graph-output safety through the multi-stream optimizer: graph
outputs keep a graph-output kind, no reuse entry points at a graph
output, and no waiting-list entry is a graph output. -/
def OptInv (g : PGraph) (st : MSState) : Prop :=
  (∀ v ∈ g.graphOutputs, kindOkGO (st.plan v).kind) ∧
  (∀ w, (st.plan w).kind = AllocKind.reuse →
    (st.plan w).reusedBuffer ∉ g.graphOutputs) ∧
  (∀ pr ∈ st.waiting, ∀ e ∈ pr.2, e.arg ∉ g.graphOutputs)

theorem allocate_not_GO (g : PGraph) (st : MSState) (x : Nat)
    (hinv : ∀ v ∈ g.graphOutputs, kindOkGO (st.plan v).kind)
    (hx : (st.plan x).kind = AllocKind.allocate) : x ∉ g.graphOutputs := by
  intro hin
  rcases hinv x hin with h | h | h <;> rw [hx] at h <;> cases h

theorem optSafe_plan_upd (g : PGraph) (p : Nat → AllocEntry) (w ri : Nat)
    (hs1 : ∀ v ∈ g.graphOutputs, kindOkGO (p v).kind)
    (hs2 : ∀ x, (p x).kind = AllocKind.reuse →
      (p x).reusedBuffer ∉ g.graphOutputs)
    (hwgo : w ∉ g.graphOutputs)
    (hrigo : ri ∉ g.graphOutputs) :
    (∀ v ∈ g.graphOutputs, kindOkGO ((upd p w ⟨AllocKind.reuse, ri⟩) v).kind) ∧
    (∀ x, ((upd p w ⟨AllocKind.reuse, ri⟩) x).kind = AllocKind.reuse →
      ((upd p w ⟨AllocKind.reuse, ri⟩) x).reusedBuffer ∉ g.graphOutputs) := by
  constructor
  · intro v hv
    have hvw : v ≠ w := fun h => hwgo (h ▸ hv)
    rw [upd_ne _ _ _ hvw]
    exact hs1 v hv
  · intro x hx
    by_cases hxw : x = w
    · subst hxw
      rw [upd_same]
      exact hrigo
    · rw [upd_ne _ _ _ hxw] at hx ⊢
      exact hs2 x hx

theorem trAlias_allocate (st : MSState) (n : PNode) (k ri : Nat)
    (h : trAlias st n k = some ri) : (st.plan ri).kind = AllocKind.allocate := by
  unfold trAlias at h
  obtain ⟨p, _, hf⟩ := findSome?_some_mem _ _ _ h
  by_cases h2 : p.2.emod (2 ^ 64) = (k : Int)
  · rw [if_pos h2] at hf
    cases hv : argAt n.inputs p.1 with
    | none => simp only [hv] at hf; cases hf
    | some v =>
      simp only [hv] at hf
      by_cases hk : (st.plan v).kind = AllocKind.allocate
      · rw [if_pos hk] at hf
        exact (Option.some.inj hf) ▸ hk
      · rw [if_neg hk] at hf
        cases hf
  · rw [if_neg h2] at hf
    cases hf

theorem trVariadic_allocate (st : MSState) (n : PNode) (k ri : Nat)
    (h : trVariadic st n k = some ri) :
    (st.plan ri).kind = AllocKind.allocate := by
  unfold trVariadic at h
  cases hv : n.variadicAlias with
  | none => rw [hv] at h; cases h
  | some io =>
    simp only [hv] at h
    by_cases hlt : (((k : Int) - io.2 + io.1).emod (2 ^ 64)).toNat <
        n.inputs.length
    · rw [if_pos hlt] at h
      cases hg : n.inputs.getD (((k : Int) - io.2 + io.1).emod (2 ^ 64)).toNat
          none with
      | none => simp only [hg] at h; cases h
      | some v =>
        simp only [hg] at h
        by_cases hk : (st.plan v).kind = AllocKind.allocate
        · rw [if_pos hk] at h
          exact (Option.some.inj h) ▸ hk
        · rw [if_neg hk] at h
          cases h
    · rw [if_neg hlt] at h
      cases h

theorem trDoReuse_optInv (g : PGraph) (st : MSState) (o ri : Nat)
    (hinv : OptInv g st) (hogo : o ∉ g.graphOutputs)
    (hri : (st.plan ri).kind = AllocKind.allocate) :
    OptInv g (trDoReuse st o ri) := by
  obtain ⟨h1, h2, h3⟩ := hinv
  have hrigo := allocate_not_GO g st ri h1 hri
  obtain ⟨c1, c2⟩ := optSafe_plan_upd g st.plan o ri h1 h2 hogo hrigo
  exact ⟨c1, c2, h3⟩

theorem trInplaceStep_optInv (g : PGraph) (n : PNode) (k o : Nat) (st : MSState)
    (p : Int × Int) (hinv : OptInv g st) (hogo : o ∉ g.graphOutputs) :
    OptInv g (trInplaceStep g n k o st p) := by
  unfold trInplaceStep
  by_cases h1 : p.2.emod (2 ^ 64) = (k : Int)
  · rw [if_pos h1]
    cases ha : argAt n.inputs p.1 with
    | none => exact hinv
    | some ri =>
      show OptInv g (if (st.plan ri).kind = AllocKind.allocate then
        (if (st.consumers ri).length = 1 ∧ sameSizeVals g ri o = true then
          trDoReuse st o ri else st) else st)
      by_cases h2 : (st.plan ri).kind = AllocKind.allocate
      · rw [if_pos h2]
        by_cases h3 : (st.consumers ri).length = 1 ∧ sameSizeVals g ri o = true
        · rw [if_pos h3]
          exact trDoReuse_optInv g st o ri hinv hogo h2
        · rw [if_neg h3]
          exact hinv
      · rw [if_neg h2]
        exact hinv
  · rw [if_neg h1]
    exact hinv

theorem tryReuseInputChain_optInv (g : PGraph) (n : PNode) (k o : Nat)
    (st1 : MSState) (hinv : OptInv g st1) (hogo : o ∉ g.graphOutputs) :
    OptInv g (tryReuseInputChain g n k o st1) := by
  cases ha : trAlias st1 n k with
  | some ri =>
    simp only [tryReuseInputChain, ha]
    exact trDoReuse_optInv g st1 o ri hinv hogo (trAlias_allocate st1 n k ri ha)
  | none =>
    cases hv : trVariadic st1 n k with
    | some ri =>
      simp only [tryReuseInputChain, ha, hv]
      exact trDoReuse_optInv g st1 o ri hinv hogo
        (trVariadic_allocate st1 n k ri hv)
    | none =>
      simp only [tryReuseInputChain, ha, hv]
      refine foldl_preserves n.mayInplace _ (OptInv g) st1 hinv ?_
      intro st2 p _ hq
      exact trInplaceStep_optInv g n k o st2 p hq hogo

theorem tryReuseInputV_optInv (g : PGraph) (n : PNode) (st : MSState) (k : Nat)
    (hinv : OptInv g st) : OptInv g (tryReuseInputV g n st k) := by
  cases ho : listGetOpt n.outputs k with
  | none =>
    simp only [tryReuseInputV, ho]
    exact hinv
  | some o =>
    simp only [tryReuseInputV, ho]
    by_cases h1 : (st.plan o).kind = AllocKind.allocate
    · rw [if_pos h1]
      have hogo := allocate_not_GO g st o hinv.1 h1
      have hinv1 : OptInv g { st with inOutMap :=
          ((occVals n.inputs).foldl (fun m i => upd m i (insertUniq (m i) o))
            st.inOutMap) } := hinv
      exact tryReuseInputChain_optInv g n k o _ hinv1 hogo
    · rw [if_neg h1]
      exact hinv

theorem tryReuseInput_optInv (g : PGraph) (nidx : Nat) (st : MSState)
    (hinv : OptInv g st) : OptInv g (tryReuseInput g nidx st) := by
  unfold tryReuseInput
  cases hf : findNode g nidx with
  | none => exact hinv
  | some n =>
    refine foldl_preserves (List.range n.outputs.length) _ (OptInv g) st hinv ?_
    intro st2 k _ hq
    exact tryReuseInputV_optInv g n st2 k hq

theorem winsert_argGO (g : PGraph) (w : List ((Nat × Nat) × List WEntry))
    (key : Nat × Nat) (enew : WEntry)
    (hw : ∀ pr ∈ w, ∀ e ∈ pr.2, e.arg ∉ g.graphOutputs)
    (hnew : enew.arg ∉ g.graphOutputs) :
    ∀ pr ∈ winsert w key enew, ∀ e ∈ pr.2, e.arg ∉ g.graphOutputs := by
  intro pr hpr e he
  rcases wset_mem _ _ _ _ hpr with h | h
  · subst h
    rcases bset_mem _ _ _ he with h2 | h2
    · subst h2
      exact hnew
    · cases hlk : wlookup w key with
      | none =>
        rw [hlk] at h2
        cases h2
      | some bucket =>
        rw [hlk] at h2
        exact hw _ (wlookup_mem w key bucket hlk) e h2
  · exact hw pr h e he

theorem tryReuseOutputBody_optInv (g : PGraph) (bsz : Shape → Nat)
    (vnm : Nat → Nat) (n : PNode) (st : MSState) (o : Nat) (so : Shape)
    (hinv : OptInv g st) (halloc : (st.plan o).kind = AllocKind.allocate) :
    OptInv g (tryReuseOutputBody g bsz vnm n st o so) := by
  obtain ⟨h1, h2, h3⟩ := hinv
  have hogo := allocate_not_GO g st o h1 halloc
  cases hlk : wlookup st.waiting (g.location o, bsz so) with
  | none =>
    simp only [tryReuseOutputBody, hlk]
    exact ⟨h1, h2, winsert_argGO g st.waiting _ _ h3 hogo⟩
  | some bucket =>
    cases hsc : wscan st g o n.nid bucket with
    | none =>
      simp only [tryReuseOutputBody, hlk, hsc]
      exact ⟨h1, h2, winsert_argGO g st.waiting _ _ h3 hogo⟩
    | some pr0 =>
      obtain ⟨e0, rest⟩ := pr0
      simp only [tryReuseOutputBody, hlk, hsc]
      obtain ⟨hmem, hrest, _, _, _, _⟩ :=
        wscan_sound st g o n.nid bucket e0 rest hsc
      have he0go : e0.arg ∉ g.graphOutputs :=
        h3 _ (wlookup_mem st.waiting _ bucket hlk) e0 hmem
      obtain ⟨c1, c2⟩ := optSafe_plan_upd g st.plan e0.arg o h1 h2 he0go hogo
      refine ⟨c1, c2, ?_⟩
      intro pr hpr e he
      have hpr2 : pr ∈ (if rest.isEmpty then
          wremove st.waiting (g.location o, bsz so)
        else wset st.waiting (g.location o, bsz so) rest) := hpr
      by_cases hre : rest.isEmpty
      · rw [if_pos hre] at hpr2
        exact h3 pr (List.mem_of_mem_filter hpr2) e he
      · rw [if_neg hre] at hpr2
        rcases wset_mem _ _ _ _ hpr2 with h | h
        · subst h
          exact h3 _ (wlookup_mem st.waiting _ bucket hlk) e (hrest e he)
        · exact h3 pr h e he

theorem tryReuseOutputV_optInv (g : PGraph) (streams : List (List Nat))
    (bsz : Shape → Nat) (vnm : Nat → Nat) (n : PNode) (st : MSState) (o : Nat)
    (hinv : OptInv g st) : OptInv g (tryReuseOutputV g bsz vnm n st o) := by
  unfold tryReuseOutputV
  by_cases h1 : o ∈ st.reused ∨ (st.plan o).kind ≠ AllocKind.allocate
  · rw [if_pos h1]
    exact hinv
  · rw [if_neg h1]
    push_neg at h1
    cases hsh : g.shape o with
    | none => exact hinv
    | some so =>
      show OptInv g (tryReuseOutputBody g bsz vnm n st o so)
      exact tryReuseOutputBody_optInv g bsz vnm n st o so hinv h1.2

theorem tryReuseOutput_optInv (g : PGraph) (streams : List (List Nat))
    (bsz : Shape → Nat) (vnm : Nat → Nat) (nidx : Nat) (st : MSState)
    (hinv : OptInv g st) :
    OptInv g (tryReuseOutput g streams bsz vnm nidx st) := by
  have hinv1 : OptInv g
      { st with dependentsMap :=
          (upd st.dependentsMap nidx
            (dfsCollect (depAdjL g streams) (dfsFuel g streams) [] nidx)) } :=
    hinv
  cases hf : findNode g nidx with
  | none =>
    simp only [tryReuseOutput, hf]
    exact hinv1
  | some n =>
    simp only [tryReuseOutput, hf]
    refine foldl_preserves (occVals n.outputs) _ (OptInv g) _ hinv1 ?_
    intro st2 o _ hq
    exact tryReuseOutputV_optInv g streams bsz vnm n st2 o hq

theorem msLoop_optInv (g : PGraph) (streams : List (List Nat))
    (bsz : Shape → Nat) (vnm : Nat → Nat) :
    ∀ fuel que deps st, OptInv g st →
      OptInv g (msLoop g streams bsz vnm fuel que deps st) := by
  intro fuel
  induction fuel with
  | zero =>
    intro que deps st h
    exact h
  | succ fuel ih =>
    intro que deps st h
    cases que with
    | nil =>
      simp only [msLoop]
      exact h
    | cons nidx rest =>
      simp only [msLoop]
      refine ih _ _ _ ?_
      exact tryReuseOutput_optInv g streams bsz vnm nidx _
        (tryReuseInput_optInv g nidx st h)

/-- C5 (amended): with the computed use counts, graph outputs are never
picked up through the may-inplace clause, the freelist, or any
multi-stream optimizer rewrite — and when no kernel's mandatory alias
(plain or variadic) targets a graph output, no reuse entry of either
pass points at a graph output at all; every produced graph output ends
with kind `AllocateOutput`, `Share` or `AllocatedExternally`, in both the
single-stream plan and the optimized plan.  (The mandatory-alias proviso
is necessary: `singleStream_reuses_graph_output` shows the alias clause
itself violates the original claim.) -/
theorem graphOutputs_not_reuse_targets (g : PGraph) (ctx : PlannerCtx)
    (s0 : PassState) (streams : List (List Nat)) (bsz : Shape → Nat)
    (vnm : Nat → Nat) (consumers0 : Nat → List Nat)
    (hwf : SuffixWF g g.nodes)
    (hbuf : s0.buffer = fun v => v)
    (hfl : s0.freelist = [])
    (hcnt : ∀ v, s0.count v =
      (pinCount g v : Int) + (occMulti g.nodes v : Int))
    (hplan0 : ∀ w, (s0.plan w).kind ≠ AllocKind.reuse)
    (hga : NoAliasGO g)
    (hprod : ∀ v ∈ g.graphOutputs, v ∈ outsOf g.nodes) :
    (∀ w, ((computeSingleStreamReusePlan g ctx s0).plan w).kind =
        AllocKind.reuse →
      ((computeSingleStreamReusePlan g ctx s0).plan w).reusedBuffer ∉
        g.graphOutputs) ∧
    (∀ v ∈ g.graphOutputs,
      kindOkGO ((computeSingleStreamReusePlan g ctx s0).plan v).kind) ∧
    (∀ w, ((optimizeReusePlanForMultiStream g streams bsz vnm
        (computeSingleStreamReusePlan g ctx s0).plan consumers0).plan w).kind =
        AllocKind.reuse →
      ((optimizeReusePlanForMultiStream g streams bsz vnm
        (computeSingleStreamReusePlan g ctx s0).plan consumers0).plan
          w).reusedBuffer ∉ g.graphOutputs) ∧
    (∀ v ∈ g.graphOutputs,
      kindOkGO ((optimizeReusePlanForMultiStream g streams bsz vnm
        (computeSingleStreamReusePlan g ctx s0).plan consumers0).plan
          v).kind) := by
  have hcore : CoreInv g s0 (occMulti g.nodes) (outsOf g.nodes) := by
    refine ⟨?_, ?_, ?_, ?_, ?_⟩
    · intro v hv
      rw [hbuf]
      exact hv
    · intro v
      rw [hbuf]
    · intro r hrN hroot
      rw [hcnt r, classSum_singleton g s0.buffer (occMulti g.nodes) r hroot
        (fun u hu => by rw [hbuf]; exact hu) hrN]
    · intro v _
      rw [hbuf]
      exact ⟨rfl, fun u hu => hu⟩
    · intro r hr
      rw [hfl] at hr
      cases hr
  have hsafe0 : SafeInv g s0 (outsOf g.nodes) := by
    refine ⟨?_, ?_, ?_, ?_⟩
    · intro u hu
      rw [hbuf]
      exact hu
    · intro w hw
      exact absurd hw (hplan0 w)
    · intro r hr
      rw [hfl] at hr
      cases hr
    · intro v _ hout
      exact Or.inr hout
  have h := ssRun g ctx g.nodes s0 hwf hcore
  have hsafeF : SafeInv g (g.nodes.foldl (processNode g ctx) s0) (outsOf []) :=
    h.2.2.2 hga hsafe0
  have heq : computeSingleStreamReusePlan g ctx s0 =
      g.nodes.foldl (processNode g ctx) s0 := rfl
  have hp1 : ∀ w, ((computeSingleStreamReusePlan g ctx s0).plan w).kind =
      AllocKind.reuse →
      ((computeSingleStreamReusePlan g ctx s0).plan w).reusedBuffer ∉
        g.graphOutputs := by
    rw [heq]
    exact hsafeF.2.1
  have hp2 : ∀ v ∈ g.graphOutputs,
      kindOkGO ((computeSingleStreamReusePlan g ctx s0).plan v).kind := by
    intro v hv
    rw [heq]
    rcases hsafeF.2.2.2 v hv (hprod v hv) with hk | hk
    · exact hk
    · cases hk
  have hoinv : OptInv g (optimizeReusePlanForMultiStream g streams bsz vnm
      (computeSingleStreamReusePlan g ctx s0).plan consumers0) := by
    unfold optimizeReusePlanForMultiStream
    refine msLoop_optInv g streams bsz vnm _ _ _ _ ?_
    exact ⟨hp2, hp1, fun pr hpr => absurd hpr (List.not_mem_nil pr)⟩
  exact ⟨hp1, hp2, hoinv.2.1, hoinv.1⟩

/-- Witness: the amended C5 theorem applied to the two-node example
chain (no alias maps), with the two-stream partition for the optimizer
stage. -/
theorem graphOutputs_not_reuse_targets_witness :
    (∀ v ∈ exG7.graphOutputs, v ∈ outsOf exG7.nodes) ∧
    ((∀ w, ((computeSingleStreamReusePlan exG7 ⟨false, true⟩ exS10).plan w).kind
        = AllocKind.reuse →
      ((computeSingleStreamReusePlan exG7 ⟨false, true⟩ exS10).plan
        w).reusedBuffer ∉ exG7.graphOutputs) ∧
    (∀ v ∈ exG7.graphOutputs,
      kindOkGO ((computeSingleStreamReusePlan exG7 ⟨false, true⟩
        exS10).plan v).kind) ∧
    (∀ w, ((optimizeReusePlanForMultiStream exG7 exStreams7 (fun _ => 0)
        (fun _ => 0) (computeSingleStreamReusePlan exG7 ⟨false, true⟩
          exS10).plan (fun _ => [])).plan w).kind = AllocKind.reuse →
      ((optimizeReusePlanForMultiStream exG7 exStreams7 (fun _ => 0)
        (fun _ => 0) (computeSingleStreamReusePlan exG7 ⟨false, true⟩
          exS10).plan (fun _ => [])).plan w).reusedBuffer ∉
        exG7.graphOutputs) ∧
    (∀ v ∈ exG7.graphOutputs,
      kindOkGO ((optimizeReusePlanForMultiStream exG7 exStreams7 (fun _ => 0)
        (fun _ => 0) (computeSingleStreamReusePlan exG7 ⟨false, true⟩
          exS10).plan (fun _ => [])).plan v).kind)) :=
  ⟨by decide,
    graphOutputs_not_reuse_targets exG7 ⟨false, true⟩ exS10 exStreams7
      (fun _ => 0) (fun _ => 0) (fun _ => [])
      ⟨by decide, by decide, by decide, by decide,
        ⟨by decide, by decide, by decide, by decide, trivial⟩⟩
      rfl rfl (fun v => rfl)
      (fun w h => AllocKind.noConfusion h)
      (by
        intro n hn k r h
        have hn2 : n = exNodeA ∨ n = exNodeB := by
          rcases List.mem_cons.mp hn with h2 | h2
          · exact Or.inl h2
          · rcases List.mem_cons.mp h2 with h3 | h3
            · exact Or.inr h3
            · exact absurd h3 (List.not_mem_nil n)
        rcases hn2 with h2 | h2 <;> subst h2 <;> rcases h with h | h <;>
          simp [findAlias, findVariadic, exNodeA, exNodeB] at h)
      (by decide)⟩

/-- Example for the C1 counterexample: one stream runs A → B → D, a
second stream runs C alone; A's output (value 1) feeds both B and C,
B's output (value 2) feeds D.  All values share one location and one
shape. -/
def exMSNodeA2 : PNode :=
  ⟨0, [some 0], [], [some 1], [], none, [], false, "A", "CPU", [], [1, 3]⟩

def exMSNodeB2 : PNode :=
  ⟨1, [some 1], [], [some 2], [], none, [], false, "B", "CPU", [0], [2]⟩

def exMSNodeD2 : PNode :=
  ⟨2, [some 2], [], [some 3], [], none, [], false, "D", "CPU", [1], []⟩

def exMSNodeC2 : PNode :=
  ⟨3, [some 1], [], [some 4], [], none, [], false, "C", "CPU", [0], []⟩

def exGms2 : PGraph :=
  ⟨[exMSNodeA2, exMSNodeB2, exMSNodeD2, exMSNodeC2], [0], [], [], [],
    fun _ => some ⟨[DimV.val 4]⟩, fun _ => ⟨false, 4, true, false⟩,
    fun _ => 0, 5, none⟩

def exStreamsMs2 : List (List Nat) := [[0, 1, 2], [3]]

/-- The optimizer's decision log on the two-stream example. -/
def exLogMs2 : List ReuseLog :=
  (optimizeReusePlanForMultiStream exGms2 exStreamsMs2 (fun _ => 0) (fun _ => 0)
    (fun _ => ⟨AllocKind.allocate, 0⟩) (fun _ => [])).log

theorem exReach2_subset (x : Nat)
    (h : Relation.ReflTransGen (fun a b => b ∈ depAdjL exGms2 exStreamsMs2 a)
      2 x) : x = 2 ∨ x = 1 ∨ x = 0 := by
  induction h with
  | refl => exact Or.inl rfl
  | tail hab hbc ih =>
    rcases ih with h2 | h2 | h2 <;> subst h2
    · have hadj : depAdjL exGms2 exStreamsMs2 2 = [1, 1] := by decide
      rw [hadj] at hbc
      rcases List.mem_cons.mp hbc with h3 | h3
      · exact Or.inr (Or.inl h3)
      · rcases List.mem_cons.mp h3 with h4 | h4
        · exact Or.inr (Or.inl h4)
        · exact absurd h4 (List.not_mem_nil _)
    · have hadj : depAdjL exGms2 exStreamsMs2 1 = [0, 0] := by decide
      rw [hadj] at hbc
      rcases List.mem_cons.mp hbc with h3 | h3
      · exact Or.inr (Or.inr h3)
      · rcases List.mem_cons.mp h3 with h4 | h4
        · exact Or.inr (Or.inr h4)
        · exact absurd h4 (List.not_mem_nil _)
    · have hadj : depAdjL exGms2 exStreamsMs2 0 = [] := by decide
      rw [hadj] at hbc
      exact absurd hbc (List.not_mem_nil _)

/-- Counterexample to C1 as stated: `value_consumer_map_` is never
populated from the graph before `OptimizeReusePlanForMultiStream` runs,
so on the two-stream example the optimizer rewrites D's output (value 3)
to `Reuse(1)` — A's output — via the waiting list even though node C, a
graph-level consumer of value 1 on the other stream, is not a transitive
predecessor of D: the all-consumers-covered check ran over an empty
recorded set. -/
theorem optimizer_reuses_despite_live_consumer :
    (⟨3, 1, 0, 2, [], [4, 2]⟩ : ReuseLog) ∈ exLogMs2 ∧
    ((optimizeReusePlanForMultiStream exGms2 exStreamsMs2 (fun _ => 0)
        (fun _ => 0) (fun _ => ⟨AllocKind.allocate, 0⟩) (fun _ => [])).plan 3)
      = ⟨AllocKind.reuse, 1⟩ ∧
    exMSNodeC2 ∈ exGms2.nodes ∧
    1 ∈ occVals exMSNodeC2.inputs ∧
    ¬ Relation.ReflTransGen (fun a b => b ∈ depAdjL exGms2 exStreamsMs2 a)
      2 exMSNodeC2.nid := by
  refine ⟨by decide, by decide, by decide, by decide, ?_⟩
  intro h
  have hsub := exReach2_subset exMSNodeC2.nid h
  exact absurd hsub (by decide)
